import Mathlib

/-!
# Archive extractor (`clamav/libclamav/untar.c`)

A shallow embedding of `octal` and `cli_untar`.

* Bytes (`char`) are natural numbers; only equality with character constants is
  ever tested by the code, so signedness plays no role.
* `char block[BLOCKSIZE]` is a function from index to byte; only indices below
  512 are ever consulted.
* The input descriptor is a list of read results (`cli_readn` is declared in
  `others.h`): each gives the returned count and the content of `block` after
  the call.  Once the list is exhausted every further read returns 0 and leaves
  `block` as the previous pass left it.  A read of fewer than 512 bytes
  overwrites only the bytes it delivers; `readsFrom` computes the read results
  of a stream given by what each read delivers.
* The staging directory is the list of files created so far, in creation order.
  The C library calls whose outcome the code tests (`mkstemp`, `fdopen`,
  `fclose`, `fwrite`) are driven by the oracles of `Env`.
* `for(;;)` is `loop`, which runs the loop body at most `fuel` times;
  `cli_untar` supplies `fuelFor`, enough for every input.
-/

namespace Untar

/-! ## Data model -/

/-- Content of `char block[BLOCKSIZE]`, by index. -/
abbrev Block := Nat → Nat

/-- The constant `BLOCKSIZE`. -/
def BLOCKSIZE : Nat := 512

/-- Result of one `cli_readn(desc, block, sizeof(block))`. -/
structure Read where
  /-- Value returned: bytes read, 0 at end of stream, negative on error. -/
  nread : Int
  /-- Content of `block` after the call: the bytes read, followed, when the
  read is short, by what the storage held before (see `readsFrom`). -/
  block : Block

/-- Values `cli_untar` returns: the literal `0` and three `clamav.h` codes. -/
inductive Ret where
  | OK
  | CL_EIO
  | CL_EFORMAT
  | CL_ETMPFILE
  deriving DecidableEq, Repr

/-- A file created in the staging directory. -/
structure OutFile where
  /-- Path of the file, as left in `fullname` by `mkstemp`. -/
  name : List Nat
  /-- Bytes written so far. -/
  data : List Nat
  /-- Whether its descriptor (raw or wrapped in a `FILE`) is still open. -/
  isOpen : Bool
  deriving DecidableEq, Repr

/-- Environment: build constant, external collaborator and library outcomes. -/
structure Env where
  /-- The constant `NAME_MAX`; `fullname` has `NAME_MAX + 1` bytes. -/
  NAME_MAX : Nat
  /-- The function `sanitiseName` of `mbox.h`, on NUL-terminated strings. -/
  sanitiseName : List Nat → List Nat
  /-- Whether the `k`-th `mkstemp` call (counting from 0) can create its file. -/
  createOk : Nat → Bool
  /-- Six characters the `k`-th `mkstemp` call substitutes for `XXXXXX`. -/
  rand : Nat → List Nat
  /-- Whether `fdopen` succeeds on the descriptor of file number `i`. -/
  fdopenOk : Nat → Bool
  /-- Whether `fclose` reports success for file number `i`. -/
  fcloseOk : Nat → Bool
  /-- Bytes `fwrite` manages to write: file number, bytes already in the file,
  bytes requested. -/
  fwriteCount : Nat → Nat → Nat → Nat

/-- Local variables of `cli_untar` together with the staging directory. -/
structure State where
  /-- Field `int size`. -/
  size : Int
  /-- Field `int in_block`. -/
  in_block : Bool
  /-- Field `char fullname[NAME_MAX + 1]`, as a string. -/
  fullname : List Nat
  /-- Field `FILE *outfile`: number of the file it writes to, `none` for NULL. -/
  outfile : Option Nat
  /-- Files created so far, in creation order. -/
  files : List OutFile
  /-- Number of `mkstemp` calls made so far. -/
  opens : Nat
  deriving DecidableEq, Repr

/-- What `cli_untar` leaves behind: return value, final state, unread input. -/
structure Outcome where
  ret : Ret
  st : State
  rest : List Read

/-- Effect of one pass through the loop body. -/
inductive Step where
  /-- A `return` statement inside the loop. -/
  | ret (c : Ret) (s : State)
  /-- A `break`. -/
  | brk (s : State)
  /-- Falling off the end of the body, or `continue`. -/
  | next (s : State)
  deriving DecidableEq, Repr

/-- The state a pass through the loop body ends in. -/
def Step.state : Step → State
  | .ret _ s => s
  | .brk s => s
  | .next s => s

/-! ## Strings -/

/-- Characters before the first NUL. -/
def cstr (l : List Nat) : List Nat := l.takeWhile (fun c => c != 0)

/-- The string left in `dst` by `strncpy(dst, block+off, n); dst[n] = 0`. -/
def strncpy (block : Block) (off n : Nat) : List Nat :=
  cstr ((List.range n).map (fun i => block (off + i)))

/-- The call `strrchr(s, c)`: the tail of `s` starting at the last `c`. -/
def strrchr : List Nat → Nat → Option (List Nat)
  | [], _ => none
  | x :: xs, c =>
    match strrchr xs c with
    | some t => some t
    | none => if x = c then some (x :: xs) else none

/-- The literal `"ustar"`. -/
def ustar : List Nat := [117, 115, 116, 97, 114]

/-- The literal `"XXXXXX"`. -/
def XXXXXX : List Nat := [88, 88, 88, 88, 88, 88]

/-- Conversion to a 32-bit `int`. -/
def toInt32 (x : Int) : Int := (x + 2147483648) % 4294967296 - 2147483648

/-- Conversion to a 64-bit `size_t`. -/
def toSizeT (x : Int) : Nat := (x % 18446744073709551616).toNat

/-- The predicate `isspace` in the C locale. -/
def isspace (c : Nat) : Bool := c == 32 || (9 ≤ c && c ≤ 13)

/-- Octal digits `0`..`7`. -/
def isOctDigit (c : Nat) : Bool := 48 ≤ c && c ≤ 55

/-- Value of a run of octal digits. -/
def octValue (ds : List Nat) : Nat := ds.foldl (fun a d => a * 8 + (d - 48)) 0

/-- The digits the `%o` conversion of `sscanf` consumes: white space is
skipped, one sign is accepted, then octal digits are taken. -/
def octalDigits (str : List Nat) : List Nat :=
  let s := str.dropWhile isspace
  let s := if s.head? == some 45 || s.head? == some 43 then s.tail else s
  s.takeWhile isOctDigit

/-- The function `octal`: `ret = -1; sscanf(str, "%o", &ret); return ret;`.
Without a digit the conversion fails and `ret` keeps -1; otherwise the value,
negated after a minus sign, is stored into the 32-bit `ret`. -/
def octal (str : List Nat) : Int :=
  let neg := (str.dropWhile isspace).head? == some 45
  let ds := octalDigits str
  if ds.isEmpty then -1
  else if neg then toInt32 (-(octValue ds : Int))
  else toInt32 (octValue ds)

/-! ## Library calls on the staging directory -/

/-- Mark file number `i` closed. -/
def closeAt : List OutFile → Nat → List OutFile
  | [], _ => []
  | f :: fs, 0 => { f with isOpen := false } :: fs
  | f :: fs, i + 1 => f :: closeAt fs i

/-- Append `bytes` to file number `i`. -/
def appendAt : List OutFile → Nat → List Nat → List OutFile
  | [], _, _ => []
  | f :: fs, 0, bytes => { f with data := f.data ++ bytes } :: fs
  | f :: fs, i + 1, bytes => f :: appendAt fs i bytes

/-- The call `fclose(outfile)` (also `close(fd)`): the descriptor is released
whether or not success is reported. -/
def State.fclose (s : State) (i : Nat) : State :=
  { s with files := closeAt s.files i }

/-- Lines 150-157 when `fclose` reports success: the output file, if any, is
closed and `outfile` reset to NULL. -/
def State.closePrev (s : State) : State :=
  match s.outfile with
  | some i => { s.fclose i with outfile := none }
  | none => s

/-- The statement `if(outfile) fclose(outfile);`. -/
def State.fcloseIfOpen (s : State) : State :=
  match s.outfile with
  | some i => s.fclose i
  | none => s

/-- The call `mkstemp(template)`: fails unless the template ends in `XXXXXX`
and the file can be created; otherwise the name is the template with the six
placeholders replaced. -/
def mkstemp (env : Env) (k : Nat) (template : List Nat) : Option (List Nat) :=
  if template.drop (template.length - 6) = XXXXXX then
    if env.createOk k then some (template.take (template.length - 6) ++ env.rand k)
    else none
  else none

/-- The string left in `fullname` by
`snprintf(fullname, sizeof(fullname) - 1 - suffixLen, "%s/%.*sXXXXXX", dir,
(int)(sizeof(fullname) - 9 - suffixLen - strlen(dir)), name)`.
A negative precision is taken as if it were omitted; at most `n - 1`
characters are stored, and nothing is stored when `n` is 0. -/
def snprintfFullname (env : Env) (old dir name : List Nat) (suffixLen : Nat) :
    List Nat :=
  let sizeofFullname : Int := env.NAME_MAX + 1
  let n : Nat := toSizeT (sizeofFullname - 1 - suffixLen)
  let prec : Int := toInt32 (toSizeT (sizeofFullname - 9 - suffixLen - dir.length))
  let shown := if prec < 0 then name else name.take prec.toNat
  if n = 0 then old else (dir ++ [47] ++ shown ++ XXXXXX).take (n - 1)

/-- Length of the suffix `cli_untar` derives from the sanitised name: from the
last full stop to the end, or 0 when there is none or it exceeds 4. -/
def suffixLenOf (name : List Nat) : Nat :=
  match strrchr name 46 with
  | none => 0
  | some suffix => if suffix.length > 4 then 0 else suffix.length

/-- The text of that suffix (`""` when the length is 0). -/
def suffixOf (name : List Nat) : List Nat :=
  match strrchr name 46 with
  | none => []
  | some suffix => if suffix.length > 4 then [] else suffix

/-! ## The loop body -/

/-- The `switch(type)`: `some false` for a file, `some true` for an entry
that is skipped, `none` for the `default` case. -/
def classify (type : Nat) : Option Bool :=
  if type = 48 ∨ type = 0 ∨ type = 55 then some false
  else if type = 53 ∨ type = 50 ∨ type = 51 ∨ type = 52 ∨ type = 54 then some true
  else none

/-- The statement `if (size == 0) in_block = 0;` closing the loop body. -/
def endOfBody (s : State) : Step :=
  .next (if s.size = 0 then { s with in_block := false } else s)

/-- The sanitised member name: `strncpy(name, block, 100); name[100] = 0;
sanitiseName(name);`. -/
def memberName (env : Env) (block : Block) : List Nat :=
  env.sanitiseName (strncpy block 0 100)

/-- The template lines 198-218 leave in `fullname` for a header block. -/
def template (env : Env) (old dir : List Nat) (block : Block) : List Nat :=
  snprintfFullname env old dir (memberName env block) (suffixLenOf (memberName env block))

/-- Lines 198-250: create the output file for a file entry, then decode the
size field. -/
def extractEntry (env : Env) (dir : List Nat) (s : State) (block : Block) : Step :=
  match mkstemp env s.opens (template env s.fullname dir block) with
  | none =>
    .ret Ret.CL_ETMPFILE
      { s with fullname := template env s.fullname dir block, opens := s.opens + 1 }
  | some created =>
    let fd := s.files.length
    let s := { s with fullname := created, opens := s.opens + 1,
                      files := s.files ++ [OutFile.mk created [] true] }
    let s := { s with in_block := true }
    if !env.fdopenOk fd then .ret Ret.CL_ETMPFILE (s.fclose fd)
    else
      let s := { s with outfile := some fd }
      let s := { s with size := octal (strncpy block 124 12) }
      if s.size < 0 then .ret Ret.CL_EFORMAT (s.fclose fd)
      else endOfBody s

/-- Lines 159-250: the checks on a header block, once the previous output
file is closed. -/
def headerChecks (env : Env) (dir : List Nat) (s : State) (block : Block) : Step :=
  if block 0 = 0 then .brk s
  else if strncpy block 257 5 ≠ ustar then .ret Ret.CL_EFORMAT s
  else
    match classify (block 156) with
    | none => .ret Ret.CL_EIO s
    | some true => .next { s with in_block := false }
    | some false => extractEntry env dir s block

/-- Lines 143-250: the branch `if(!in_block)`. -/
def header (env : Env) (dir : List Nat) (s : State) (block : Block) : Step :=
  match s.outfile with
  | some i =>
    if env.fcloseOk i then headerChecks env dir s.closePrev block
    else .ret Ret.CL_EIO (s.fclose i)
  | none => headerChecks env dir s block

/-- Lines 251-260: the branch that writes file contents.  The request is
`nbytes` bytes of `block`; `fwrite` may write fewer.  The branch is entered
only with `size > 0` and `outfile` set (both are established by the header
branch), so the conversion of `nbytes` and the NULL case are never exercised. -/
def writeBody (env : Env) (s : State) (block : Block) : Step :=
  let nbytes : Int := if s.size > 512 then 512 else s.size
  let req := (List.range nbytes.toNat).map block
  let s :=
    match s.outfile with
    | some i =>
      let sofar := ((s.files.get? i).map (fun (f : OutFile) => f.data.length)).getD 0
      let nwritten := min (env.fwriteCount i sofar nbytes.toNat) nbytes.toNat
      { s with files := appendAt s.files i (req.take nwritten) }
    | none => s
  endOfBody { s with size := s.size - nbytes }

/-- One pass through the body of `for(;;)`, given the result of its read. -/
def body (env : Env) (dir : List Nat) (s : State) (r : Read) : Step :=
  if !s.in_block && r.nread == 0 then .brk s
  else if r.nread < 0 then .ret Ret.CL_EIO s.fcloseIfOpen
  else if !s.in_block then header env dir s r.block
  else writeBody env s r.block

/-- The next read: the head of the remaining input, or end of stream, which
returns 0 and leaves in `block` what the previous pass left there. -/
def nextRead (stale : Block) : List Read → Read × List Read
  | [] => (Read.mk 0 stale, [])
  | r :: rs => (r, rs)

/-- The loop `for(;;)` followed by lines 264-266, for at most `fuel` passes;
`stale` is what the storage of `block` holds when the pass starts. -/
def loop (env : Env) (dir : List Nat) :
    Nat → State → Block → List Read → Option Outcome
  | 0, _, _, _ => none
  | fuel + 1, s, stale, rs =>
    match body env dir s (nextRead stale rs).1 with
    | .ret c s => some (Outcome.mk c s (nextRead stale rs).2)
    | .brk s => some (Outcome.mk Ret.OK s.fcloseIfOpen (nextRead stale rs).2)
    | .next s => loop env dir fuel s (nextRead stale rs).1.block (nextRead stale rs).2

/-- State at entry: `size = 0`, `in_block = 0`, `outfile = NULL`, and an empty
staging directory. -/
def init : State :=
  { size := 0, in_block := false, fullname := [], outfile := none,
    files := [], opens := 0 }

/-- Passes that suffice for an input: at most `2^22` body writes for a 31-bit
size and the pass that breaks, after one pass per read. -/
def fuelFor (rs : List Read) : Nat := 4194305 + rs.length

/-- The function `cli_untar(dir, desc)`.  The initial content of `block` is
never consulted: the state at entry is not in a body. -/
def cli_untar (env : Env) (dir : List Nat) (rs : List Read) : Option Outcome :=
  loop env dir (fuelFor rs) init (fun _ => 0) rs

/-- A read that fills the whole block. -/
def fullRead (b : Block) : Read := Read.mk 512 b

/-! ## Archives -/

/-- The 512 bytes of a block, in order. -/
def blockBytes (b : Block) : List Nat := (List.range 512).map b

/-- The bytes of a run of blocks, in order. -/
def bodyBytes : List Block → List Nat
  | [] => []
  | b :: bs => blockBytes b ++ bodyBytes bs

/-- An archive member as it lies in the stream: a header block and the body
blocks that follow it. -/
structure Member where
  hdr : Block
  body : List Block

/-- The reads that deliver the members in order, each block in full, followed
by the reads `tail`. -/
def archive : List Member → List Read → List Read
  | [], tail => tail
  | m :: ms, tail => fullRead m.hdr :: (m.body.map fullRead ++ archive ms tail)

/-! ## Concrete inputs -/

/-- A header block with the given name, size field, type flag and magic; all
other bytes are NUL. -/
def mkHeader (name sizeField : List Nat) (type : Nat) (magic : List Nat) : Block :=
  fun i =>
    if i < 100 then name.getD i 0
    else if 124 ≤ i ∧ i < 136 then sizeField.getD (i - 124) 0
    else if i = 156 then type
    else if 257 ≤ i ∧ i < 263 then magic.getD (i - 257) 0
    else 0

/-- A block holding `bytes` followed by NULs. -/
def mkData (bytes : List Nat) : Block := fun i => bytes.getD i 0

/-- An environment in which every library call succeeds, `sanitiseName`
leaves names alone, and `mkstemp` substitutes `aaaaaa`. -/
def envOk : Env :=
  { NAME_MAX := 255, sanitiseName := id, createOk := fun _ => true,
    rand := fun _ => [97, 97, 97, 97, 97, 97], fdopenOk := fun _ => true,
    fcloseOk := fun _ => true, fwriteCount := fun _ _ n => n }

/-- The directory `/tmp/d`. -/
def tmpDir : List Nat := [47, 116, 109, 112, 47, 100]

/-- The name `hello.txt`. -/
def helloName : List Nat := [104, 101, 108, 108, 111, 46, 116, 120, 116]

/-- The bytes `hello\n`. -/
def helloData : List Nat := [104, 101, 108, 108, 111, 10]

/-- The size field `00000000006`. -/
def size6 : List Nat := [48, 48, 48, 48, 48, 48, 48, 48, 48, 48, 54]

/-- The size field `00000001750` (1000). -/
def size1000 : List Nat := [48, 48, 48, 48, 48, 48, 48, 49, 55, 53, 48]

/-- Header of the member `hello.txt`, a plain file of 6 bytes. -/
def helloHeader : Block := mkHeader helloName size6 48 ustar

/-- An all-zero block. -/
def zeroBlock : Block := fun _ => 0

/-- The archive holding just `hello.txt`. -/
def helloArchive : List Read :=
  [fullRead helloHeader, fullRead (mkData helloData), fullRead zeroBlock]

/-- Header of `hello.txt` with the magic replaced by `ustaX`. -/
def badMagicHeader : Block := mkHeader helloName size6 48 [117, 115, 116, 97, 88]

/-- Header of `hello.txt` with type flag `1` (hard link). -/
def hardLinkHeader : Block := mkHeader helloName size6 49 ustar

/-- Header of a directory entry `hello.txt` (type flag `5`). -/
def dirHeader : Block := mkHeader helloName size6 53 ustar

/-- Header of `hello.txt` whose size field is `-5`. -/
def negSizeHeader : Block := mkHeader helloName [45, 53] 48 ustar

/-- Header of `hello.txt` declaring 1000 bytes. -/
def bigHeader : Block := mkHeader helloName size1000 48 ustar

/-- Header of an empty member `hello.txt`. -/
def emptyHeader : Block := mkHeader helloName [48] 48 ustar

/-- As `envOk`, but `mkstemp` cannot create any file. -/
def envNoCreate : Env := { envOk with createOk := fun _ => false }

/-- As `envOk`, but every `fclose` reports failure. -/
def envNoClose : Env := { envOk with fcloseOk := fun _ => false }

/-- The archive cut short: a header declaring 1000 bytes, one body block, then
end of stream. -/
def truncatedArchive : List Read := [fullRead bigHeader, fullRead (mkData helloData)]

/-- The state in which `truncatedArchive` runs out: 488 bytes still to copy. -/
def midBody : State :=
  { size := 488, in_block := true,
    fullname := tmpDir ++ [47] ++ helloName ++ [97, 97, 97, 97, 97, 97],
    outfile := some 0,
    files := [OutFile.mk (tmpDir ++ [47] ++ helloName ++ [97, 97, 97, 97, 97, 97])
      ((List.range 512).map (mkData helloData)) true],
    opens := 1 }

/-- The state after the header of an empty member: its file is still open. -/
def afterEmpty : State :=
  { size := 0, in_block := false,
    fullname := tmpDir ++ [47] ++ helloName ++ [97, 97, 97, 97, 97, 97],
    outfile := some 0,
    files := [OutFile.mk (tmpDir ++ [47] ++ helloName ++ [97, 97, 97, 97, 97, 97]) [] true],
    opens := 1 }

/-- The member `hello.txt` with its one body block. -/
def helloMember : Member := Member.mk helloHeader [mkData helloData]

/-- A state awaiting a header with the file of the previous member still open
and the given bytes already in it. -/
def afterMember : State :=
  { size := 0, in_block := false,
    fullname := tmpDir ++ [47] ++ helloName ++ [97, 97, 97, 97, 97, 97],
    outfile := some 0,
    files := [OutFile.mk (tmpDir ++ [47] ++ helloName ++ [97, 97, 97, 97, 97, 97])
      helloData true],
    opens := 1 }

/-- The environment `env` with `fwrite` behaving as `w`. -/
def Env.withWrite (env : Env) (w : Nat → Nat → Nat → Nat) : Env :=
  { env with fwriteCount := w }

/-- A file with its contents forgotten: name and open flag remain. -/
def OutFile.shape (f : OutFile) : OutFile := { f with data := [] }

/-- A state with the contents of its files forgotten: the variables of
`cli_untar` and the sequence of files created, with their names and open
flags, remain. -/
def State.shape (s : State) : State := { s with files := s.files.map OutFile.shape }

/-- The effect of a pass with the contents of the files forgotten. -/
def Step.shape : Step → Step
  | .ret c s => .ret c s.shape
  | .brk s => .brk s.shape
  | .next s => .next s.shape

/-- As `envOk`, but `fwrite` never writes a byte. -/
def envNoWrite : Env := envOk.withWrite (fun _ _ _ => 0)

/-- The states in which some run of `cli_untar` starts a pass through the loop
body: the state at entry, and any state a pass falls through to. -/
inductive Reachable (env : Env) (dir : List Nat) : State → Prop where
  | entry : Reachable env dir init
  | pass (s t : State) (r : Read) :
      Reachable env dir s → body env dir s r = Step.next t → Reachable env dir t

/-- Every open file is the one `outfile` refers to. -/
def OnlyOutfileOpen (s : State) : Prop :=
  ∀ j f, s.files.get? j = some f → f.isOpen = true → s.outfile = some j

/-- No file of the staging directory has an open descriptor. -/
def AllClosed (s : State) : Prop := ∀ f ∈ s.files, f.isOpen = false

/-- While a body is copied the remaining size is positive and fits 31 bits. -/
def SizeInRange (s : State) : Prop :=
  s.in_block = true → 0 < s.size ∧ s.size < 2147483648

/-- What holds after a pass: no file is left open when the function returns,
and the loop goes on with at most the current file open and a sound size. -/
def GoodStep : Step → Prop
  | .ret _ s => AllClosed s
  | .brk s => AllClosed s.fcloseIfOpen
  | .next s => OnlyOutfileOpen s ∧ SizeInRange s

/-- The extraction state is well-formed: the remaining size is not negative, a
body is being copied exactly when it is positive, and then `outfile` refers
to an open file. -/
def WellFormed (s : State) : Prop :=
  0 ≤ s.size ∧ (s.in_block = true ↔ 0 < s.size) ∧
    (s.in_block = true →
      ∃ i f, s.outfile = some i ∧ s.files.get? i = some f ∧ f.isOpen = true)

/-- A pass that goes on to another pass leaves a well-formed state. -/
def WfStep : Step → Prop
  | .next s => WellFormed s
  | _ => True

/-- Header of `hello.txt` whose size field is two spaces and an `x`. -/
def noSizeHeader : Block := mkHeader helloName [32, 32, 120] 48 ustar

/-- The content of `block` after `cli_readn` has stored the `r.nread` bytes it
delivers, the first bytes of `r.block`, into storage holding `stale`: the bytes
beyond the count stay as they were. -/
def overlay (stale : Block) (r : Read) : Block :=
  fun i => if (i : Int) < r.nread then r.block i else stale i

/-- The reads of a run on a stream given by what each `cli_readn` delivers
(count and bytes), each with the content in which it leaves `block`, which
holds `stale` before the first of them. -/
def readsFrom (stale : Block) : List Read → List Read
  | [] => []
  | r :: rs => Read.mk r.nread (overlay stale r) :: readsFrom (overlay stale r) rs

/-- A read that delivers the single byte `x`. -/
def shortX : Read := Read.mk 1 (mkData [120])

end Untar

/-!
# Content buffer (`clamav/libclamav/text.c`)

A shallow embedding of `textDestroy`, `textCopy`, `textAdd`, `textAddMessage`,
`textToBlob` and `textToFileblob` over an explicit heap.

* A `text *` is an optional address; the heap holds the `text` cells ever
  allocated, a freed cell being marked.  Reading or freeing through a pointer to
  no live cell is a fault.
* `cli_malloc` (declared in `others.h`) is driven by an oracle: it may fail, and
  the cell it returns holds arbitrary content.
* Lines (`line.h`) are handles with a share count kept in the heap.
* A failed `assert` is a fault: the function does not return.
* The sinks (`blob.c`) and the messages (`message.c`) are not among the sources;
  they are modelled from what the spec says of them, and `lineGetData` is a
  parameter.
* The loops run on fuel, enough for every well-formed chain; running out of it
  stands for a loop that does not end.
-/

namespace Text

/-! ## Heap -/

/-- The type `text` of `text.h`.  A `text *` is the address of a cell and a
`line_t *` the handle of a line, both natural numbers, NULL being `none`. -/
structure Node where
  t_line : Option Nat
  t_next : Option Nat
  deriving DecidableEq, Repr

/-- Ways in which a call fails to return. -/
inductive Fault where
  /-- An `assert` fails. -/
  | assertion
  /-- A pointer to no live cell is dereferenced or freed. -/
  | badPointer
  /-- The loop does not end within its fuel. -/
  | noFuel
  deriving DecidableEq, Repr

/-- Outcome of a call: a returned value, or a fault. -/
inductive Res (α : Type) where
  | ok (a : α)
  | fault (f : Fault)

/-- The memory the functions of `text.c` work on. -/
structure Heap where
  /-- The cells ever allocated, by address; `none` once freed. -/
  nodes : List (Option Node)
  /-- Share count of each line. -/
  links : Nat → Nat

/-- Outcomes of `cli_malloc`, by the address the next cell would get. -/
structure Alloc where
  /-- Whether the allocation succeeds. -/
  ok : Nat → Bool
  /-- What the fresh cell holds before it is written. -/
  junk : Nat → Node

/-- The live cell at an address, if any. -/
def Heap.node (h : Heap) (a : Nat) : Option Node := h.nodes.getD a none

/-- Overwrite the cell at an address. -/
def Heap.setNode (h : Heap) (a : Nat) (n : Node) : Heap :=
  { h with nodes := h.nodes.set a (some n) }

/-- The call `free(p)` on a live cell. -/
def Heap.free (h : Heap) (a : Nat) : Heap :=
  { h with nodes := h.nodes.set a none }

/-- The call `cli_malloc(sizeof(text))`: NULL on failure, else a fresh cell. -/
def cli_malloc (al : Alloc) (h : Heap) : Heap × Option Nat :=
  if al.ok h.nodes.length then
    ({ h with nodes := h.nodes ++ [some (al.junk h.nodes.length)] }, some h.nodes.length)
  else (h, none)

/-- Modelled from the spec: `lineLink` of `line.c`, which is not among the
sources; "`link` increments a share count", and the handle it returns is the
one it was given. -/
def lineLink (h : Heap) (l : Nat) : Heap :=
  { h with links := fun x => if x = l then h.links x + 1 else h.links x }

/-- Modelled from the spec: `lineUnlink` of `line.c`, which is not among the
sources; "`unlink` decrements and frees at zero", a line with share count 0
being a freed one. -/
def lineUnlink (h : Heap) (l : Nat) : Heap :=
  { h with links := fun x => if x = l then h.links x - 1 else h.links x }

/-- The statement `if(l) lineLink(l)`. -/
def linkIf (h : Heap) : Option Nat → Heap
  | some l => lineLink h l
  | none => h

/-- The statement `if(l) lineUnlink(l)`. -/
def unlinkIf (h : Heap) : Option Nat → Heap
  | some l => lineUnlink h l
  | none => h

/-! ## The functions -/

/-- The loop of `textDestroy` (lines 76-82). -/
def textDestroyLoop : Nat → Heap → Option Nat → Res Heap
  | _, h, none => .ok h
  | 0, _, some _ => .fault .noFuel
  | fuel + 1, h, some a =>
    match h.node a with
    | none => .fault .badPointer
    | some n => textDestroyLoop fuel ((unlinkIf h n.t_line).free a) n.t_next

/-- The function `textDestroy(t_head)`.  Each pass frees a live cell, so the
loop cannot make more passes than there are cells. -/
def textDestroy (h : Heap) (t_head : Option Nat) : Res Heap :=
  textDestroyLoop (h.nodes.length + 1) h t_head

/-- Lines 170-173 and 207-210: store in the cell `dst` the line of the cell
`src`, linked once more if there is one. -/
def copyLine (h : Heap) (dst src : Nat) : Res (Heap × Option Nat) :=
  match h.node src with
  | none => .fault .badPointer
  | some s =>
    match (linkIf h s.t_line).node dst with
    | none => .fault .badPointer
    | some d => .ok ((linkIf h s.t_line).setNode dst { d with t_line := s.t_line }, s.t_next)

/-- The loop of `textAdd` (lines 201-213): `t_head` is the last cell of the
chain being extended, `t` walks the chain being copied.  The result is the
heap and the last cell at loop exit. -/
def textAddLoop (al : Alloc) : Nat → Heap → Nat → Option Nat → Res (Heap × Nat)
  | _, h, t_head, none => .ok (h, t_head)
  | 0, _, _, some _ => .fault .noFuel
  | fuel + 1, h, t_head, some t =>
    let m := cli_malloc al h
    match m.1.node t_head with
    | none => .fault .badPointer
    | some n =>
      let h1 := m.1.setNode t_head { n with t_next := m.2 }
      match m.2 with
      | none => .fault .assertion
      | some q =>
        match copyLine h1 q t with
        | .fault f => .fault f
        | .ok (h2, next) => textAddLoop al fuel h2 q next

/-- The loop of `textCopy` (lines 160-176), with `first` and `last`. -/
def textCopyLoop (al : Alloc) :
    Nat → Heap → Option Nat → Option Nat → Option Nat →
      Res (Heap × Option Nat × Option Nat)
  | _, h, none, first, last => .ok (h, first, last)
  | 0, _, some _, _, _ => .fault .noFuel
  | fuel + 1, h, some t, first, last =>
    let m := cli_malloc al h
    let grown : Res (Heap × Option Nat × Option Nat) :=
      match first with
      | none => .ok (m.1, m.2, m.2)
      | some f =>
        match last with
        | none => .fault .badPointer
        | some l =>
          match m.1.node l with
          | none => .fault .badPointer
          | some n => .ok (m.1.setNode l { n with t_next := m.2 }, some f, m.2)
    match grown with
    | .fault f => .fault f
    | .ok (h1, first1, last1) =>
      match last1 with
      | none => .fault .assertion
      | some q =>
        match copyLine h1 q t with
        | .fault f => .fault f
        | .ok (h2, next) => textCopyLoop al fuel h2 next first1 (some q)

/-- The statement `last->t_next = NULL` (lines 179 and 215). -/
def endChain (h : Heap) (last : Nat) : Res Heap :=
  match h.node last with
  | none => .fault .badPointer
  | some n => .ok (h.setNode last { n with t_next := none })

/-- The function `textCopy(t_head)`: the heap after the call and the pointer
returned.  The chain copied is not written to, so it cannot be longer than the
number of cells at entry. -/
def textCopy (al : Alloc) (h : Heap) (t_head : Option Nat) : Res (Heap × Option Nat) :=
  match textCopyLoop al (h.nodes.length + 1) h t_head none none with
  | .fault f => .fault f
  | .ok (h1, first, last) =>
    match first with
    | none => .ok (h1, none)
    | some f =>
      match last with
      | none => .fault .badPointer
      | some l =>
        match endChain h1 l with
        | .fault e => .fault e
        | .ok h2 => .ok (h2, some f)

/-- The loop `while(t_head->t_next) t_head = t_head->t_next;` (lines 198-199). -/
def walkToLast : Nat → Heap → Nat → Res Nat
  | 0, _, _ => .fault .noFuel
  | fuel + 1, h, a =>
    match h.node a with
    | none => .fault .badPointer
    | some n =>
      match n.t_next with
      | none => .ok a
      | some b => walkToLast fuel h b

/-- The function `textAdd(t_head, t)`: the heap after the call and the pointer
returned. -/
def textAdd (al : Alloc) (h : Heap) (t_head t : Option Nat) : Res (Heap × Option Nat) :=
  match t_head with
  | none => textCopy al h t
  | some a =>
    match t with
    | none => .ok (h, some a)
    | some _ =>
      match walkToLast (h.nodes.length + 1) h a with
      | .fault f => .fault f
      | .ok last =>
        match textAddLoop al (h.nodes.length + 1) h last t with
        | .fault f => .fault f
        | .ok (h1, last1) =>
          match endChain h1 last1 with
          | .fault e => .fault e
          | .ok h2 => .ok (h2, some a)

/-! ## Chains -/

/-- Whether the cells `cs` (address and line of each, in order) lead from the
pointer `p` to the pointer `q`. -/
def isSeg (h : Heap) : Option Nat → List (Nat × Option Nat) → Option Nat → Bool
  | p, [], q => p == q
  | none, _ :: _, _ => false
  | some a, c :: cs, q =>
    a == c.1 &&
      match h.node a with
      | none => false
      | some n => n.t_line == c.2 && isSeg h n.t_next cs q

/-- Whether `p` heads a buffer made of exactly the cells `cs`, ending in NULL. -/
def isChain (h : Heap) (p : Option Nat) (cs : List (Nat × Option Nat)) : Bool :=
  isSeg h p cs none

/-- How many cells of a buffer hold the line `l`. -/
def refs (cs : List (Nat × Option Nat)) (l : Nat) : Nat :=
  (cs.map Prod.snd).count (some l)

/-! ## Concrete inputs -/

/-- Allocation that always succeeds and returns cells full of stale pointers. -/
def allocOk : Alloc := { ok := fun _ => true, junk := fun _ => Node.mk (some 9) (some 0) }

/-- A heap with the buffer `b` at address 0 (line 0, a blank line, line 1) and
the buffer `o` at address 3 (line 1, line 2); every line is held once more
elsewhere. -/
def heap0 : Heap :=
  { nodes := [some (Node.mk (some 0) (some 1)), some (Node.mk none (some 2)),
      some (Node.mk (some 1) none), some (Node.mk (some 1) (some 4)),
      some (Node.mk (some 2) none)],
    links := fun l => if l = 0 then 2 else if l = 1 then 3 else if l = 2 then 2 else 0 }

/-- The cells of the buffer `b` of `heap0`. -/
def cellsB : List (Nat × Option Nat) := [(0, some 0), (1, none), (2, some 1)]

/-- The cells of the buffer `o` of `heap0`. -/
def cellsO : List (Nat × Option Nat) := [(3, some 1), (4, some 2)]

/-! ## Sinks -/

/-- The fault with which a call fails to return, if it does. -/
def Res.failure {α : Type} : Res α → Option Fault
  | .ok _ => none
  | .fault f => some f

/-- Modelled from the spec: the `blob` of `blob.c`, which is not among the
sources; "an in-memory growable byte buffer".  `data` holds the bytes added so
far, `size` the room reserved for them. -/
structure Blob where
  data : List Nat
  size : Nat
  deriving DecidableEq, Repr

/-- Modelled from the spec: `blobCreate` of `blob.c`, which is not among the
sources; a new sink without a byte in it, or NULL when "no sink could be
created". -/
def blobCreate (ok : Bool) : Option Blob := if ok then some (Blob.mk [] 0) else none

/-- Modelled from the spec: `blobGrow` of `blob.c`, which is not among the
sources; it "pre-sizes the sink": room is reserved, the bytes stay as they are. -/
def blobGrow (b : Blob) (len : Nat) : Blob := { b with size := b.size + len }

/-- Modelled from the spec: `blobAddData` of `blob.c`, which is not among the
sources; the bytes are added at the end of "a growable memory sink". -/
def blobAddData (b : Blob) (bytes : List Nat) : Blob :=
  { data := b.data ++ bytes, size := max b.size (b.data.length + bytes.length) }

/-- Modelled from the spec: `blobClose` of `blob.c`, which is not among the
sources; the spec gives it no effect on the bytes of the sink. -/
def blobClose (b : Blob) : Blob := b

/-- Modelled from the spec: the `fileblob` of `blob.c`, which is not among the
sources; "an open file descriptor wrapped for buffered writing".  `written`
holds the bytes written so far. -/
structure FileBlob where
  fd : Nat
  written : List Nat
  deriving DecidableEq, Repr

/-- Modelled from the spec: `fileblobAddData` of `blob.c`, which is not among
the sources; the bytes are written after those already written. -/
def fileblobAddData (fb : FileBlob) (bytes : List Nat) : FileBlob :=
  { fb with written := fb.written ++ bytes }

/-! ## Flattening

`lineGetData` (`line.c`) is a parameter: the bytes of the string of a line, so
that `strlen` of it is their number. -/

/-- The loop of `textToBlob` that sums the sizes (lines 261-265); `s` is a
64-bit `size_t`. -/
def textToBlobSize (lineGetData : Nat → List Nat) : Nat → Heap → Option Nat → Nat → Res Nat
  | _, _, none, s => .ok s
  | 0, _, some _, _ => .fault .noFuel
  | fuel + 1, h, some t1, s =>
    match h.node t1 with
    | none => .fault .badPointer
    | some n =>
      match n.t_line with
      | some l =>
        textToBlobSize lineGetData fuel h n.t_next
          ((s + ((lineGetData l).length + 1)) % 18446744073709551616)
      | none => textToBlobSize lineGetData fuel h n.t_next ((s + 1) % 18446744073709551616)

/-- The `do ... while` loop of `textToBlob` (lines 269-276). -/
def textToBlobLoop (lineGetData : Nat → List Nat) : Nat → Heap → Nat → Blob → Res Blob
  | 0, _, _, _ => .fault .noFuel
  | fuel + 1, h, t, b =>
    match h.node t with
    | none => .fault .badPointer
    | some n =>
      let b1 :=
        match n.t_line with
        | some l => blobAddData b (lineGetData l)
        | none => b
      let b2 := blobAddData b1 [10]
      match n.t_next with
      | none => .ok b2
      | some t2 => textToBlobLoop lineGetData fuel h t2 b2

/-- The function `textToBlob(t, b)`: the heap after the call and the pointer
returned; `createOk` tells whether `blobCreate` would succeed.  The buffer is
only read, so neither loop can make more passes than there are cells. -/
def textToBlob (lineGetData : Nat → List Nat) (createOk : Bool) (h : Heap) (t : Option Nat)
    (b : Option Blob) : Res (Heap × Option Blob) :=
  match t with
  | none => .fault .assertion
  | some a =>
    let b0 :=
      match b with
      | some x => some x
      | none => blobCreate createOk
    match b0 with
    | none => .ok (h, none)
    | some b =>
      match textToBlobSize lineGetData (h.nodes.length + 1) h (some a) 0 with
      | .fault f => .fault f
      | .ok s =>
        match textToBlobLoop lineGetData (h.nodes.length + 1) h a (blobGrow b s) with
        | .fault f => .fault f
        | .ok b1 => .ok (h, some (blobClose b1))

/-- The `do ... while` loop of `textToFileblob` (lines 296-303). -/
def textToFileblobLoop (lineGetData : Nat → List Nat) :
    Nat → Heap → Nat → FileBlob → Res FileBlob
  | 0, _, _, _ => .fault .noFuel
  | fuel + 1, h, t, fb =>
    match h.node t with
    | none => .fault .badPointer
    | some n =>
      let fb1 :=
        match n.t_line with
        | some l => fileblobAddData fb (lineGetData l)
        | none => fb
      let fb2 := fileblobAddData fb1 [10]
      match n.t_next with
      | none => .ok fb2
      | some t2 => textToFileblobLoop lineGetData fuel h t2 fb2

/-- The function `textToFileblob(t, fb)`: the heap after the call and the
pointer returned.  After `assert(fb != NULL)` the branch that would create a
sink is never taken. -/
def textToFileblob (lineGetData : Nat → List Nat) (h : Heap) (t : Option Nat)
    (fb : Option FileBlob) : Res (Heap × Option FileBlob) :=
  match fb with
  | none => .fault .assertion
  | some f =>
    match t with
    | none => .fault .assertion
    | some a =>
      match textToFileblobLoop lineGetData (h.nodes.length + 1) h a f with
      | .fault e => .fault e
      | .ok f1 => .ok (h, some f1)

/-- The bytes a cell contributes: those of its line, none for a NULL line,
then a newline. -/
def cellBytes (lineGetData : Nat → List Nat) (c : Nat × Option Nat) : List Nat :=
  (match c.2 with
    | some l => lineGetData l
    | none => []) ++ [10]

/-- The flat form the spec describes: "every line's bytes followed by a
newline, concatenated in sequence order". -/
def flatten (lineGetData : Nat → List Nat) : List (Nat × Option Nat) → List Nat
  | [] => []
  | c :: cs => cellBytes lineGetData c ++ flatten lineGetData cs

/-! ## Messages -/

/-- Modelled from the spec: the `message` of `message.c`, which is not among
the sources; "an external message object exposing (a) a transfer-encoding
classification, (b) a body buffer accessor, (c) a render-to-buffer operation
when encoded".  `noEncoding` is `messageGetEncoding(m) == NOENCODING`, `body`
is `messageGetBody(m)`, and `toText` is `messageToText(m)`: the heap after
rendering and the buffer rendered. -/
structure Message where
  noEncoding : Bool
  body : Option Nat
  toText : Heap → Heap × Option Nat

/-- The function `textAddMessage(aText, aMessage)`: the heap after the call and
the pointer returned. -/
def textAddMessage (al : Alloc) (h : Heap) (aText : Option Nat) (aMessage : Option Message) :
    Res (Heap × Option Nat) :=
  match aMessage with
  | none => .fault .assertion
  | some m =>
    if m.noEncoding then textAdd al h aText m.body
    else
      let r := m.toText h
      match aText with
      | some a =>
        match textAdd al r.1 (some a) r.2 with
        | .fault f => .fault f
        | .ok (h1, p) =>
          match textDestroy h1 r.2 with
          | .fault f => .fault f
          | .ok h2 => .ok (h2, p)
      | none => .ok r

/-! ## More concrete inputs -/

/-- Line 0 is `a`, line 1 is `bc`, line 2 is empty, as is every other line. -/
def lineData0 (l : Nat) : List Nat := if l = 0 then [97] else if l = 1 then [98, 99] else []

/-- As `allocOk`, but the allocation of the cell at address `k` fails. -/
def allocFailAt (k : Nat) : Alloc := { allocOk with ok := fun i => i != k }

/-- A message without transfer encoding whose body is the buffer `o` of `heap0`. -/
def msgPlain : Message := { noEncoding := true, body := some 3, toText := fun h => (h, none) }

/-- An encoded message; rendering it makes a buffer of one cell holding the new
line 7, held once. -/
def msgEncoded : Message :=
  { noEncoding := false, body := none,
    toText := fun h =>
      ({ nodes := h.nodes ++ [some (Node.mk (some 7) none)],
         links := fun l => if l = 7 then 1 else h.links l }, some h.nodes.length) }

end Text

namespace Untar

/-! ## Basic facts -/

theorem strncpy_magic (b : Block) :
    strncpy b 257 5 = ustar ↔ [b 257, b 258, b 259, b 260, b 261] = ustar := by
  have hr : List.range 5 = [0, 1, 2, 3, 4] := by decide
  simp only [strncpy, hr, List.map, cstr, ustar, Nat.add_zero]
  constructor
  · intro h
    have hp := List.takeWhile_prefix (fun c => c != 0) (l := [b 257, b (257+1), b (257+2), b (257+3), b (257+4)])
    rw [h] at hp
    have := hp.eq_of_length (by simp)
    simpa using this.symm
  · intro h
    simp only [List.cons.injEq, and_true] at h
    obtain ⟨h1, h2, h3, h4, h5⟩ := h
    simp [List.takeWhile, h1, h2, h3, h4, h5]

theorem loop_cons (env : Env) (dir : List Nat) (fuel : Nat) (s : State) (stale : Block)
    (r : Read) (rs : List Read) :
    loop env dir (fuel + 1) s stale (r :: rs) =
      match body env dir s r with
      | .ret c s => some (Outcome.mk c s rs)
      | .brk s => some (Outcome.mk Ret.OK s.fcloseIfOpen rs)
      | .next s => loop env dir fuel s r.block rs := by
  simp [loop, nextRead]

theorem closeAt_length (fs : List OutFile) (i : Nat) : (closeAt fs i).length = fs.length := by
  induction fs generalizing i with
  | nil => rfl
  | cons f fs ih => cases i <;> simp [closeAt, ih]

theorem closeAt_names (fs : List OutFile) (i : Nat) :
    (closeAt fs i).map (fun f => (f.name, f.data)) = fs.map (fun f => (f.name, f.data)) := by
  induction fs generalizing i with
  | nil => rfl
  | cons f fs ih => cases i <;> simp [closeAt, ih]

theorem closePrev_opens (s : State) : s.closePrev.opens = s.opens := by
  unfold State.closePrev; split <;> rfl

theorem closePrev_fullname (s : State) : s.closePrev.fullname = s.fullname := by
  unfold State.closePrev; split <;> rfl

theorem closePrev_in_block (s : State) : s.closePrev.in_block = s.in_block := by
  unfold State.closePrev; split <;> rfl

theorem closePrev_size (s : State) : s.closePrev.size = s.size := by
  unfold State.closePrev; split <;> rfl

theorem closePrev_outfile (s : State) : s.closePrev.outfile = none := by
  unfold State.closePrev; split
  · rfl
  · assumption

theorem closePrev_length (s : State) : s.closePrev.files.length = s.files.length := by
  unfold State.closePrev; split
  · simp [State.fclose, closeAt_length]
  · rfl

theorem closePrev_names (s : State) :
    s.closePrev.files.map (fun f => (f.name, f.data)) = s.files.map (fun f => (f.name, f.data)) := by
  unfold State.closePrev; split
  · simp only [State.fclose]; exact closeAt_names _ _
  · rfl

theorem fclose_names (s : State) (i : Nat) :
    (s.fclose i).files.map (fun f => (f.name, f.data)) = s.files.map (fun f => (f.name, f.data)) := by
  simp only [State.fclose]; exact closeAt_names _ _

theorem closePrev_init : init.closePrev = init := rfl

/-- In the header state a read that delivers data, with the previous output
file closing cleanly, reaches the header checks. -/
theorem body_header (env : Env) (dir : List Nat) (s : State) (r : Read)
    (hs : s.in_block = false) (hn : 0 < r.nread)
    (hclose : ∀ i, s.outfile = some i → env.fcloseOk i = true) :
    body env dir s r = headerChecks env dir s.closePrev r.block := by
  have h1 : (r.nread == 0) = false := by
    simp only [beq_eq_false_iff_ne, ne_eq]; omega
  have h2 : ¬ (r.nread < 0) := by omega
  simp only [body, hs, header, h1, h2]
  cases ho : s.outfile with
  | none => simp [State.closePrev, ho]
  | some i => simp [hclose i ho]

theorem loop_of_ret (env : Env) (dir : List Nat) (fuel : Nat) (s : State) (stale : Block)
    (r : Read) (rs : List Read) (c : Ret) (s1 : State)
    (h : body env dir s r = .ret c s1) :
    loop env dir (fuel + 1) s stale (r :: rs) = some (Outcome.mk c s1 rs) := by
  rw [loop_cons, h]

theorem loop_of_brk (env : Env) (dir : List Nat) (fuel : Nat) (s : State) (stale : Block)
    (r : Read) (rs : List Read) (s1 : State)
    (h : body env dir s r = .brk s1) :
    loop env dir (fuel + 1) s stale (r :: rs) = some (Outcome.mk Ret.OK s1.fcloseIfOpen rs) := by
  rw [loop_cons, h]

theorem loop_of_next (env : Env) (dir : List Nat) (fuel : Nat) (s : State) (stale : Block)
    (r : Read) (rs : List Read) (s1 : State)
    (h : body env dir s r = .next s1) :
    loop env dir (fuel + 1) s stale (r :: rs) = loop env dir fuel s1 r.block rs := by
  rw [loop_cons, h]

theorem fuelFor_cons (r : Read) (rs : List Read) : fuelFor (r :: rs) = fuelFor rs + 1 := by
  rfl

theorem cli_untar_cons (env : Env) (dir : List Nat) (r : Read) (rs : List Read) :
    cli_untar env dir (r :: rs) = loop env dir (fuelFor rs + 1) init (fun _ => 0) (r :: rs) := by
  unfold cli_untar; rw [fuelFor_cons]

/-- Bad magic stops the header checks with `CL_EFORMAT`. -/
theorem headerChecks_bad_magic (env : Env) (dir : List Nat) (s : State) (b : Block)
    (h0 : b 0 ≠ 0) (hm : [b 257, b 258, b 259, b 260, b 261] ≠ ustar) :
    headerChecks env dir s b = .ret Ret.CL_EFORMAT s := by
  have : strncpy b 257 5 ≠ ustar := fun h => hm ((strncpy_magic b).1 h)
  simp [headerChecks, h0, this]


theorem closeAt_append_last (fs : List OutFile) (f : OutFile) :
    closeAt (fs ++ [f]) fs.length = fs ++ [{ f with isOpen := false }] := by
  induction fs with
  | nil => rfl
  | cons g fs ih => simp [closeAt, ih]

theorem classify_file (t : Nat) (h : t = 48 ∨ t = 0 ∨ t = 55) : classify t = some false := by
  simp [classify, h]

theorem classify_skip (t : Nat) (h : t ∈ [53, 50, 51, 52, 54]) : classify t = some true := by
  simp only [List.mem_cons, List.mem_singleton, List.not_mem_nil, or_false] at h
  rcases h with h | h | h | h | h <;> subst h <;> rfl

theorem classify_unknown (t : Nat) (h : t ∉ [48, 0, 55, 53, 50, 51, 52, 54]) :
    classify t = none := by
  simp only [List.mem_cons, List.mem_singleton, List.not_mem_nil, or_false, not_or] at h
  obtain ⟨h1, h2, h3, h4, h5, h6, h7, h8⟩ := h
  simp [classify, h1, h2, h3, h4, h5, h6, h7, h8]

theorem headerChecks_unknown (env : Env) (dir : List Nat) (s : State) (b : Block)
    (h0 : b 0 ≠ 0) (hm : [b 257, b 258, b 259, b 260, b 261] = ustar)
    (ht : b 156 ∉ [48, 0, 55, 53, 50, 51, 52, 54]) :
    headerChecks env dir s b = .ret Ret.CL_EIO s := by
  simp [headerChecks, h0, (strncpy_magic b).2 hm, classify_unknown _ ht]

theorem headerChecks_skip (env : Env) (dir : List Nat) (s : State) (b : Block)
    (h0 : b 0 ≠ 0) (hm : [b 257, b 258, b 259, b 260, b 261] = ustar)
    (ht : b 156 ∈ [53, 50, 51, 52, 54]) :
    headerChecks env dir s b = .next { s with in_block := false } := by
  simp [headerChecks, h0, (strncpy_magic b).2 hm, classify_skip _ ht]

theorem headerChecks_file (env : Env) (dir : List Nat) (s : State) (b : Block)
    (h0 : b 0 ≠ 0) (hm : [b 257, b 258, b 259, b 260, b 261] = ustar)
    (ht : b 156 = 48 ∨ b 156 = 0 ∨ b 156 = 55) :
    headerChecks env dir s b = extractEntry env dir s b := by
  simp [headerChecks, h0, (strncpy_magic b).2 hm, classify_file _ ht]

/-- In the header state a read that delivers data either fails to close the
previous output file or reaches the header checks. -/
theorem body_header_cases (env : Env) (dir : List Nat) (s : State) (r : Read)
    (hs : s.in_block = false) (hn : 0 < r.nread) :
    (∃ i, s.outfile = some i ∧ env.fcloseOk i = false ∧
        body env dir s r = .ret Ret.CL_EIO (s.fclose i)) ∨
      body env dir s r = headerChecks env dir s.closePrev r.block := by
  have h1 : (r.nread == 0) = false := by
    simp only [beq_eq_false_iff_ne, ne_eq]; omega
  have h2 : ¬ (r.nread < 0) := by omega
  simp only [body, hs, header, h1, h2]
  cases ho : s.outfile with
  | none => right; simp [State.closePrev, ho]
  | some i =>
    cases hc : env.fcloseOk i with
    | true => right; simp [hc]
    | false => left; exact ⟨i, rfl, hc, by simp [hc]⟩

theorem octal_of_no_digits (str : List Nat) (h : octalDigits str = []) : octal str = -1 := by
  simp [octal, h]

/-- The state in which `extractEntry` leaves after a failed size check. -/
theorem extractEntry_bad_size (env : Env) (dir : List Nat) (t : State) (b : Block)
    (hc : (mkstemp env t.opens (template env t.fullname dir b)).isSome = true)
    (hf : env.fdopenOk t.files.length = true)
    (hsz : octal (strncpy b 124 12) < 0) :
    ∃ s1, extractEntry env dir t b = .ret Ret.CL_EFORMAT s1 := by
  obtain ⟨nm, hnm⟩ := Option.isSome_iff_exists.1 hc
  simp only [extractEntry, hnm, hf]
  simp [hsz]

theorem extractEntry_no_file (env : Env) (dir : List Nat) (t : State) (b : Block)
    (h : mkstemp env t.opens (template env t.fullname dir b) = none ∨
      env.fdopenOk t.files.length = false) :
    ∃ s1, extractEntry env dir t b = .ret Ret.CL_ETMPFILE s1 ∧
      ∀ f ∈ s1.files.drop t.files.length, f.isOpen = false := by
  cases hm : mkstemp env t.opens (template env t.fullname dir b) with
  | none =>
    refine ⟨{ t with fullname := template env t.fullname dir b, opens := t.opens + 1 },
      by simp only [extractEntry, hm], ?_⟩
    simp
  | some nm =>
    have hf : env.fdopenOk t.files.length = false := by
      rcases h with h | h
      · rw [hm] at h; cases h
      · exact h
    refine ⟨_, by simp only [extractEntry, hm, hf]; rfl, ?_⟩
    simp [State.fclose, closeAt_append_last]

/-! ## Claims -/

/-- C2, as stated, fails: after the header of an empty member `cli_untar` awaits a header
with that member's file open; when the next block has a non-NUL first byte and a magic that
is not `ustar`, and closing the file fails, `cli_untar` returns `CL_EIO`, not
`CL_EFORMAT`. -/
theorem C2_counterexample :
    body envNoClose tmpDir init (fullRead emptyHeader) = .next afterEmpty
    ∧ afterEmpty.in_block = false ∧ badMagicHeader 0 ≠ 0
    ∧ [badMagicHeader 257, badMagicHeader 258, badMagicHeader 259, badMagicHeader 260,
        badMagicHeader 261] ≠ ustar
    ∧ (cli_untar envNoClose tmpDir
        [fullRead emptyHeader, fullRead badMagicHeader, fullRead zeroBlock]).map
        Outcome.ret = some Ret.CL_EIO
    ∧ (cli_untar envNoClose tmpDir
        [fullRead emptyHeader, fullRead badMagicHeader, fullRead zeroBlock]).map
        Outcome.ret ≠ some Ret.CL_EFORMAT := by
  decide

/-- C2, amended: when `cli_untar` awaits a header and reads a block whose first byte is not
NUL and whose bytes 257-261 are not `ustar`, whatever its type flag and size field, it
makes no `mkstemp` call, creates no file and leaves the rest of the input unread; it
returns `CL_EFORMAT` when there is no current output file or its `fclose` succeeds, and
`CL_EIO` when that `fclose` fails.  When the block is the first of the stream the result is
`CL_EFORMAT` with an empty staging directory. -/
theorem C2_bad_magic_header (env : Env) (dir : List Nat) (fuel : Nat) (s : State)
    (stale : Block) (r : Read) (rest : List Read)
    (hs : s.in_block = false) (hn : 0 < r.nread)
    (h0 : r.block 0 ≠ 0)
    (hmagic : [r.block 257, r.block 258, r.block 259, r.block 260, r.block 261] ≠ ustar) :
    (∃ o, loop env dir (fuel + 1) s stale (r :: rest) = some o
      ∧ o.rest = rest
      ∧ o.st.opens = s.opens
      ∧ o.st.files.map (fun f => (f.name, f.data)) = s.files.map (fun f => (f.name, f.data))
      ∧ ((∀ i, s.outfile = some i → env.fcloseOk i = true) → o.ret = Ret.CL_EFORMAT)
      ∧ (∀ i, s.outfile = some i → env.fcloseOk i = false → o.ret = Ret.CL_EIO))
    ∧ cli_untar env dir (r :: rest) = some (Outcome.mk Ret.CL_EFORMAT init rest) := by
  constructor
  · rcases body_header_cases env dir s r hs hn with ⟨i, ho, hc, hb⟩ | hb
    · refine ⟨_, loop_of_ret env dir fuel s stale r rest _ _ hb, rfl, rfl, fclose_names s i,
        ?_, fun _ _ _ => rfl⟩
      intro h; rw [h i ho] at hc; cases hc
    · have hb2 : body env dir s r = .ret Ret.CL_EFORMAT s.closePrev := by
        rw [hb]; exact headerChecks_bad_magic env dir _ _ h0 hmagic
      refine ⟨_, loop_of_ret env dir fuel s stale r rest _ _ hb2, rfl, closePrev_opens s,
        closePrev_names s, fun _ => rfl, ?_⟩
      intro i ho hc
      exfalso
      have h1 : (r.nread == 0) = false := by
        simp only [beq_eq_false_iff_ne, ne_eq]; omega
      have h2 : ¬ (r.nread < 0) := by omega
      simp [body, hs, header, h1, h2, ho, hc] at hb2
  · rw [cli_untar_cons]
    apply loop_of_ret
    rw [body_header env dir init r rfl hn (fun i h => by simp [init] at h), closePrev_init]
    exact headerChecks_bad_magic env dir _ _ h0 hmagic

theorem C2_witness :
    (∃ o, loop envNoClose tmpDir 1 afterEmpty emptyHeader
          [fullRead badMagicHeader, fullRead zeroBlock] = some o
      ∧ o.rest = [fullRead zeroBlock]
      ∧ o.st.opens = afterEmpty.opens
      ∧ o.st.files.map (fun f => (f.name, f.data)) =
          afterEmpty.files.map (fun f => (f.name, f.data))
      ∧ ((∀ i, afterEmpty.outfile = some i → envNoClose.fcloseOk i = true) →
          o.ret = Ret.CL_EFORMAT)
      ∧ (∀ i, afterEmpty.outfile = some i → envNoClose.fcloseOk i = false →
          o.ret = Ret.CL_EIO))
    ∧ cli_untar envNoClose tmpDir [fullRead badMagicHeader, fullRead zeroBlock] =
        some (Outcome.mk Ret.CL_EFORMAT init [fullRead zeroBlock]) :=
  C2_bad_magic_header envNoClose tmpDir 0 afterEmpty emptyHeader (fullRead badMagicHeader)
    [fullRead zeroBlock] rfl (by decide) (by decide) (by decide)

/-- C6: a header block examined in the awaiting-header state whose first byte is not NUL,
whose magic is `ustar` and whose type flag is none of `0`, NUL, `7`, `5`, `2`, `3`, `4`,
`6` makes `cli_untar` return `CL_EIO`, whatever its size field: no `mkstemp` call is made,
the staging directory keeps the same files and the rest of the input is left unread. -/
theorem C6_unknown_type_is_EIO (env : Env) (dir : List Nat) (fuel : Nat) (s : State)
    (stale : Block) (r : Read) (rest : List Read)
    (hs : s.in_block = false) (hn : 0 < r.nread)
    (h0 : r.block 0 ≠ 0)
    (hmagic : [r.block 257, r.block 258, r.block 259, r.block 260, r.block 261] = ustar)
    (htype : r.block 156 ∉ [48, 0, 55, 53, 50, 51, 52, 54]) :
    ∃ s1, loop env dir (fuel + 1) s stale (r :: rest) = some (Outcome.mk Ret.CL_EIO s1 rest)
      ∧ s1.opens = s.opens
      ∧ s1.files.map (fun f => (f.name, f.data)) = s.files.map (fun f => (f.name, f.data)) := by
  rcases body_header_cases env dir s r hs hn with ⟨i, _, _, hb⟩ | hb
  · exact ⟨s.fclose i, loop_of_ret env dir fuel s stale r rest _ _ hb, rfl, fclose_names s i⟩
  · rw [headerChecks_unknown env dir _ _ h0 hmagic htype] at hb
    exact ⟨s.closePrev, loop_of_ret env dir fuel s stale r rest _ _ hb, closePrev_opens s,
      closePrev_names s⟩

theorem C6_witness :
    ∃ s1, loop envOk tmpDir 1 init zeroBlock [fullRead hardLinkHeader, fullRead zeroBlock] =
          some (Outcome.mk Ret.CL_EIO s1 [fullRead zeroBlock])
      ∧ s1.opens = init.opens
      ∧ s1.files.map (fun f => (f.name, f.data)) = init.files.map (fun f => (f.name, f.data)) :=
  C6_unknown_type_is_EIO envOk tmpDir 0 init zeroBlock (fullRead hardLinkHeader)
    [fullRead zeroBlock] rfl (by decide) (by decide) (by decide) (by decide)

/-- C7, as stated, fails: the header of `hello.txt` with type flag `1` has a non-NUL first
byte, magic `ustar` and an unrecognised flag, and `cli_untar` returns `CL_EIO` for it, not
`CL_EFORMAT`. -/
theorem C7_counterexample :
    hardLinkHeader 0 ≠ 0
    ∧ [hardLinkHeader 257, hardLinkHeader 258, hardLinkHeader 259, hardLinkHeader 260,
        hardLinkHeader 261] = ustar
    ∧ hardLinkHeader 156 ∉ [48, 0, 55, 53, 50, 51, 52, 54]
    ∧ (cli_untar envOk tmpDir [fullRead hardLinkHeader]).map Outcome.ret = some Ret.CL_EIO
    ∧ (cli_untar envOk tmpDir [fullRead hardLinkHeader]).map Outcome.ret ≠
        some Ret.CL_EFORMAT := by
  decide

/-- C7, amended: a header block examined in the awaiting-header state whose first byte is
not NUL, whose magic is `ustar` and whose type flag is unrecognised makes `cli_untar`
return the I/O failure code `CL_EIO` (line 190), from any such state and in particular
when it is the first block of the stream. -/
theorem C7_unknown_type_code (env : Env) (dir : List Nat) (fuel : Nat) (s : State)
    (stale : Block) (r : Read) (rest : List Read)
    (hs : s.in_block = false) (hn : 0 < r.nread)
    (h0 : r.block 0 ≠ 0)
    (hmagic : [r.block 257, r.block 258, r.block 259, r.block 260, r.block 261] = ustar)
    (htype : r.block 156 ∉ [48, 0, 55, 53, 50, 51, 52, 54]) :
    (loop env dir (fuel + 1) s stale (r :: rest)).map Outcome.ret = some Ret.CL_EIO
    ∧ (cli_untar env dir (r :: rest)).map Outcome.ret = some Ret.CL_EIO := by
  constructor
  · rcases body_header_cases env dir s r hs hn with ⟨i, _, _, hb⟩ | hb
    · rw [loop_of_ret env dir fuel s stale r rest _ _ hb]; rfl
    · rw [headerChecks_unknown env dir _ _ h0 hmagic htype] at hb
      rw [loop_of_ret env dir fuel s stale r rest _ _ hb]; rfl
  · have hb := body_header env dir init r rfl hn (fun i h => by simp [init] at h)
    rw [headerChecks_unknown env dir _ _ h0 hmagic htype] at hb
    rw [cli_untar_cons, loop_of_ret env dir _ init _ r rest _ _ hb]; rfl

theorem C7_witness :
    (loop envOk tmpDir 1 init zeroBlock [fullRead hardLinkHeader]).map Outcome.ret =
        some Ret.CL_EIO
    ∧ (cli_untar envOk tmpDir [fullRead hardLinkHeader]).map Outcome.ret = some Ret.CL_EIO :=
  C7_unknown_type_code envOk tmpDir 0 init zeroBlock (fullRead hardLinkHeader) []
    rfl (by decide) (by decide) (by decide) (by decide)

/-- C8: a header block examined in the awaiting-header state with non-NUL first byte, magic
`ustar` and a regular-file type flag (`0`, NUL or `7`), for which `mkstemp` and `fdopen`
succeed, makes `cli_untar` return `CL_EFORMAT` and leave the rest of the input unread when
its size field holds no octal number (no octal digit after the white space and optional
sign, so that `octal` keeps -1) or decodes to a negative value. -/
theorem C8_bad_size_is_EFORMAT (env : Env) (dir : List Nat) (fuel : Nat) (s : State)
    (stale : Block) (r : Read) (rest : List Read)
    (hs : s.in_block = false) (hn : 0 < r.nread)
    (hclose : ∀ i, s.outfile = some i → env.fcloseOk i = true)
    (h0 : r.block 0 ≠ 0)
    (hmagic : [r.block 257, r.block 258, r.block 259, r.block 260, r.block 261] = ustar)
    (htype : r.block 156 = 48 ∨ r.block 156 = 0 ∨ r.block 156 = 55)
    (hcreate : (mkstemp env s.opens (template env s.fullname dir r.block)).isSome = true)
    (hfdopen : env.fdopenOk s.files.length = true)
    (hsize : octalDigits (strncpy r.block 124 12) = [] ∨ octal (strncpy r.block 124 12) < 0) :
    ∃ s1, loop env dir (fuel + 1) s stale (r :: rest) =
      some (Outcome.mk Ret.CL_EFORMAT s1 rest) := by
  have hsz : octal (strncpy r.block 124 12) < 0 := by
    rcases hsize with h | h
    · rw [octal_of_no_digits _ h]; decide
    · exact h
  have hb := body_header env dir s r hs hn hclose
  rw [headerChecks_file env dir _ _ h0 hmagic htype] at hb
  obtain ⟨s1, h1⟩ := extractEntry_bad_size env dir s.closePrev r.block
    (by rw [closePrev_opens, closePrev_fullname]; exact hcreate)
    (by rw [closePrev_length]; exact hfdopen) hsz
  exact ⟨s1, loop_of_ret env dir fuel s stale r rest _ _ (hb.trans h1)⟩

theorem C8_witness :
    ∃ s1, loop envOk tmpDir 1 init zeroBlock [fullRead negSizeHeader, fullRead zeroBlock] =
      some (Outcome.mk Ret.CL_EFORMAT s1 [fullRead zeroBlock]) :=
  C8_bad_size_is_EFORMAT envOk tmpDir 0 init zeroBlock (fullRead negSizeHeader)
    [fullRead zeroBlock] rfl (by decide) (fun i h => by simp [init] at h) (by decide)
    (by decide) (by decide) (by decide) (by decide) (by decide)

/-- C10: a header block examined in the awaiting-header state with non-NUL first byte,
magic `ustar` and a regular-file type flag, whatever its size field, makes `cli_untar`
return `CL_ETMPFILE` when `mkstemp` fails or `fdopen` fails on its descriptor; the rest of
the input is left unread and every file created for that member (those beyond the files
that existed before) has its descriptor closed. -/
theorem C10_no_output_file_is_ETMPFILE (env : Env) (dir : List Nat) (fuel : Nat) (s : State)
    (stale : Block) (r : Read) (rest : List Read)
    (hs : s.in_block = false) (hn : 0 < r.nread)
    (hclose : ∀ i, s.outfile = some i → env.fcloseOk i = true)
    (h0 : r.block 0 ≠ 0)
    (hmagic : [r.block 257, r.block 258, r.block 259, r.block 260, r.block 261] = ustar)
    (htype : r.block 156 = 48 ∨ r.block 156 = 0 ∨ r.block 156 = 55)
    (hfail : mkstemp env s.opens (template env s.fullname dir r.block) = none ∨
      env.fdopenOk s.files.length = false) :
    ∃ s1, loop env dir (fuel + 1) s stale (r :: rest) =
        some (Outcome.mk Ret.CL_ETMPFILE s1 rest)
      ∧ ∀ f ∈ s1.files.drop s.files.length, f.isOpen = false := by
  have hb := body_header env dir s r hs hn hclose
  rw [headerChecks_file env dir _ _ h0 hmagic htype] at hb
  obtain ⟨s1, h1, h2⟩ := extractEntry_no_file env dir s.closePrev r.block
    (by rw [closePrev_opens, closePrev_fullname, closePrev_length]; exact hfail)
  rw [closePrev_length] at h2
  exact ⟨s1, loop_of_ret env dir fuel s stale r rest _ _ (hb.trans h1), h2⟩

theorem C10_witness :
    ∃ s1, loop envNoCreate tmpDir 1 init zeroBlock [fullRead helloHeader, fullRead zeroBlock] =
        some (Outcome.mk Ret.CL_ETMPFILE s1 [fullRead zeroBlock])
      ∧ ∀ f ∈ s1.files.drop init.files.length, f.isOpen = false :=
  C10_no_output_file_is_ETMPFILE envNoCreate tmpDir 0 init zeroBlock (fullRead helloHeader)
    [fullRead zeroBlock] rfl (by decide) (fun i h => by simp [init] at h) (by decide)
    (by decide) (by decide) (Or.inl (by decide))

theorem loop_nil (env : Env) (dir : List Nat) (fuel : Nat) (s : State) (stale : Block) :
    loop env dir (fuel + 1) s stale [] =
      match body env dir s (Read.mk 0 stale) with
      | .ret c s => some (Outcome.mk c s [])
      | .brk s => some (Outcome.mk Ret.OK s.fcloseIfOpen [])
      | .next s => loop env dir fuel s stale [] := by
  simp [loop, nextRead]

theorem body_eof_header (env : Env) (dir : List Nat) (s : State) (b : Block)
    (hs : s.in_block = false) : body env dir s (Read.mk 0 b) = .brk s := by
  simp [body, hs]

/-- Outside a body the content left in `block` by the previous pass plays no role. -/
theorem loop_stale_irrelevant (env : Env) (dir : List Nat) (fuel : Nat) (s : State)
    (b1 b2 : Block) (rs : List Read) (hs : s.in_block = false) :
    loop env dir fuel s b1 rs = loop env dir fuel s b2 rs := by
  cases fuel with
  | zero => rfl
  | succ fuel =>
    cases rs with
    | nil => rw [loop_nil, loop_nil, body_eof_header _ _ _ _ hs, body_eof_header _ _ _ _ hs]
    | cons r rs => rw [loop_cons, loop_cons]

theorem body_copying (env : Env) (dir : List Nat) (s : State) (r : Read)
    (hs : s.in_block = true) (hn : 0 ≤ r.nread) :
    body env dir s r = writeBody env s r.block := by
  have h2 : ¬ (r.nread < 0) := by omega
  simp [body, hs, h2]

theorem body_read_error (env : Env) (dir : List Nat) (s : State) (r : Read)
    (hn : r.nread < 0) : body env dir s r = .ret Ret.CL_EIO s.fcloseIfOpen := by
  have h1 : ¬ (r.nread = 0) := by omega
  simp [body, hn, h1]

theorem closeAt_get? (fs : List OutFile) (i : Nat) (f : OutFile)
    (h : (closeAt fs i).get? i = some f) : f.isOpen = false := by
  induction fs generalizing i with
  | nil => simp [closeAt] at h
  | cons g fs ih =>
    cases i with
    | zero =>
      simp only [closeAt, List.get?_cons_zero, Option.some.injEq] at h
      rw [← h]
    | succ i =>
      simp only [closeAt, List.get?_cons_succ] at h
      exact ih i h

theorem set_in_block_false (s : State) (hs : s.in_block = false) :
    { s with in_block := false } = s := by
  cases s; simp only [State.mk.injEq] at *; simp [hs]

/-- C3, as stated, fails: on a header declaring 1000 bytes, one body block, then end of
stream, the read that returns 0 finds `cli_untar` copying a body with 488 bytes
remaining, and `cli_untar` returns 0, not `CL_EIO`. -/
theorem C3_counterexample :
    (∃ s1, body envOk tmpDir init (fullRead bigHeader) = .next s1 ∧
      body envOk tmpDir s1 (fullRead (mkData helloData)) = .next midBody)
    ∧ midBody.in_block = true ∧ 0 < midBody.size
    ∧ (cli_untar envOk tmpDir truncatedArchive).map Outcome.ret = some Ret.OK
    ∧ (cli_untar envOk tmpDir truncatedArchive).map Outcome.ret ≠ some Ret.CL_EIO := by
  refine ⟨⟨_, rfl, ?_⟩, rfl, by decide, by decide, by decide⟩
  set_option maxRecDepth 100000 in decide

/-- C3, amended: while a body is being copied only a failed read (negative count) makes
`cli_untar` return `CL_EIO`, the open output file being closed first.  A read that
returns fewer bytes than a block, zero included, is not detected: it is handled exactly
as a full read leaving the same content in `block`, and end of stream as a full read of
what the previous pass left there. -/
theorem C3_only_failed_read_aborts (env : Env) (dir : List Nat) (fuel : Nat) (s : State)
    (stale : Block) (r : Read) (rest : List Read) (hs : s.in_block = true) :
    (r.nread < 0 →
      loop env dir (fuel + 1) s stale (r :: rest) =
          some (Outcome.mk Ret.CL_EIO s.fcloseIfOpen rest)
        ∧ ∀ i f, s.outfile = some i → s.fcloseIfOpen.files.get? i = some f →
            f.isOpen = false)
    ∧ (0 ≤ r.nread →
      loop env dir (fuel + 1) s stale (r :: rest) =
        loop env dir (fuel + 1) s stale (fullRead r.block :: rest))
    ∧ loop env dir (fuel + 1) s stale [] = loop env dir (fuel + 1) s stale [fullRead stale] := by
  refine ⟨fun hn => ⟨loop_of_ret env dir fuel s stale r rest _ _ (body_read_error env dir s r hn),
    ?_⟩, fun hn => ?_, ?_⟩
  · intro i f ho hf
    simp only [State.fcloseIfOpen, ho, State.fclose] at hf
    exact closeAt_get? _ _ _ hf
  · rw [loop_cons, loop_cons, body_copying env dir s r hs hn,
      body_copying env dir s (fullRead r.block) hs (by simp [fullRead])]
    rfl
  · rw [loop_nil, loop_cons, body_copying env dir s (Read.mk 0 stale) hs (le_refl _),
      body_copying env dir s (fullRead stale) hs (by simp [fullRead])]
    rfl

theorem C3_witness :
    midBody.in_block = true
    ∧ ((-1 : Int) < 0 →
      loop envOk tmpDir 3 midBody zeroBlock [Read.mk (-1) zeroBlock] =
          some (Outcome.mk Ret.CL_EIO midBody.fcloseIfOpen [])
        ∧ ∀ i f, midBody.outfile = some i → midBody.fcloseIfOpen.files.get? i = some f →
            f.isOpen = false)
    ∧ ((0 : Int) ≤ -1 →
      loop envOk tmpDir 3 midBody zeroBlock [Read.mk (-1) zeroBlock] =
        loop envOk tmpDir 3 midBody zeroBlock [fullRead zeroBlock])
    ∧ loop envOk tmpDir 3 midBody zeroBlock [] =
        loop envOk tmpDir 3 midBody zeroBlock [fullRead zeroBlock] :=
  ⟨rfl, C3_only_failed_read_aborts envOk tmpDir 2 midBody zeroBlock (Read.mk (-1) zeroBlock)
    [] rfl⟩

/-- A skipped header read first leaves the run as it is on the reads that follow, these
being given with the content in which each leaves `block`. -/
theorem cli_untar_skip (env : Env) (dir : List Nat) (n : Int) (h : Block)
    (rest : List Read) (hn : 0 < n) (h0 : h 0 ≠ 0)
    (hmagic : [h 257, h 258, h 259, h 260, h 261] = ustar)
    (htype : h 156 ∈ [53, 50, 51, 52, 54]) :
    body env dir init (Read.mk n h) = .next init
    ∧ cli_untar env dir (Read.mk n h :: rest) = cli_untar env dir rest := by
  have hb : body env dir init (Read.mk n h) = .next init := by
    rw [body_header env dir init (Read.mk n h) rfl hn (fun i h => by simp [init] at h),
      closePrev_init, headerChecks_skip env dir _ _ h0 hmagic htype]
    rfl
  refine ⟨hb, ?_⟩
  rw [cli_untar_cons, loop_of_next env dir _ init _ _ rest _ hb]
  exact loop_stale_irrelevant env dir _ init _ _ rest rfl

theorem overlay_full (stale h : Block) (i : Nat) (hi : i < 512) :
    overlay stale (fullRead h) i = h i := by
  have : (i : Int) < 512 := by omega
  simp [overlay, fullRead, this]

theorem overlay_full_beyond (stale h : Block) (i : Nat) (hi : ¬ ((i : Int) < 512)) :
    overlay stale (fullRead h) i = stale i := by
  simp [overlay, fullRead, hi]

theorem overlay_nonpos (stale : Block) (r : Read) (hn : r.nread ≤ 0) :
    overlay stale r = stale := by
  funext i
  have : ¬ ((i : Int) < r.nread) := by omega
  simp [overlay, this]

/-- A first read that delivers nothing ends the run whatever `block` holds. -/
theorem cli_untar_first_nonpos (env : Env) (dir : List Nat) (n : Int) (b : Block)
    (rs : List Read) (hn : n ≤ 0) :
    (cli_untar env dir (Read.mk n b :: rs)).map (fun o => (o.ret, o.st)) =
      some (if n = 0 then Ret.OK else Ret.CL_EIO, init.fcloseIfOpen) := by
  rw [cli_untar_cons]
  by_cases hz : n = 0
  · subst hz
    rw [loop_of_brk env dir _ init _ _ rs init (body_eof_header env dir init b rfl)]
    rfl
  · rw [loop_of_ret env dir _ init _ _ rs Ret.CL_EIO init.fcloseIfOpen
      (body_read_error env dir init (Read.mk n b) (by show n < 0; omega))]
    simp [hz]

/-- C4, as stated, fails: `cli_untar` on a directory header followed by a read of the
single byte `x` returns 0, since the rest of `block` still holds the header (magic `ustar`,
type `5`) and the block is skipped again; on that read alone it returns `CL_EFORMAT`. -/
theorem C4_counterexample :
    dirHeader 0 ≠ 0
    ∧ [dirHeader 257, dirHeader 258, dirHeader 259, dirHeader 260, dirHeader 261] = ustar
    ∧ dirHeader 156 = 53
    ∧ (cli_untar envOk tmpDir (readsFrom zeroBlock [fullRead dirHeader, shortX])).map
        Outcome.ret = some Ret.OK
    ∧ (cli_untar envOk tmpDir (readsFrom zeroBlock [shortX])).map
        Outcome.ret = some Ret.CL_EFORMAT := by
  set_option maxRecDepth 100000 in decide

/-- C4, amended: a header block `h` with non-NUL first byte, magic `ustar` and type flag
`5`, `2`, `3`, `4` or `6`, whatever its size field, read first, is passed over without any
`mkstemp` call and without any change to the (empty) staging directory or to the other
variables.  When the stream `rest` that follows is empty, or its first read fills the whole
block, fails or meets the end of the stream, `cli_untar` on `h` followed by `rest` ends as
`cli_untar` on `rest` alone: same return value, same files with the same contents.  (After
a first read of fewer bytes the rest of `block` still holds `h`.) -/
theorem C4_skipped_entry (env : Env) (dir : List Nat) (block0 h : Block) (rest : List Read)
    (h0 : h 0 ≠ 0) (hmagic : [h 257, h 258, h 259, h 260, h 261] = ustar)
    (htype : h 156 ∈ [53, 50, 51, 52, 54])
    (hrest : rest = [] ∨ ∃ r rs, rest = r :: rs ∧ (r.nread = 512 ∨ r.nread ≤ 0)) :
    body env dir init (Read.mk 512 (overlay block0 (fullRead h))) = .next init
    ∧ (cli_untar env dir (readsFrom block0 (fullRead h :: rest))).map (fun o => (o.ret, o.st)) =
        (cli_untar env dir (readsFrom block0 rest)).map (fun o => (o.ret, o.st)) := by
  have hskip := cli_untar_skip env dir 512 (overlay block0 (fullRead h))
    (readsFrom (overlay block0 (fullRead h)) rest) (by decide)
    (by rw [overlay_full _ _ _ (by decide)]; exact h0)
    (by
      rw [overlay_full _ _ _ (by decide), overlay_full _ _ _ (by decide),
        overlay_full _ _ _ (by decide), overlay_full _ _ _ (by decide),
        overlay_full _ _ _ (by decide)]
      exact hmagic)
    (by rw [overlay_full _ _ _ (by decide)]; exact htype)
  refine ⟨hskip.1, ?_⟩
  have hrun : cli_untar env dir (readsFrom block0 (fullRead h :: rest)) =
      cli_untar env dir (readsFrom (overlay block0 (fullRead h)) rest) := hskip.2
  rw [hrun]
  rcases hrest with rfl | ⟨r, rs, rfl, hfull | hnon⟩
  · simp only [readsFrom]
  · have hov : overlay (overlay block0 (fullRead h)) r = overlay block0 r := by
      funext i
      by_cases hi : (i : Int) < r.nread
      · simp [overlay, hi]
      · have hi2 : ¬ ((i : Int) < 512) := by rw [← hfull]; exact hi
        simp only [overlay, hi, if_false]
        exact overlay_full_beyond block0 h i hi2
    simp only [readsFrom, hov]
  · simp only [readsFrom, overlay_nonpos _ r hnon]
    rw [cli_untar_first_nonpos env dir r.nread _ _ hnon,
      cli_untar_first_nonpos env dir r.nread _ _ hnon]

theorem C4_witness :
    body envOk tmpDir init (Read.mk 512 (overlay zeroBlock (fullRead dirHeader))) = .next init
    ∧ (cli_untar envOk tmpDir (readsFrom zeroBlock (fullRead dirHeader :: helloArchive))).map
          (fun o => (o.ret, o.st)) =
        (cli_untar envOk tmpDir (readsFrom zeroBlock helloArchive)).map
          (fun o => (o.ret, o.st)) :=
  C4_skipped_entry envOk tmpDir zeroBlock dirHeader helloArchive (by decide) (by decide)
    (by decide) (Or.inr ⟨fullRead helloHeader, _, rfl, Or.inl rfl⟩)

/-- C5, as stated, fails: after the header of an empty member `cli_untar` awaits a header
with that member's file open; when the next block starts with NUL and closing the file
fails, `cli_untar` returns `CL_EIO`, not 0. -/
theorem C5_counterexample :
    body envNoClose tmpDir init (fullRead emptyHeader) = .next afterEmpty
    ∧ afterEmpty.in_block = false ∧ zeroBlock 0 = 0
    ∧ (cli_untar envNoClose tmpDir [fullRead emptyHeader, fullRead zeroBlock]).map
        Outcome.ret = some Ret.CL_EIO
    ∧ (cli_untar envNoClose tmpDir [fullRead emptyHeader, fullRead zeroBlock]).map
        Outcome.ret ≠ some Ret.OK := by
  decide

/-- C5, amended: when `cli_untar` awaits a header and reads a block whose first byte is
NUL, whatever the other bytes and whatever follows, it closes the current output file if
any, reads no further block, makes no `mkstemp` call and creates no file; it returns 0
when there is no current output file or its `fclose` succeeds, and `CL_EIO` when that
`fclose` fails.  A stream whose first block starts with NUL returns 0 with an empty
staging directory. -/
theorem C5_nul_block_ends_stream (env : Env) (dir : List Nat) (fuel : Nat) (s : State)
    (stale : Block) (r : Read) (rest : List Read)
    (hs : s.in_block = false) (hn : 0 < r.nread) (h0 : r.block 0 = 0) :
    (∃ o, loop env dir (fuel + 1) s stale (r :: rest) = some o
      ∧ o.rest = rest
      ∧ o.st.opens = s.opens
      ∧ o.st.files.map (fun f => (f.name, f.data)) = s.files.map (fun f => (f.name, f.data))
      ∧ (∀ i f, s.outfile = some i → o.st.files.get? i = some f → f.isOpen = false)
      ∧ ((∀ i, s.outfile = some i → env.fcloseOk i = true) → o.ret = Ret.OK)
      ∧ (∀ i, s.outfile = some i → env.fcloseOk i = false → o.ret = Ret.CL_EIO))
    ∧ cli_untar env dir (r :: rest) = some (Outcome.mk Ret.OK init rest) := by
  constructor
  · rcases body_header_cases env dir s r hs hn with ⟨i, ho, hc, hb⟩ | hb
    · refine ⟨_, loop_of_ret env dir fuel s stale r rest _ _ hb, rfl, rfl, fclose_names s i,
        ?_, ?_, fun _ _ _ => rfl⟩
      · intro j f hj hf
        rw [ho] at hj; cases hj
        exact closeAt_get? _ _ _ hf
      · intro h; rw [h i ho] at hc; cases hc
    · have hb2 : body env dir s r = .brk s.closePrev := by
        rw [hb]; simp [headerChecks, h0]
      have hfin : s.closePrev.fcloseIfOpen = s.closePrev := by
        simp [State.fcloseIfOpen, closePrev_outfile]
      refine ⟨_, loop_of_brk env dir fuel s stale r rest _ hb2, rfl, ?_, ?_, ?_,
        fun _ => rfl, ?_⟩
      · simp only [hfin]; exact closePrev_opens s
      · simp only [hfin]; exact closePrev_names s
      · intro i f ho hf
        simp only [hfin, State.closePrev, ho, State.fclose] at hf
        exact closeAt_get? _ _ _ hf
      · intro i ho hc
        exfalso
        have h1 : (r.nread == 0) = false := by
          simp only [beq_eq_false_iff_ne, ne_eq]; omega
        have h2 : ¬ (r.nread < 0) := by omega
        simp [body, hs, header, h1, h2, ho, hc] at hb2
  · have hb : body env dir init r = .brk init := by
      rw [body_header env dir init r rfl hn (fun i h => by simp [init] at h), closePrev_init]
      simp [headerChecks, h0]
    rw [cli_untar_cons, loop_of_brk env dir _ init _ r rest _ hb]
    rfl

theorem C5_witness :
    (∃ o, loop envOk tmpDir 1 afterEmpty emptyHeader [fullRead zeroBlock, fullRead helloHeader]
        = some o
      ∧ o.rest = [fullRead helloHeader]
      ∧ o.st.opens = afterEmpty.opens
      ∧ o.st.files.map (fun f => (f.name, f.data)) =
          afterEmpty.files.map (fun f => (f.name, f.data))
      ∧ (∀ i f, afterEmpty.outfile = some i → o.st.files.get? i = some f → f.isOpen = false)
      ∧ ((∀ i, afterEmpty.outfile = some i → envOk.fcloseOk i = true) → o.ret = Ret.OK)
      ∧ (∀ i, afterEmpty.outfile = some i → envOk.fcloseOk i = false → o.ret = Ret.CL_EIO))
    ∧ cli_untar envOk tmpDir [fullRead zeroBlock, fullRead helloHeader] =
        some (Outcome.mk Ret.OK init [fullRead helloHeader]) :=
  C5_nul_block_ends_stream envOk tmpDir 0 afterEmpty emptyHeader (fullRead zeroBlock)
    [fullRead helloHeader] rfl (by decide) rfl

theorem toSizeT_of_small (x : Int) (h0 : 0 ≤ x) (h1 : x < 18446744073709551616) :
    toSizeT x = x.toNat := by
  unfold toSizeT; rw [Int.emod_eq_of_lt h0 h1]

theorem toInt32_of_small (x : Int) (h0 : 0 ≤ x) (h1 : x < 2147483648) : toInt32 x = x := by
  unfold toInt32; omega

/-- When the directory leaves room, `snprintf` stores the whole formatted name. -/
theorem snprintfFullname_room (env : Env) (old dir name : List Nat) (sfx : Nat)
    (hroom : dir.length + 8 + sfx ≤ env.NAME_MAX) (hmax : env.NAME_MAX < 2147483648) :
    snprintfFullname env old dir name sfx =
      dir ++ [47] ++ name.take (env.NAME_MAX - 8 - sfx - dir.length) ++ XXXXXX := by
  have hn : toSizeT ((env.NAME_MAX : Int) + 1 - 1 - sfx) = env.NAME_MAX - sfx := by
    rw [toSizeT_of_small _ (by omega) (by omega)]; omega
  have hp : toSizeT ((env.NAME_MAX : Int) + 1 - 9 - sfx - dir.length) =
      env.NAME_MAX - 8 - sfx - dir.length := by
    rw [toSizeT_of_small _ (by omega) (by omega)]; omega
  have hp2 : toInt32 ((env.NAME_MAX - 8 - sfx - dir.length : Nat) : Int) =
      ((env.NAME_MAX - 8 - sfx - dir.length : Nat) : Int) :=
    toInt32_of_small _ (by omega) (by omega)
  simp only [snprintfFullname, hn, hp, hp2]
  have h1 : ¬ (((env.NAME_MAX - 8 - sfx - dir.length : Nat) : Int) < 0) := by omega
  have h2 : ¬ (env.NAME_MAX - sfx = 0) := by omega
  simp only [h1, h2, if_false, Int.toNat_ofNat]
  apply List.take_of_length_le
  simp only [List.length_append, List.length_take, List.length_cons, List.length_nil, XXXXXX]
  omega

theorem mkstemp_some (env : Env) (k : Nat) (t nm : List Nat) (h : mkstemp env k t = some nm) :
    ∃ pre, t = pre ++ XXXXXX ∧ nm = pre ++ env.rand k := by
  unfold mkstemp at h
  split at h
  · rename_i hx
    split at h
    · refine ⟨t.take (t.length - 6), ?_, ?_⟩
      · rw [← hx, List.take_append_drop]
      · simpa using h.symm
    · cases h
  · cases h

theorem extractEntry_files (env : Env) (dir : List Nat) (t : State) (b : Block) (nm : List Nat)
    (h : mkstemp env t.opens (template env t.fullname dir b) = some nm) :
    ∃ isOpen, (extractEntry env dir t b).state.files = t.files ++ [OutFile.mk nm [] isOpen] := by
  simp only [extractEntry, h]
  cases hf : env.fdopenOk t.files.length with
  | false => exact ⟨false, by simp [Step.state, State.fclose, closeAt_append_last]⟩
  | true =>
    by_cases hsz : octal (strncpy b 124 12) < 0
    · exact ⟨false, by simp [hsz, Step.state, State.fclose, closeAt_append_last]⟩
    · refine ⟨true, ?_⟩
      by_cases hz : octal (strncpy b 124 12) = 0 <;> simp [hsz, hz, Step.state, endOfBody]

/-- C9, as stated, fails: the member `hello.txt` has the suffix `.txt`, the one file
`cli_untar` creates for it is `/tmp/d/hello.txtaaaaaa` (with `aaaaaa` substituted by
`mkstemp`), and that name does not end in `.txt`. -/
theorem C9_counterexample :
    suffixOf (memberName envOk helloHeader) = [46, 116, 120, 116]
    ∧ (cli_untar envOk tmpDir helloArchive).map (fun o => o.st.files.map OutFile.name) =
        some [tmpDir ++ [47] ++ helloName ++ [97, 97, 97, 97, 97, 97]]
    ∧ ¬ ([46, 116, 120, 116] <:+ tmpDir ++ [47] ++ helloName ++ [97, 97, 97, 97, 97, 97]) := by
  decide

/-- C9, amended: for a header block examined as a file entry for which `mkstemp` succeeds,
the file created is empty and named by the template with its final `XXXXXX` replaced by
the six characters `mkstemp` chose, so the name ends in those characters; the suffix is
not appended.  When the directory leaves room (`strlen(dir) + 8 + suffixLen <= NAME_MAX`)
the name is the directory, `/`, the first `NAME_MAX - 8 - suffixLen - strlen(dir)`
characters of the sanitised name, then the randomised part: the suffix only enters
through its length. -/
theorem C9_created_name (env : Env) (dir : List Nat) (s : State) (r : Read) (nm : List Nat)
    (hs : s.in_block = false) (hn : 0 < r.nread)
    (hclose : ∀ i, s.outfile = some i → env.fcloseOk i = true)
    (h0 : r.block 0 ≠ 0)
    (hmagic : [r.block 257, r.block 258, r.block 259, r.block 260, r.block 261] = ustar)
    (htype : r.block 156 = 48 ∨ r.block 156 = 0 ∨ r.block 156 = 55)
    (hcreate : mkstemp env s.opens (template env s.fullname dir r.block) = some nm) :
    (∃ isOpen, (body env dir s r).state.files = s.closePrev.files ++ [OutFile.mk nm [] isOpen])
    ∧ (∃ pre, template env s.fullname dir r.block = pre ++ XXXXXX ∧ nm = pre ++ env.rand s.opens)
    ∧ (dir.length + 8 + suffixLenOf (memberName env r.block) ≤ env.NAME_MAX →
        env.NAME_MAX < 2147483648 →
        nm = dir ++ [47] ++
          (memberName env r.block).take
            (env.NAME_MAX - 8 - suffixLenOf (memberName env r.block) - dir.length) ++
          env.rand s.opens) := by
  have hb := body_header env dir s r hs hn hclose
  rw [headerChecks_file env dir _ _ h0 hmagic htype] at hb
  obtain ⟨pre, hpre, hnm⟩ := mkstemp_some env _ _ _ hcreate
  refine ⟨?_, ⟨pre, hpre, hnm⟩, fun hroom hmax => ?_⟩
  · rw [hb]
    exact extractEntry_files env dir s.closePrev r.block nm
      (by rw [closePrev_opens, closePrev_fullname]; exact hcreate)
  · have hshape := snprintfFullname_room env s.fullname dir (memberName env r.block)
      (suffixLenOf (memberName env r.block)) hroom hmax
    have : pre = dir ++ [47] ++ (memberName env r.block).take
        (env.NAME_MAX - 8 - suffixLenOf (memberName env r.block) - dir.length) := by
      have h2 : template env s.fullname dir r.block = _ := hshape
      rw [hpre] at h2
      exact List.append_cancel_right h2
    rw [hnm, this]

theorem C9_witness :
    (∃ isOpen, (body envOk tmpDir init (fullRead helloHeader)).state.files =
        init.closePrev.files ++
          [OutFile.mk (tmpDir ++ [47] ++ helloName ++ [97, 97, 97, 97, 97, 97]) [] isOpen])
    ∧ (∃ pre, template envOk init.fullname tmpDir (fullRead helloHeader).block = pre ++ XXXXXX ∧
        tmpDir ++ [47] ++ helloName ++ [97, 97, 97, 97, 97, 97] = pre ++ envOk.rand init.opens)
    ∧ (tmpDir.length + 8 + suffixLenOf (memberName envOk (fullRead helloHeader).block) ≤
          envOk.NAME_MAX →
        envOk.NAME_MAX < 2147483648 →
        tmpDir ++ [47] ++ helloName ++ [97, 97, 97, 97, 97, 97] = tmpDir ++ [47] ++
          (memberName envOk (fullRead helloHeader).block).take
            (envOk.NAME_MAX - 8 - suffixLenOf (memberName envOk (fullRead helloHeader).block) -
              tmpDir.length) ++
          envOk.rand init.opens) :=
  C9_created_name envOk tmpDir init (fullRead helloHeader)
    (tmpDir ++ [47] ++ helloName ++ [97, 97, 97, 97, 97, 97]) rfl (by decide)
    (fun i h => by simp [init] at h) (by decide) (by decide) (by decide) (by decide)

theorem appendAt_append_last (fs : List OutFile) (f : OutFile) (bytes : List Nat) :
    appendAt (fs ++ [f]) fs.length bytes = fs ++ [{ f with data := f.data ++ bytes }] := by
  induction fs with
  | nil => rfl
  | cons g fs ih => simp [appendAt, ih]

theorem closeAt_data (fs : List OutFile) (i : Nat) :
    (closeAt fs i).map OutFile.data = fs.map OutFile.data := by
  induction fs generalizing i with
  | nil => rfl
  | cons f fs ih => cases i <;> simp [closeAt, ih]

theorem closePrev_data (s : State) :
    s.closePrev.files.map OutFile.data = s.files.map OutFile.data := by
  unfold State.closePrev; split
  · simp only [State.fclose]; exact closeAt_data _ _
  · rfl

theorem blockBytes_length (b : Block) : (blockBytes b).length = 512 := by
  simp [blockBytes]

theorem range_map_eq_take (b : Block) (n : Nat) (h : n ≤ 512) :
    (List.range n).map b = (blockBytes b).take n := by
  rw [blockBytes, ← List.map_take, List.take_range, Nat.min_eq_left h]

/-- The last body write of a member: at most 512 bytes remain. -/
theorem writeBody_last (env : Env) (hwrite : ∀ i sofar n, n ≤ env.fwriteCount i sofar n)
    (sz : Int) (fullname : List Nat) (fs : List OutFile) (f : OutFile) (opens : Nat)
    (b : Block) (h0 : 0 < sz) (h1 : sz ≤ 512) :
    writeBody env (State.mk sz true fullname (some fs.length) (fs ++ [f]) opens) b =
      .next (State.mk 0 false fullname (some fs.length)
        (fs ++ [{ f with data := f.data ++ (blockBytes b).take sz.toNat }]) opens) := by
  have hc : ¬ (sz > 512) := by omega
  have hle : sz.toNat ≤ 512 := by omega
  simp only [writeBody, hc, if_false, Nat.min_eq_right (hwrite _ _ _), sub_self, endOfBody,
    if_true, appendAt_append_last, range_map_eq_take b _ hle]
  rw [List.take_of_length_le (by simp [List.length_take, blockBytes_length])]

/-- A body write with more than 512 bytes remaining. -/
theorem writeBody_more (env : Env) (hwrite : ∀ i sofar n, n ≤ env.fwriteCount i sofar n)
    (sz : Int) (fullname : List Nat) (fs : List OutFile) (f : OutFile) (opens : Nat)
    (b : Block) (h1 : 512 < sz) :
    writeBody env (State.mk sz true fullname (some fs.length) (fs ++ [f]) opens) b =
      .next (State.mk (sz - 512) true fullname (some fs.length)
        (fs ++ [{ f with data := f.data ++ blockBytes b }]) opens) := by
  have hc : sz > 512 := h1
  have hne : ¬ (sz - 512 = 0) := by omega
  have h512 : (512 : Int).toNat = 512 := rfl
  simp only [writeBody, hc, if_true, h512, Nat.min_eq_right (hwrite _ _ _), endOfBody, hne,
    if_false, appendAt_append_last, range_map_eq_take b 512 (le_refl _)]
  rw [List.take_of_length_le (by simp [blockBytes_length]),
    List.take_of_length_le (by simp [blockBytes_length])]

/-- Copying the body blocks of a member whose file is the last one created. -/
theorem loop_body_blocks (env : Env) (dir : List Nat)
    (hwrite : ∀ i sofar n, n ≤ env.fwriteCount i sofar n)
    (fullname : List Nat) (fs : List OutFile) (opens : Nat) (tail : List Read) :
    ∀ (bs : List Block) (sz : Int) (f : OutFile) (stale stale2 : Block) (fuel : Nat),
      0 < sz → bs.length = (sz.toNat + 511) / 512 →
      loop env dir (fuel + bs.length)
          (State.mk sz true fullname (some fs.length) (fs ++ [f]) opens) stale
          (bs.map fullRead ++ tail) =
        loop env dir fuel
          (State.mk 0 false fullname (some fs.length)
            (fs ++ [{ f with data := f.data ++ (bodyBytes bs).take sz.toNat }]) opens)
          stale2 tail := by
  intro bs
  induction bs with
  | nil =>
    intro sz f stale stale2 fuel h0 hlen
    simp only [List.length_nil] at hlen
    omega
  | cons b bs ih =>
    intro sz f stale stale2 fuel h0 hlen
    simp only [List.length_cons] at hlen
    have hstep : loop env dir (fuel + (b :: bs).length)
        (State.mk sz true fullname (some fs.length) (fs ++ [f]) opens) stale
        ((b :: bs).map fullRead ++ tail) =
        loop env dir (fuel + bs.length + 1)
          (State.mk sz true fullname (some fs.length) (fs ++ [f]) opens) stale
          (fullRead b :: (bs.map fullRead ++ tail)) := rfl
    rw [hstep]
    by_cases hle : sz ≤ 512
    · have hbs : bs = [] := by
        apply List.eq_nil_of_length_eq_zero
        omega
      subst hbs
      rw [loop_of_next env dir _ _ _ _ _ _
        ((body_copying env dir _ (fullRead b) rfl (by simp [fullRead])).trans
          (writeBody_last env hwrite sz fullname fs f opens b h0 hle))]
      simp only [List.length_nil, Nat.add_zero, List.map_nil, List.nil_append, bodyBytes,
        List.append_nil]
      exact loop_stale_irrelevant env dir fuel _ _ _ tail rfl
    · have hgt : 512 < sz := by omega
      rw [loop_of_next env dir _ _ _ _ _ _
        ((body_copying env dir _ (fullRead b) rfl (by simp [fullRead])).trans
          (writeBody_more env hwrite sz fullname fs f opens b hgt))]
      rw [ih (sz - 512) { f with data := f.data ++ blockBytes b } _ stale2 fuel (by omega)
        (by omega)]
      have hd : f.data ++ blockBytes b ++ (bodyBytes bs).take (sz - 512).toNat =
          f.data ++ (bodyBytes (b :: bs)).take sz.toNat := by
        have e1 : bodyBytes (b :: bs) = blockBytes b ++ bodyBytes bs := rfl
        have e2 : (blockBytes b).take sz.toNat = blockBytes b :=
          List.take_of_length_le (by rw [blockBytes_length]; omega)
        have e3 : sz.toNat - 512 = (sz - 512).toNat := by omega
        rw [e1, List.take_append_eq_append_take, e2, blockBytes_length, e3, List.append_assoc]
      rw [hd]

/-- A well-formed file header whose output file can be created opens the file
and sets the remaining size. -/
theorem body_file_header (env : Env) (dir : List Nat) (s : State) (b : Block) (nm : List Nat)
    (hs : s.in_block = false)
    (hclose : ∀ i, s.outfile = some i → env.fcloseOk i = true)
    (h0 : b 0 ≠ 0) (hmagic : [b 257, b 258, b 259, b 260, b 261] = ustar)
    (htype : b 156 = 48 ∨ b 156 = 0 ∨ b 156 = 55)
    (hcreate : mkstemp env s.opens (template env s.fullname dir b) = some nm)
    (hfd : env.fdopenOk s.files.length = true)
    (hsz : 0 ≤ octal (strncpy b 124 12)) :
    body env dir s (fullRead b) =
      .next (State.mk (octal (strncpy b 124 12)) (decide (0 < octal (strncpy b 124 12))) nm
        (some s.closePrev.files.length) (s.closePrev.files ++ [OutFile.mk nm [] true])
        (s.opens + 1)) := by
  rw [body_header env dir s (fullRead b) hs (by simp [fullRead]) hclose]
  simp only [fullRead]
  rw [headerChecks_file env dir _ _ h0 hmagic htype]
  have hc : mkstemp env s.closePrev.opens (template env s.closePrev.fullname dir b) = some nm := by
    rw [closePrev_opens, closePrev_fullname]; exact hcreate
  have hf : env.fdopenOk s.closePrev.files.length = true := by
    rw [closePrev_length]; exact hfd
  have hn : ¬ (octal (strncpy b 124 12) < 0) := by omega
  simp only [extractEntry, hc, hf, hn, endOfBody]
  by_cases hz : octal (strncpy b 124 12) = 0
  · simp [hz, closePrev_opens]
  · have : 0 < octal (strncpy b 124 12) := by omega
    simp [hz, this, closePrev_opens]

theorem archive_length_cons (m : Member) (ms : List Member) (tail : List Read) :
    (archive (m :: ms) tail).length = (archive ms tail).length + m.body.length + 1 := by
  simp [archive]; omega

theorem fcloseIfOpen_names (s : State) :
    s.fcloseIfOpen.files.map (fun f => (f.name, f.data)) =
      s.files.map (fun f => (f.name, f.data)) := by
  unfold State.fcloseIfOpen; split
  · exact fclose_names s _
  · rfl

theorem fcloseIfOpen_get? (s : State) (i : Nat) (f : OutFile) (ho : s.outfile = some i)
    (hf : s.fcloseIfOpen.files.get? i = some f) : f.isOpen = false := by
  simp only [State.fcloseIfOpen, ho, State.fclose] at hf
  exact closeAt_get? _ _ _ hf

theorem fcloseIfOpen_fields (s : State) :
    s.fcloseIfOpen.size = s.size ∧ s.fcloseIfOpen.in_block = s.in_block
      ∧ s.fcloseIfOpen.opens = s.opens ∧ s.fcloseIfOpen.outfile = s.outfile := by
  unfold State.fcloseIfOpen; split <;> exact ⟨rfl, rfl, rfl, rfl⟩

/-- C13: when a block read fails (the read returns a negative count), in the
awaiting-header state as in the copying-body state, `cli_untar` returns `CL_EIO` at once:
the block is not processed (size, state, `mkstemp` count, file names and contents are as
before, the rest of the input is unread) and the output file, if one is open, is closed
first. -/
theorem C13_failed_read_is_EIO (env : Env) (dir : List Nat) (fuel : Nat) (s : State)
    (stale : Block) (r : Read) (rest : List Read) (hn : r.nread < 0) :
    loop env dir (fuel + 1) s stale (r :: rest) =
        some (Outcome.mk Ret.CL_EIO s.fcloseIfOpen rest)
    ∧ s.fcloseIfOpen.size = s.size ∧ s.fcloseIfOpen.in_block = s.in_block
    ∧ s.fcloseIfOpen.opens = s.opens
    ∧ s.fcloseIfOpen.files.map (fun f => (f.name, f.data)) =
        s.files.map (fun f => (f.name, f.data))
    ∧ (∀ i f, s.outfile = some i → s.fcloseIfOpen.files.get? i = some f →
        f.isOpen = false) := by
  obtain ⟨h1, h2, h3, _⟩ := fcloseIfOpen_fields s
  exact ⟨loop_of_ret env dir fuel s stale r rest _ _ (body_read_error env dir s r hn),
    h1, h2, h3, fcloseIfOpen_names s, fun i f ho hf => fcloseIfOpen_get? s i f ho hf⟩

theorem C13_witness :
    (-1 : Int) < 0
    ∧ loop envOk tmpDir 1 afterMember zeroBlock [Read.mk (-1) helloHeader, fullRead zeroBlock] =
        some (Outcome.mk Ret.CL_EIO afterMember.fcloseIfOpen [fullRead zeroBlock])
    ∧ afterMember.fcloseIfOpen.size = afterMember.size
    ∧ afterMember.fcloseIfOpen.in_block = afterMember.in_block
    ∧ afterMember.fcloseIfOpen.opens = afterMember.opens
    ∧ afterMember.fcloseIfOpen.files.map (fun f => (f.name, f.data)) =
        afterMember.files.map (fun f => (f.name, f.data))
    ∧ (∀ i f, afterMember.outfile = some i → afterMember.fcloseIfOpen.files.get? i = some f →
        f.isOpen = false) :=
  ⟨by decide, C13_failed_read_is_EIO envOk tmpDir 0 afterMember zeroBlock
    (Read.mk (-1) helloHeader) [fullRead zeroBlock] (by decide)⟩

theorem fcloseIfOpen_files_eq_closePrev (s : State) :
    s.fcloseIfOpen.files = s.closePrev.files := by
  unfold State.fcloseIfOpen State.closePrev; split <;> rfl

theorem body_eof (env : Env) (dir : List Nat) (s : State) (r : Read)
    (hs : s.in_block = false) (hn : r.nread = 0) : body env dir s r = .brk s := by
  simp [body, hs, hn]

/-- Extraction of the members of a well-formed archive, whatever follows them: the loop
reaches the reads after the last member in a state that awaits a header, with every file
but the last one closed. -/
theorem loop_archive_prefix (env : Env) (dir : List Nat)
    (hfdopen : ∀ i, env.fdopenOk i = true)
    (hwrite : ∀ i sofar n, n ≤ env.fwriteCount i sofar n)
    (hclose : ∀ i, env.fcloseOk i = true) (tail : List Read) :
    ∀ (ms : List Member),
      (∀ m ∈ ms, m.hdr 0 ≠ 0
        ∧ [m.hdr 257, m.hdr 258, m.hdr 259, m.hdr 260, m.hdr 261] = ustar
        ∧ (m.hdr 156 = 48 ∨ m.hdr 156 = 0 ∨ m.hdr 156 = 55)
        ∧ 0 ≤ octal (strncpy m.hdr 124 12)
        ∧ m.body.length = ((octal (strncpy m.hdr 124 12)).toNat + 511) / 512
        ∧ ∀ k old, (mkstemp env k (template env old dir m.hdr)).isSome = true) →
      ∀ (s : State) (stale : Block) (fuel : Nat),
        s.in_block = false → (∀ f ∈ s.closePrev.files, f.isOpen = false) →
        ∃ s1, (∀ stale1, loop env dir (fuel + (archive ms []).length) s stale (archive ms tail) =
              loop env dir fuel s1 stale1 tail)
          ∧ s1.in_block = false
          ∧ (∀ f ∈ s1.closePrev.files, f.isOpen = false)
          ∧ s1.files.map OutFile.data = s.files.map OutFile.data ++
              ms.map (fun m => (bodyBytes m.body).take (octal (strncpy m.hdr 124 12)).toNat) := by
  intro ms
  induction ms with
  | nil =>
    intro _ s stale fuel hs hcl
    refine ⟨s, fun stale1 => ?_, hs, hcl, by simp⟩
    simp only [archive, List.length_nil, Nat.add_zero]
    exact loop_stale_irrelevant env dir fuel s _ _ tail hs
  | cons m ms ih =>
    intro hwf s stale fuel hs hcl
    obtain ⟨h0, hmagic, htype, hsz, hlen, hcreate⟩ := hwf m (List.mem_cons_self _ _)
    obtain ⟨nm, hnm⟩ := Option.isSome_iff_exists.1 (hcreate s.opens s.fullname)
    have hb := body_file_header env dir s m.hdr nm hs (fun i _ => hclose i) h0 hmagic htype
      hnm (hfdopen _) hsz
    have hfuel : fuel + (archive (m :: ms) []).length =
        fuel + (archive ms []).length + m.body.length + 1 := by
      rw [archive_length_cons]; omega
    have hstep : archive (m :: ms) tail =
        fullRead m.hdr :: (m.body.map fullRead ++ archive ms tail) := rfl
    have hbody : ∀ fuel1, loop env dir (fuel1 + m.body.length)
        (State.mk (octal (strncpy m.hdr 124 12)) (decide (0 < octal (strncpy m.hdr 124 12))) nm
          (some s.closePrev.files.length) (s.closePrev.files ++ [OutFile.mk nm [] true])
          (s.opens + 1)) (fullRead m.hdr).block
        (m.body.map fullRead ++ archive ms tail) =
        loop env dir fuel1
          (State.mk 0 false nm (some s.closePrev.files.length)
            (s.closePrev.files ++
              [OutFile.mk nm ((bodyBytes m.body).take (octal (strncpy m.hdr 124 12)).toNat) true])
            (s.opens + 1)) stale (archive ms tail) := by
      intro fuel1
      by_cases hpos : 0 < octal (strncpy m.hdr 124 12)
      · simp only [hpos, decide_True]
        rw [loop_body_blocks env dir hwrite nm s.closePrev.files (s.opens + 1) _ m.body _
          (OutFile.mk nm [] true) _ stale fuel1 hpos hlen]
        simp
      · have h0' : octal (strncpy m.hdr 124 12) = 0 := by omega
        have hnil : m.body = [] := by
          apply List.eq_nil_of_length_eq_zero
          rw [hlen, h0']; rfl
        simp only [h0', hnil, List.length_nil, Nat.add_zero, List.map_nil, List.nil_append,
          bodyBytes, List.take_nil, lt_self_iff_false, decide_False]
        exact loop_stale_irrelevant env dir fuel1 _ _ _ _ rfl
    obtain ⟨s1, hrun, hs1, hcl1, hdata⟩ := ih (fun m' hm' => hwf m' (List.mem_cons_of_mem _ hm'))
      (State.mk 0 false nm (some s.closePrev.files.length)
        (s.closePrev.files ++
          [OutFile.mk nm ((bodyBytes m.body).take (octal (strncpy m.hdr 124 12)).toNat) true])
        (s.opens + 1)) stale fuel rfl
      (by
        intro f hf
        simp only [State.closePrev, State.fclose, closeAt_append_last, List.mem_append,
          List.mem_singleton] at hf
        rcases hf with hf | hf
        · exact hcl f hf
        · rw [hf])
    refine ⟨s1, fun stale1 => ?_, hs1, hcl1, ?_⟩
    · rw [hfuel, hstep, loop_of_next env dir _ s stale _ _ _ hb, hbody, hrun stale1]
    · rw [hdata]
      simp only [List.map_append, List.map_cons, List.map_nil, closePrev_data, List.append_assoc,
        List.singleton_append]

/-- C12: a read that returns zero bytes while `cli_untar` awaits a header ends the run with
return value 0: the last output file, if one is open, is closed (whatever `fclose` reports),
nothing else changes in the staging directory and no `mkstemp` call is made.  So the empty
stream returns 0 with no file, and a stream of complete members without a terminating
block (under the assumptions of C1 on the members and the library calls) returns 0 and
leaves exactly the members' files, in order, each with its member's bytes, all closed. -/
theorem C12_eof_awaiting_header (env : Env) (dir : List Nat) :
    (∀ (fuel : Nat) (s : State) (stale : Block) (r : Read) (rest : List Read),
      s.in_block = false → r.nread = 0 →
      loop env dir (fuel + 1) s stale (r :: rest) = some (Outcome.mk Ret.OK s.fcloseIfOpen rest)
      ∧ loop env dir (fuel + 1) s stale [] = some (Outcome.mk Ret.OK s.fcloseIfOpen [])
      ∧ s.fcloseIfOpen.opens = s.opens
      ∧ s.fcloseIfOpen.files.map (fun f => (f.name, f.data)) =
          s.files.map (fun f => (f.name, f.data))
      ∧ (∀ i f, s.outfile = some i → s.fcloseIfOpen.files.get? i = some f →
          f.isOpen = false))
    ∧ cli_untar env dir [] = some (Outcome.mk Ret.OK init [])
    ∧ (∀ (ms : List Member),
      (∀ m ∈ ms, m.hdr 0 ≠ 0
        ∧ [m.hdr 257, m.hdr 258, m.hdr 259, m.hdr 260, m.hdr 261] = ustar
        ∧ (m.hdr 156 = 48 ∨ m.hdr 156 = 0 ∨ m.hdr 156 = 55)
        ∧ 0 ≤ octal (strncpy m.hdr 124 12)
        ∧ m.body.length = ((octal (strncpy m.hdr 124 12)).toNat + 511) / 512
        ∧ ∀ k old, (mkstemp env k (template env old dir m.hdr)).isSome = true) →
      (∀ i, env.fdopenOk i = true) → (∀ i sofar n, n ≤ env.fwriteCount i sofar n) →
      (∀ i, env.fcloseOk i = true) →
      ∃ o, cli_untar env dir (archive ms []) = some o
        ∧ o.ret = Ret.OK
        ∧ o.st.files.map OutFile.data =
            ms.map (fun m => (bodyBytes m.body).take (octal (strncpy m.hdr 124 12)).toNat)
        ∧ (∀ f ∈ o.st.files, f.isOpen = false)
        ∧ o.rest = []) := by
  refine ⟨?_, ?_, ?_⟩
  · intro fuel s stale r rest hs hn
    obtain ⟨_, _, h3, _⟩ := fcloseIfOpen_fields s
    refine ⟨loop_of_brk env dir fuel s stale r rest _ (body_eof env dir s r hs hn), ?_, h3,
      fcloseIfOpen_names s, fun i f ho hf => fcloseIfOpen_get? s i f ho hf⟩
    rw [loop_nil, body_eof env dir s _ hs rfl]
  · show loop env dir (4194304 + 1) init (fun _ => 0) [] = _
    rw [loop_nil, body_eof env dir init _ rfl rfl]
    rfl
  · intro ms hwf hfdopen hwrite hclose
    obtain ⟨s1, hrun, hs1, hcl1, hdata⟩ :=
      loop_archive_prefix env dir hfdopen hwrite hclose [] ms hwf init (fun _ => 0) 4194305 rfl
        (by simp [init, State.closePrev])
    have hfuel : fuelFor (archive ms []) = 4194305 + (archive ms []).length := rfl
    refine ⟨Outcome.mk Ret.OK s1.fcloseIfOpen [], ?_, rfl, ?_, ?_, rfl⟩
    · unfold cli_untar
      rw [hfuel, hrun (fun _ => 0)]
      show loop env dir (4194304 + 1) s1 (fun _ => 0) [] = _
      rw [loop_nil, body_eof env dir s1 _ hs1 rfl]
    · show s1.fcloseIfOpen.files.map OutFile.data = _
      rw [fcloseIfOpen_files_eq_closePrev, closePrev_data, hdata]
      simp [init]
    · intro f hf
      rw [show (Outcome.mk Ret.OK s1.fcloseIfOpen ([] : List Read)).st.files =
        s1.closePrev.files from fcloseIfOpen_files_eq_closePrev s1] at hf
      exact hcl1 f hf

set_option maxRecDepth 100000 in
theorem C12_witness :
    loop envOk tmpDir 1 afterMember zeroBlock [Read.mk 0 zeroBlock, fullRead helloHeader] =
        some (Outcome.mk Ret.OK afterMember.fcloseIfOpen [fullRead helloHeader])
    ∧ cli_untar envOk tmpDir [] = some (Outcome.mk Ret.OK init [])
    ∧ ∃ o, cli_untar envOk tmpDir (archive [helloMember] []) = some o
        ∧ o.ret = Ret.OK
        ∧ o.st.files.map OutFile.data = [helloData]
        ∧ (∀ f ∈ o.st.files, f.isOpen = false)
        ∧ o.rest = [] := by
  have h := C12_eof_awaiting_header envOk tmpDir
  refine ⟨(h.1 0 afterMember zeroBlock (Read.mk 0 zeroBlock) [fullRead helloHeader] rfl rfl).1,
    h.2.1, ?_⟩
  have h3 := h.2.2 [helloMember]
    (by
      intro m hm
      rw [List.mem_singleton] at hm
      subst hm
      exact ⟨by decide, by decide, by decide, by decide, by decide, fun k old => rfl⟩)
    (fun _ => rfl) (fun _ _ _ => le_refl _) (fun _ => rfl)
  have e : [helloMember].map
      (fun m => (bodyBytes m.body).take (octal (strncpy m.hdr 124 12)).toNat) = [helloData] := by
    decide
  rw [e] at h3
  exact h3

theorem closeAt_shape (fs : List OutFile) (i : Nat) :
    (closeAt fs i).map OutFile.shape = closeAt (fs.map OutFile.shape) i := by
  induction fs generalizing i with
  | nil => rfl
  | cons f fs ih => cases i <;> simp [closeAt, ih, OutFile.shape]

theorem appendAt_shape (fs : List OutFile) (i : Nat) (bytes : List Nat) :
    (appendAt fs i bytes).map OutFile.shape = fs.map OutFile.shape := by
  induction fs generalizing i with
  | nil => rfl
  | cons f fs ih => cases i <;> simp [appendAt, ih, OutFile.shape]

theorem shape_mk (a : Int) (b : Bool) (c : List Nat) (d : Option Nat) (fs : List OutFile)
    (e : Nat) : (State.mk a b c d fs e).shape = State.mk a b c d (fs.map OutFile.shape) e := rfl

theorem shape_eq (s1 s2 : State) (h : s1.shape = s2.shape) :
    s1.size = s2.size ∧ s1.in_block = s2.in_block ∧ s1.fullname = s2.fullname
      ∧ s1.outfile = s2.outfile ∧ s1.opens = s2.opens
      ∧ s1.files.map OutFile.shape = s2.files.map OutFile.shape
      ∧ s1.files.length = s2.files.length := by
  cases s1; cases s2
  simp only [shape_mk, State.mk.injEq] at h
  obtain ⟨h1, h2, h3, h4, h5, h6⟩ := h
  exact ⟨h1, h2, h3, h4, h6, h5, by simpa using congrArg List.length h5⟩

theorem shape_fclose (s : State) (i : Nat) : (s.fclose i).shape = s.shape.fclose i := by
  cases s; simp [State.fclose, shape_mk, closeAt_shape]

theorem shape_fcloseIfOpen (s : State) : s.fcloseIfOpen.shape = s.shape.fcloseIfOpen := by
  cases s with
  | mk a b c d fs e =>
    cases d with
    | none => rfl
    | some i => simp [State.fcloseIfOpen, State.fclose, shape_mk, closeAt_shape]

theorem shape_closePrev (s : State) : s.closePrev.shape = s.shape.closePrev := by
  cases s with
  | mk a b c d fs e =>
    cases d with
    | none => rfl
    | some i => simp [State.closePrev, State.fclose, shape_mk, closeAt_shape]

theorem endOfBody_shape (s1 s2 : State) (h : s1.shape = s2.shape) :
    (endOfBody s1).shape = (endOfBody s2).shape := by
  cases s1; cases s2
  simp only [shape_mk, State.mk.injEq] at h
  obtain ⟨h1, h2, h3, h4, h5, h6⟩ := h
  subst h1 h2 h3 h4 h6
  simp only [endOfBody, Step.shape]
  split <;> simp [shape_mk, h5]

theorem writeBody_shape (env : Env) (w1 w2 : Nat → Nat → Nat → Nat) (s1 s2 : State)
    (b : Block) (h : s1.shape = s2.shape) :
    (writeBody (env.withWrite w1) s1 b).shape = (writeBody (env.withWrite w2) s2 b).shape := by
  cases s1 with
  | mk a1 b1 c1 d1 f1 e1 =>
    cases s2 with
    | mk a2 b2 c2 d2 f2 e2 =>
      simp only [shape_mk, State.mk.injEq] at h
      obtain ⟨h1, h2, h3, h4, h5, h6⟩ := h
      subst h1 h2 h3 h4 h6
      simp only [writeBody]
      apply endOfBody_shape
      cases d1 <;> simp [shape_mk, appendAt_shape, h5]

theorem extractEntry_shape (env : Env) (w1 w2 : Nat → Nat → Nat → Nat) (dir : List Nat)
    (s1 s2 : State) (b : Block) (h : s1.shape = s2.shape) :
    (extractEntry (env.withWrite w1) dir s1 b).shape =
      (extractEntry (env.withWrite w2) dir s2 b).shape := by
  cases s1 with
  | mk a1 b1 c1 d1 f1 e1 =>
    cases s2 with
    | mk a2 b2 c2 d2 f2 e2 =>
      simp only [shape_mk, State.mk.injEq] at h
      obtain ⟨h1, h2, h3, h4, h5, h6⟩ := h
      subst h1 h2 h3 h4 h6
      have hl : f1.length = f2.length := by simpa using congrArg List.length h5
      have ht : template (env.withWrite w1) c1 dir b = template (env.withWrite w2) c1 dir b := rfl
      have hm : ∀ t, mkstemp (env.withWrite w1) e1 t = mkstemp (env.withWrite w2) e1 t :=
        fun _ => rfl
      have hfd : ∀ i, (env.withWrite w1).fdopenOk i = (env.withWrite w2).fdopenOk i :=
        fun _ => rfl
      simp only [extractEntry, ht, hm, hfd, hl]
      cases mkstemp (env.withWrite w2) e1 (template (env.withWrite w2) c1 dir b) with
      | none => simp [Step.shape, shape_mk, h5]
      | some nm =>
        simp only []
        cases (env.withWrite w2).fdopenOk f2.length with
        | false =>
          simp [Step.shape, shape_fclose, shape_mk, h5]
        | true =>
          simp only [Bool.not_true, Bool.false_eq_true, if_false]
          split
          · simp [Step.shape, shape_fclose, shape_mk, h5, hl]
          · apply endOfBody_shape
            simp [shape_mk, h5, hl]

theorem headerChecks_shape (env : Env) (w1 w2 : Nat → Nat → Nat → Nat) (dir : List Nat)
    (s1 s2 : State) (b : Block) (h : s1.shape = s2.shape) :
    (headerChecks (env.withWrite w1) dir s1 b).shape =
      (headerChecks (env.withWrite w2) dir s2 b).shape := by
  simp only [headerChecks]
  split
  · simp [Step.shape, h]
  · split
    · simp [Step.shape, h]
    · cases classify (b 156) with
      | none => simp [Step.shape, h]
      | some d =>
        cases d with
        | true =>
          obtain ⟨h1, h2, h3, h4, h5, h6, _⟩ := shape_eq s1 s2 h
          simp [Step.shape, State.shape, h1, h3, h4, h5, h6]
        | false => exact extractEntry_shape env w1 w2 dir s1 s2 b h

theorem body_shape (env : Env) (w1 w2 : Nat → Nat → Nat → Nat) (dir : List Nat)
    (s1 s2 : State) (r : Read) (h : s1.shape = s2.shape) :
    (body (env.withWrite w1) dir s1 r).shape = (body (env.withWrite w2) dir s2 r).shape := by
  obtain ⟨h1, h2, h3, h4, h5, h6, _⟩ := shape_eq s1 s2 h
  simp only [body, h2]
  split
  · simp [Step.shape, h]
  · split
    · simp [Step.shape, shape_fcloseIfOpen, h]
    · split
      · simp only [header, h4]
        cases s2.outfile with
        | none => exact headerChecks_shape env w1 w2 dir s1 s2 r.block h
        | some i =>
          have hc : (env.withWrite w1).fcloseOk i = (env.withWrite w2).fcloseOk i := rfl
          simp only [hc]
          split
          · apply headerChecks_shape
            rw [shape_closePrev, shape_closePrev, h]
          · simp [Step.shape, shape_fclose, h]
      · exact writeBody_shape env w1 w2 s1 s2 r.block h

theorem step_shape_cases (st1 st2 : Step) (h : st1.shape = st2.shape) :
    (∃ c s1 s2, st1 = .ret c s1 ∧ st2 = .ret c s2 ∧ s1.shape = s2.shape)
    ∨ (∃ s1 s2, st1 = .brk s1 ∧ st2 = .brk s2 ∧ s1.shape = s2.shape)
    ∨ (∃ s1 s2, st1 = .next s1 ∧ st2 = .next s2 ∧ s1.shape = s2.shape) := by
  cases st1 <;> cases st2 <;> simp only [Step.shape, Step.ret.injEq, Step.brk.injEq,
    Step.next.injEq, reduceCtorEq] at h
  · exact Or.inl ⟨_, _, _, by rw [h.1], rfl, h.2⟩
  · exact Or.inr (Or.inl ⟨_, _, rfl, rfl, h⟩)
  · exact Or.inr (Or.inr ⟨_, _, rfl, rfl, h⟩)

/-- Two runs that differ only in what `fwrite` manages to write go through the same
passes: same return value, same unread input, same final state up to file contents. -/
theorem loop_shape (env : Env) (w1 w2 : Nat → Nat → Nat → Nat) (dir : List Nat) :
    ∀ (fuel : Nat) (s1 s2 : State) (stale : Block) (rs : List Read), s1.shape = s2.shape →
      (loop (env.withWrite w1) dir fuel s1 stale rs).map
          (fun o => (o.ret, o.st.shape, o.rest)) =
        (loop (env.withWrite w2) dir fuel s2 stale rs).map
          (fun o => (o.ret, o.st.shape, o.rest)) := by
  intro fuel
  induction fuel with
  | zero => intro s1 s2 stale rs _; rfl
  | succ fuel ih =>
    intro s1 s2 stale rs h
    have hb := body_shape env w1 w2 dir s1 s2 (nextRead stale rs).1 h
    simp only [loop]
    rcases step_shape_cases _ _ hb with ⟨c, t1, t2, e1, e2, ht⟩ | ⟨t1, t2, e1, e2, ht⟩ |
      ⟨t1, t2, e1, e2, ht⟩
    · rw [e1, e2]; simp [ht]
    · rw [e1, e2]; simp [shape_fcloseIfOpen, ht]
    · rw [e1, e2]; exact ih t1 t2 _ _ ht

theorem mem_closeAt (fs : List OutFile) (i : Nat) (f : OutFile) (h : f ∈ closeAt fs i) :
    f.isOpen = false ∨ ∃ j, j ≠ i ∧ fs.get? j = some f := by
  induction fs generalizing i with
  | nil => simp [closeAt] at h
  | cons g fs ih =>
    cases i with
    | zero =>
      simp only [closeAt, List.mem_cons] at h
      rcases h with h | h
      · left; rw [h]
      · right
        obtain ⟨k, hk⟩ := List.get?_of_mem h
        exact ⟨k + 1, by omega, by simpa using hk⟩
    | succ i =>
      simp only [closeAt, List.mem_cons] at h
      rcases h with h | h
      · right; exact ⟨0, by omega, by simp [h]⟩
      · rcases ih i h with h1 | ⟨j, hj, hf⟩
        · left; exact h1
        · right; exact ⟨j + 1, by omega, by simpa using hf⟩

theorem allClosed_fclose (s : State) (i : Nat) (h : OnlyOutfileOpen s) (ho : s.outfile = some i) :
    AllClosed (s.fclose i) := by
  intro f hf
  rcases mem_closeAt s.files i f hf with h1 | ⟨j, hj, hget⟩
  · exact h1
  · cases hopen : f.isOpen with
    | false => rfl
    | true =>
      have := h j f hget hopen
      rw [ho] at this
      exact absurd (Option.some.inj this).symm hj

theorem allClosed_of_no_outfile (s : State) (h : OnlyOutfileOpen s) (ho : s.outfile = none) :
    AllClosed s := by
  intro f hf
  obtain ⟨j, hj⟩ := List.get?_of_mem hf
  cases hopen : f.isOpen with
  | false => rfl
  | true =>
    have := h j f hj hopen
    rw [ho] at this
    cases this

theorem allClosed_fcloseIfOpen (s : State) (h : OnlyOutfileOpen s) : AllClosed s.fcloseIfOpen := by
  cases ho : s.outfile with
  | none =>
    have : s.fcloseIfOpen = s := by simp [State.fcloseIfOpen, ho]
    rw [this]; exact allClosed_of_no_outfile s h ho
  | some i =>
    have : s.fcloseIfOpen = s.fclose i := by simp [State.fcloseIfOpen, ho]
    rw [this]; exact allClosed_fclose s i h ho

theorem allClosed_closePrev (s : State) (h : OnlyOutfileOpen s) : AllClosed s.closePrev := by
  intro f hf
  rw [← fcloseIfOpen_files_eq_closePrev] at hf
  exact allClosed_fcloseIfOpen s h f hf

theorem octal_lt (str : List Nat) : octal str < 2147483648 := by
  unfold octal
  simp only
  split
  · decide
  · split <;> (unfold toInt32; omega)

theorem onlyOutfileOpen_append (fs : List OutFile) (f : OutFile)
    (a : Int) (b : Bool) (c : List Nat) (e : Nat)
    (h : ∀ g ∈ fs, g.isOpen = false) :
    OnlyOutfileOpen (State.mk a b c (some fs.length) (fs ++ [f]) e) := by
  intro j g hj hopen
  simp only at hj ⊢
  by_cases hlt : j < fs.length
  · rw [List.get?_eq_getElem?, List.getElem?_append_left hlt, ← List.get?_eq_getElem?] at hj
    have := h g (List.get?_mem hj)
    rw [this] at hopen; cases hopen
  · by_cases heq : j = fs.length
    · rw [heq]
    · have : (fs ++ [f]).length ≤ j := by simp; omega
      rw [List.get?_eq_none.2 this] at hj
      cases hj

theorem goodStep_endOfBody (s : State) (h1 : OnlyOutfileOpen s)
    (h2 : 0 ≤ s.size ∧ s.size < 2147483648) : GoodStep (endOfBody s) := by
  simp only [endOfBody, GoodStep]
  split
  · exact ⟨h1, fun hb => by simp at hb⟩
  · rename_i hne
    exact ⟨h1, fun _ => ⟨by omega, h2.2⟩⟩

theorem goodStep_extractEntry (env : Env) (dir : List Nat) (t : State) (b : Block)
    (h : AllClosed t) : GoodStep (extractEntry env dir t b) := by
  simp only [extractEntry]
  cases mkstemp env t.opens (template env t.fullname dir b) with
  | none => exact h
  | some nm =>
    simp only []
    cases env.fdopenOk t.files.length with
    | false =>
      simp only [Bool.not_false, if_true, GoodStep]
      intro f hf
      simp only [State.fclose, closeAt_append_last, List.mem_append, List.mem_singleton] at hf
      rcases hf with hf | hf
      · exact h f hf
      · rw [hf]
    | true =>
      simp only [Bool.not_true, Bool.false_eq_true, if_false]
      split
      · simp only [GoodStep]
        intro f hf
        simp only [State.fclose, closeAt_append_last, List.mem_append, List.mem_singleton] at hf
        rcases hf with hf | hf
        · exact h f hf
        · rw [hf]
      · rename_i hsz
        apply goodStep_endOfBody
        · exact onlyOutfileOpen_append t.files _ _ _ _ _ h
        · exact ⟨by simp only at hsz ⊢; omega, octal_lt _⟩

theorem goodStep_headerChecks (env : Env) (dir : List Nat) (t : State) (b : Block)
    (h : AllClosed t) (ho : t.outfile = none) :
    GoodStep (headerChecks env dir t b) := by
  simp only [headerChecks]
  split
  · simp only [GoodStep]
    have : t.fcloseIfOpen = t := by simp [State.fcloseIfOpen, ho]
    rw [this]; exact h
  · split
    · exact h
    · cases classify (b 156) with
      | none => exact h
      | some d =>
        cases d with
        | true =>
          simp only [GoodStep]
          refine ⟨?_, fun hb2 => by simp at hb2⟩
          intro j f hj hopen
          have := h f (List.get?_mem hj)
          rw [this] at hopen; cases hopen
        | false => exact goodStep_extractEntry env dir t b h

theorem appendAt_get? (fs : List OutFile) (i : Nat) (bytes : List Nat) (j : Nat) (f : OutFile)
    (h : (appendAt fs i bytes).get? j = some f) :
    ∃ g, fs.get? j = some g ∧ g.isOpen = f.isOpen := by
  induction fs generalizing i j with
  | nil => simp [appendAt] at h
  | cons g fs ih =>
    cases i with
    | zero =>
      cases j with
      | zero =>
        simp only [appendAt, List.get?_cons_zero, Option.some.injEq] at h
        exact ⟨g, rfl, by rw [← h]⟩
      | succ j =>
        simp only [appendAt, List.get?_cons_succ] at h
        exact ⟨f, by simpa using h, rfl⟩
    | succ i =>
      cases j with
      | zero =>
        simp only [appendAt, List.get?_cons_zero, Option.some.injEq] at h
        exact ⟨g, rfl, by rw [h]⟩
      | succ j =>
        simp only [appendAt, List.get?_cons_succ] at h
        obtain ⟨g2, hg, ho⟩ := ih i j h
        exact ⟨g2, by simpa using hg, ho⟩

theorem goodStep_writeBody (env : Env) (s : State) (b : Block)
    (h1 : OnlyOutfileOpen s) (h2 : 0 < s.size ∧ s.size < 2147483648) :
    GoodStep (writeBody env s b) := by
  simp only [writeBody]
  apply goodStep_endOfBody
  · intro j f hj hopen
    cases ho : s.outfile with
    | none =>
      simp only [ho] at hj
      have := h1 j f hj hopen
      rw [ho] at this; cases this
    | some i =>
      simp only [ho] at hj
      obtain ⟨g, hg, hopen2⟩ := appendAt_get? _ _ _ _ _ hj
      have := h1 j g hg (by rw [hopen2]; exact hopen)
      simp only [ho] at this ⊢
      exact this
  · have hsz : ∀ (fs : List OutFile), (State.mk (s.size - if s.size > 512 then 512 else s.size)
        s.in_block s.fullname s.outfile fs s.opens).size =
        s.size - if s.size > 512 then 512 else s.size := fun _ => rfl
    cases ho : s.outfile <;> simp only [] <;> (split <;> constructor <;> omega)

/-- Every pass from a sound state is good. -/
theorem goodStep_body (env : Env) (dir : List Nat) (s : State) (r : Read)
    (h1 : OnlyOutfileOpen s) (h2 : SizeInRange s) : GoodStep (body env dir s r) := by
  simp only [body]
  split
  · exact allClosed_fcloseIfOpen s h1
  · split
    · exact allClosed_fcloseIfOpen s h1
    · split
      · simp only [header]
        cases ho : s.outfile with
        | none =>
          simp only []
          exact goodStep_headerChecks env dir s r.block (allClosed_of_no_outfile s h1 ho) ho
        | some i =>
          simp only []
          split
          · exact goodStep_headerChecks env dir _ r.block (allClosed_closePrev s h1)
              (closePrev_outfile s)
          · exact allClosed_fclose s i h1 ho
      · rename_i hb
        have hib : s.in_block = true := by simpa using hb
        exact goodStep_writeBody env s r.block h1 (h2 hib)

theorem writeBody_next (env : Env) (s : State) (b : Block) (h : 0 < s.size) :
    ∃ t, writeBody env s b = .next t ∧
      ((s.size ≤ 512 ∧ t.in_block = false) ∨
        (512 < s.size ∧ t.in_block = s.in_block ∧ t.size = s.size - 512)) := by
  refine ⟨_, rfl, ?_⟩
  by_cases hle : s.size ≤ 512
  · left
    have hc : ¬ (s.size > 512) := by omega
    exact ⟨hle, by cases s.outfile <;> simp [hc]⟩
  · right
    have hc : s.size > 512 := by omega
    have hne : ¬ (s.size - 512 = 0) := by omega
    refine ⟨hc, ?_, ?_⟩ <;> cases s.outfile <;> simp [hc, hne]

theorem loop_break_total (env : Env) (dir : List Nat) (fuel : Nat) (s : State) (stale : Block)
    (h1 : OnlyOutfileOpen s) (hs : s.in_block = false) :
    ∃ o, loop env dir (fuel + 1) s stale [] = some o ∧ AllClosed o.st := by
  refine ⟨_, by rw [loop_nil, body_eof_header env dir s stale hs], ?_⟩
  exact allClosed_fcloseIfOpen s h1

/-- At end of stream inside a body the loop still ends: each pass takes up to 512 bytes
off the remaining size. -/
theorem loop_eof_total (env : Env) (dir : List Nat) :
    ∀ (n fuel : Nat) (s : State) (stale : Block), OnlyOutfileOpen s → s.in_block = true →
      0 < s.size → s.size ≤ 512 * n → s.size < 2147483648 → n + 1 ≤ fuel →
      ∃ o, loop env dir fuel s stale [] = some o ∧ AllClosed o.st := by
  intro n
  induction n with
  | zero => intro fuel s stale _ _ h0 hn _ _; omega
  | succ n ih =>
    intro fuel s stale h1 hs h0 hn hlt hfuel
    obtain ⟨fuel, rfl⟩ : ∃ k, fuel = k + 1 := ⟨fuel - 1, by omega⟩
    have hgood := goodStep_body env dir s (Read.mk 0 stale) h1 (fun _ => ⟨h0, hlt⟩)
    rw [body_copying env dir s (Read.mk 0 stale) hs (le_refl _)] at hgood
    obtain ⟨t, ht, hcase⟩ := writeBody_next env s stale h0
    rw [ht] at hgood
    rw [loop_nil, body_copying env dir s (Read.mk 0 stale) hs (le_refl _), ht]
    simp only []
    rcases hcase with ⟨_, hib⟩ | ⟨hgt, hib, hsz⟩
    · obtain ⟨fuel, rfl⟩ : ∃ k, fuel = k + 1 := ⟨fuel - 1, by omega⟩
      exact loop_break_total env dir fuel t stale hgood.1 hib
    · exact ih fuel t stale hgood.1 (by rw [hib, hs]) (by omega) (by omega) (by omega)
        (by omega)

/-- The loop ends on every input, with no file left open. -/
theorem loop_total (env : Env) (dir : List Nat) :
    ∀ (rs : List Read) (fuel : Nat) (s : State) (stale : Block), OnlyOutfileOpen s →
      SizeInRange s → 4194305 + rs.length ≤ fuel →
      ∃ o, loop env dir fuel s stale rs = some o ∧ AllClosed o.st := by
  intro rs
  induction rs with
  | nil =>
    intro fuel s stale h1 h2 hfuel
    cases hs : s.in_block with
    | false =>
      obtain ⟨fuel, rfl⟩ : ∃ k, fuel = k + 1 := ⟨fuel - 1, by simp at hfuel; omega⟩
      exact loop_break_total env dir fuel s stale h1 hs
    | true =>
      obtain ⟨h0, hlt⟩ := h2 hs
      exact loop_eof_total env dir 4194304 fuel s stale h1 hs h0 (by omega) hlt
        (by simp at hfuel; omega)
  | cons r rs ih =>
    intro fuel s stale h1 h2 hfuel
    obtain ⟨fuel, rfl⟩ : ∃ k, fuel = k + 1 :=
      ⟨fuel - 1, by simp only [List.length_cons] at hfuel; omega⟩
    have hgood := goodStep_body env dir s r h1 h2
    rw [loop_cons]
    cases hb : body env dir s r with
    | ret c t => rw [hb] at hgood; exact ⟨_, rfl, hgood⟩
    | brk t => rw [hb] at hgood; exact ⟨_, rfl, hgood⟩
    | next t =>
      rw [hb] at hgood
      exact ih fuel t r.block hgood.1 hgood.2 (by simp only [List.length_cons] at hfuel; omega)

theorem onlyOutfileOpen_init : OnlyOutfileOpen init := by
  intro j f hj; simp [init] at hj

theorem sizeInRange_init : SizeInRange init := by
  intro h; simp [init] at h

theorem cli_untar_total (env : Env) (dir : List Nat) (rs : List Read) :
    ∃ o, cli_untar env dir rs = some o ∧ AllClosed o.st :=
  loop_total env dir rs (fuelFor rs) init (fun _ => 0) onlyOutfileOpen_init sizeInRange_init
    (le_refl _)

theorem reachable_sound (env : Env) (dir : List Nat) (s : State) (h : Reachable env dir s) :
    OnlyOutfileOpen s ∧ SizeInRange s := by
  induction h with
  | entry => exact ⟨onlyOutfileOpen_init, sizeInRange_init⟩
  | pass s t r _ hb ih =>
    have := goodStep_body env dir s r ih.1 ih.2
    rw [hb] at this
    exact this

/-- C14: over the explicit state, at most one output file is open at any point of
`cli_untar`: in every state in which a pass through the loop starts, an open file is the
one `outfile` refers to, so two open files coincide.  On every return path (a `return`
inside the loop with `CL_EIO`, `CL_EFORMAT` or `CL_ETMPFILE`, or a `break` followed by the
final `fclose` and `return 0`) every file the call created is closed; and `cli_untar`
does return on every input, with no file left open. -/
theorem C14_one_open_file_none_left (env : Env) (dir : List Nat) :
    (∀ s, Reachable env dir s →
      OnlyOutfileOpen s ∧
      ∀ j k f g, s.files.get? j = some f → s.files.get? k = some g →
        f.isOpen = true → g.isOpen = true → j = k)
    ∧ (∀ s r c t, Reachable env dir s → body env dir s r = Step.ret c t → AllClosed t)
    ∧ (∀ s r t, Reachable env dir s → body env dir s r = Step.brk t → AllClosed t.fcloseIfOpen)
    ∧ (∀ rs, ∃ o, cli_untar env dir rs = some o ∧ AllClosed o.st) := by
  refine ⟨fun s hs => ?_, fun s r c t hs hb => ?_, fun s r t hs hb => ?_,
    fun rs => cli_untar_total env dir rs⟩
  · have h1 := (reachable_sound env dir s hs).1
    refine ⟨h1, fun j k f g hf hg hfo hgo => ?_⟩
    have e1 := h1 j f hf hfo
    have e2 := h1 k g hg hgo
    rw [e1] at e2
    exact Option.some.inj e2
  · have h := reachable_sound env dir s hs
    have := goodStep_body env dir s r h.1 h.2
    rw [hb] at this
    exact this
  · have h := reachable_sound env dir s hs
    have := goodStep_body env dir s r h.1 h.2
    rw [hb] at this
    exact this

theorem C14_witness :
    OnlyOutfileOpen afterEmpty
    ∧ ∃ o, cli_untar envNoClose tmpDir helloArchive = some o ∧ AllClosed o.st :=
  ⟨((C14_one_open_file_none_left envNoClose tmpDir).1 afterEmpty
      (Reachable.pass init afterEmpty (fullRead emptyHeader) Reachable.entry (by decide))).1,
    (C14_one_open_file_none_left envNoClose tmpDir).2.2.2 helloArchive⟩

theorem shape_names (fs gs : List OutFile)
    (h : fs.map OutFile.shape = gs.map OutFile.shape) :
    fs.map OutFile.name = gs.map OutFile.name := by
  have := congrArg (List.map OutFile.name) h
  simpa [List.map_map, Function.comp_def, OutFile.shape] using this

theorem endOfBody_size (t : State) : (endOfBody t).state.size = t.size := by
  simp only [endOfBody, Step.state]; split <;> rfl

/-- C11: a short write never aborts or alters extraction.  For every input stream and any
two behaviours `w1`, `w2` of `fwrite` (whatever number of bytes each call writes, all
else in the environment being equal), both runs of `cli_untar` return, with the same
value, the same input left unread, and the same final state up to the contents of the
files: the same files are created in the same order with the same names.  This is so
because a body pass takes the requested count `min(size, 512)` off `size`, whatever was
written. -/
theorem C11_short_write_is_ignored (env : Env) (w1 w2 : Nat → Nat → Nat → Nat)
    (dir : List Nat) (rs : List Read) :
    (∃ o1 o2, cli_untar (env.withWrite w1) dir rs = some o1
      ∧ cli_untar (env.withWrite w2) dir rs = some o2
      ∧ o1.ret = o2.ret ∧ o1.rest = o2.rest ∧ o1.st.shape = o2.st.shape
      ∧ o1.st.files.map OutFile.name = o2.st.files.map OutFile.name)
    ∧ ∀ (s : State) (b : Block),
        (writeBody (env.withWrite w1) s b).state.size =
          s.size - (if s.size > 512 then 512 else s.size) := by
  constructor
  · obtain ⟨o1, h1, _⟩ := cli_untar_total (env.withWrite w1) dir rs
    obtain ⟨o2, h2, _⟩ := cli_untar_total (env.withWrite w2) dir rs
    have h := loop_shape env w1 w2 dir (fuelFor rs) init init (fun _ => 0) rs rfl
    have e1 : loop (env.withWrite w1) dir (fuelFor rs) init (fun _ => 0) rs = some o1 := h1
    have e2 : loop (env.withWrite w2) dir (fuelFor rs) init (fun _ => 0) rs = some o2 := h2
    rw [e1, e2] at h
    simp only [Option.map_some', Option.some.injEq, Prod.mk.injEq] at h
    obtain ⟨hr, hs, hrest⟩ := h
    refine ⟨o1, o2, h1, h2, hr, hrest, hs, ?_⟩
    exact shape_names _ _ (shape_eq _ _ hs).2.2.2.2.2.1
  · intro s b
    simp only [writeBody]
    rw [endOfBody_size]
    cases s.outfile <;> rfl

theorem C11_witness :
    (cli_untar envNoWrite tmpDir helloArchive).map
        (fun o => (o.ret, o.st.files.map OutFile.name, o.st.files.map OutFile.data)) =
      some (Ret.OK, [tmpDir ++ [47] ++ helloName ++ [97, 97, 97, 97, 97, 97]], [[]])
    ∧ (cli_untar envOk tmpDir helloArchive).map
        (fun o => (o.ret, o.st.files.map OutFile.name, o.st.files.map OutFile.data)) =
      some (Ret.OK, [tmpDir ++ [47] ++ helloName ++ [97, 97, 97, 97, 97, 97]], [helloData])
    ∧ ∃ o1 o2, cli_untar (envOk.withWrite (fun _ _ _ => 0)) tmpDir helloArchive = some o1
      ∧ cli_untar (envOk.withWrite (fun _ _ n => n)) tmpDir helloArchive = some o2
      ∧ o1.ret = o2.ret ∧ o1.rest = o2.rest ∧ o1.st.shape = o2.st.shape
      ∧ o1.st.files.map OutFile.name = o2.st.files.map OutFile.name :=
  ⟨by decide, by decide,
    (C11_short_write_is_ignored envOk (fun _ _ _ => 0) (fun _ _ n => n) tmpDir helloArchive).1⟩

theorem extractEntry_bad_size_state (env : Env) (dir : List Nat) (t : State) (b : Block)
    (nm : List Nat)
    (hc : mkstemp env t.opens (template env t.fullname dir b) = some nm)
    (hf : env.fdopenOk t.files.length = true)
    (hsz : octal (strncpy b 124 12) < 0) :
    ∃ s1, extractEntry env dir t b = .ret Ret.CL_EFORMAT s1
      ∧ s1.files = t.files ++ [OutFile.mk nm [] false] ∧ s1.opens = t.opens + 1 := by
  simp only [extractEntry, hc, hf]
  simp [hsz, State.fclose, closeAt_append_last]

/-- C30: output-file creation precedes size validation.  For a header block examined in
the awaiting-header state with non-NUL first byte, magic `ustar`, a regular-file type
flag and a size field that holds no octal number or decodes to a negative value, when
`mkstemp` and `fdopen` succeed, `cli_untar` returns `CL_EFORMAT` having made one
`mkstemp` call and added exactly one file to the staging directory: the member's file,
under the name `mkstemp` gave it, empty, and closed. -/
theorem C30_file_created_before_size_check (env : Env) (dir : List Nat) (fuel : Nat)
    (s : State) (stale : Block) (r : Read) (rest : List Read) (nm : List Nat)
    (hs : s.in_block = false) (hn : 0 < r.nread)
    (hclose : ∀ i, s.outfile = some i → env.fcloseOk i = true)
    (h0 : r.block 0 ≠ 0)
    (hmagic : [r.block 257, r.block 258, r.block 259, r.block 260, r.block 261] = ustar)
    (htype : r.block 156 = 48 ∨ r.block 156 = 0 ∨ r.block 156 = 55)
    (hcreate : mkstemp env s.opens (template env s.fullname dir r.block) = some nm)
    (hfdopen : env.fdopenOk s.files.length = true)
    (hsize : octalDigits (strncpy r.block 124 12) = [] ∨ octal (strncpy r.block 124 12) < 0) :
    ∃ s1, loop env dir (fuel + 1) s stale (r :: rest) =
        some (Outcome.mk Ret.CL_EFORMAT s1 rest)
      ∧ s1.files = s.closePrev.files ++ [OutFile.mk nm [] false]
      ∧ s1.files.length = s.files.length + 1
      ∧ s1.files.map (fun f => (f.name, f.data)) =
          s.files.map (fun f => (f.name, f.data)) ++ [(nm, [])]
      ∧ s1.opens = s.opens + 1 := by
  have hsz : octal (strncpy r.block 124 12) < 0 := by
    rcases hsize with h | h
    · rw [octal_of_no_digits _ h]; decide
    · exact h
  have hb := body_header env dir s r hs hn hclose
  rw [headerChecks_file env dir _ _ h0 hmagic htype] at hb
  obtain ⟨s1, h1, hfiles, hopens⟩ := extractEntry_bad_size_state env dir s.closePrev r.block nm
    (by rw [closePrev_opens, closePrev_fullname]; exact hcreate)
    (by rw [closePrev_length]; exact hfdopen) hsz
  refine ⟨s1, loop_of_ret env dir fuel s stale r rest _ _ (hb.trans h1), hfiles, ?_, ?_, ?_⟩
  · rw [hfiles, List.length_append, closePrev_length]; rfl
  · rw [hfiles, List.map_append, closePrev_names]; rfl
  · rw [hopens, closePrev_opens]

theorem C30_witness :
    ∃ s1, loop envOk tmpDir 1 init zeroBlock [fullRead negSizeHeader, fullRead zeroBlock] =
        some (Outcome.mk Ret.CL_EFORMAT s1 [fullRead zeroBlock])
      ∧ s1.files = init.closePrev.files ++
          [OutFile.mk (tmpDir ++ [47] ++ helloName ++ [97, 97, 97, 97, 97, 97]) [] false]
      ∧ s1.files.length = init.files.length + 1
      ∧ s1.files.map (fun f => (f.name, f.data)) =
          init.files.map (fun f => (f.name, f.data)) ++
            [(tmpDir ++ [47] ++ helloName ++ [97, 97, 97, 97, 97, 97], [])]
      ∧ s1.opens = init.opens + 1 :=
  C30_file_created_before_size_check envOk tmpDir 0 init zeroBlock (fullRead negSizeHeader)
    [fullRead zeroBlock] (tmpDir ++ [47] ++ helloName ++ [97, 97, 97, 97, 97, 97]) rfl
    (by decide) (fun i h => by simp [init] at h) (by decide) (by decide) (by decide)
    (by decide) (by decide) (by decide)

/-- C29: with `NAME_MAX` = 255 (`fullname` of 256 bytes), for every directory `dir` and
name with suffix length `s` such that `strlen(dir) + s <= 247`, the template `cli_untar`
builds is `dir`, `/`, the first `min(strlen(name), 247 - s - strlen(dir))` characters of
the name, then `XXXXXX`; its length is at most `254 - s`, which the bound `255 - s` given
to `snprintf` lets through whole, so it ends in the six placeholders.  This holds in
particular for the template of a header block, whose suffix length is at most 4. -/
theorem C29_template_not_truncated (env : Env) (old dir name : List Nat) (s : Nat)
    (hmax : env.NAME_MAX = 255) (hroom : dir.length + s ≤ 247) :
    snprintfFullname env old dir name s =
        dir ++ [47] ++ name.take (min name.length (247 - s - dir.length)) ++ XXXXXX
    ∧ (snprintfFullname env old dir name s).length ≤ 254 - s
    ∧ (snprintfFullname env old dir name s).drop
        ((snprintfFullname env old dir name s).length - 6) = XXXXXX
    ∧ (∀ b : Block, suffixLenOf (memberName env b) ≤ 4)
    ∧ (∀ b : Block, dir.length + suffixLenOf (memberName env b) ≤ 247 →
        template env old dir b =
          dir ++ [47] ++ (memberName env b).take
            (min (memberName env b).length (247 - suffixLenOf (memberName env b) - dir.length))
            ++ XXXXXX) := by
  have key : ∀ (nm : List Nat) (k : Nat), dir.length + k ≤ 247 →
      snprintfFullname env old dir nm k =
        dir ++ [47] ++ nm.take (min nm.length (247 - k - dir.length)) ++ XXXXXX := by
    intro nm k hk
    rw [snprintfFullname_room env old dir nm k (by omega) (by omega), hmax]
    have e : 255 - 8 - k - dir.length = 247 - k - dir.length := by omega
    rw [e]
    congr 2
    rcases Nat.le_total nm.length (247 - k - dir.length) with hle | hle
    · rw [Nat.min_eq_left hle, List.take_of_length_le hle, List.take_of_length_le (le_refl _)]
    · rw [Nat.min_eq_right hle]
  refine ⟨key name s hroom, ?_, ?_, ?_, fun b hb => key _ _ hb⟩
  · rw [key name s hroom]
    simp only [List.length_append, List.length_take, List.length_cons, List.length_nil, XXXXXX]
    omega
  · rw [key name s hroom]
    have hl : (dir ++ [47] ++ name.take (min name.length (247 - s - dir.length)) ++
        XXXXXX).length - 6 =
        (dir ++ [47] ++ name.take (min name.length (247 - s - dir.length))).length := by
      simp only [List.length_append, List.length_cons, List.length_nil, XXXXXX]
      omega
    rw [hl, List.drop_left]
  · intro b
    unfold suffixLenOf
    split
    · omega
    · split <;> omega

theorem C29_witness :
    snprintfFullname envOk [] tmpDir helloName 4 =
        tmpDir ++ [47] ++ helloName.take (min helloName.length (247 - 4 - tmpDir.length)) ++
          XXXXXX
    ∧ (snprintfFullname envOk [] tmpDir helloName 4).length ≤ 254 - 4
    ∧ (snprintfFullname envOk [] tmpDir helloName 4).drop
        ((snprintfFullname envOk [] tmpDir helloName 4).length - 6) = XXXXXX
    ∧ (∀ b : Block, suffixLenOf (memberName envOk b) ≤ 4)
    ∧ (∀ b : Block, tmpDir.length + suffixLenOf (memberName envOk b) ≤ 247 →
        template envOk [] tmpDir b =
          tmpDir ++ [47] ++ (memberName envOk b).take
            (min (memberName envOk b).length
              (247 - suffixLenOf (memberName envOk b) - tmpDir.length))
            ++ XXXXXX) :=
  C29_template_not_truncated envOk [] tmpDir helloName 4 rfl (by decide)

theorem loop_fuel_mono (env : Env) (dir : List Nat) :
    ∀ (n : Nat) (s : State) (stale : Block) (rs : List Read) (o : Outcome),
      loop env dir n s stale rs = some o → ∀ k, loop env dir (n + k) s stale rs = some o := by
  intro n
  induction n with
  | zero => intro s stale rs o h; simp [loop] at h
  | succ n ih =>
    intro s stale rs o h k
    have e : n + 1 + k = (n + k) + 1 := by omega
    rw [e]
    simp only [loop] at h ⊢
    cases hb : body env dir s (nextRead stale rs).1 with
    | ret c t => rw [hb] at h; exact h
    | brk t => rw [hb] at h; exact h
    | next t => rw [hb] at h; simp only [] at h ⊢; exact ih _ _ _ _ h k

theorem wfStep_endOfBody (s : State) (h0 : 0 ≤ s.size) (hib : s.in_block = true)
    (hopen : ∃ i f, s.outfile = some i ∧ s.files.get? i = some f ∧ f.isOpen = true) :
    WfStep (endOfBody s) := by
  simp only [endOfBody, WfStep]
  split
  · rename_i hz
    exact ⟨by simp [hz], by simp [hz], fun h => by simp at h⟩
  · rename_i hz
    exact ⟨h0, ⟨fun _ => by omega, fun _ => hib⟩, fun _ => hopen⟩

theorem wfStep_extractEntry (env : Env) (dir : List Nat) (t : State) (b : Block) :
    WfStep (extractEntry env dir t b) := by
  simp only [extractEntry]
  cases mkstemp env t.opens (template env t.fullname dir b) with
  | none => trivial
  | some nm =>
    simp only []
    cases env.fdopenOk t.files.length with
    | false => trivial
    | true =>
      simp only [Bool.not_true, Bool.false_eq_true, if_false]
      split
      · trivial
      · rename_i hsz
        apply wfStep_endOfBody
        · simp only at hsz ⊢; omega
        · rfl
        · exact ⟨t.files.length, OutFile.mk nm [] true, rfl, by simp, rfl⟩

theorem wfStep_headerChecks (env : Env) (dir : List Nat) (t : State) (b : Block)
    (hsz : t.size = 0) : WfStep (headerChecks env dir t b) := by
  simp only [headerChecks]
  split
  · trivial
  · split
    · trivial
    · cases classify (b 156) with
      | none => trivial
      | some d =>
        cases d with
        | true =>
          simp only [WfStep, WellFormed]
          exact ⟨by omega, by simp [hsz], fun h => by simp at h⟩
        | false => exact wfStep_extractEntry env dir t b

theorem appendAt_get?_same (fs : List OutFile) (i : Nat) (bytes : List Nat) (f : OutFile)
    (h : fs.get? i = some f) :
    (appendAt fs i bytes).get? i = some { f with data := f.data ++ bytes } := by
  induction fs generalizing i with
  | nil => simp at h
  | cons g fs ih =>
    cases i with
    | zero =>
      simp only [List.get?_cons_zero, Option.some.injEq] at h
      simp [appendAt, h]
    | succ i =>
      simp only [List.get?_cons_succ] at h
      simpa [appendAt] using ih i h

theorem wfStep_writeBody (env : Env) (s : State) (b : Block) (hw : WellFormed s)
    (hib : s.in_block = true) : WfStep (writeBody env s b) := by
  obtain ⟨_, hiff, hopen⟩ := hw
  have hpos : 0 < s.size := hiff.1 hib
  obtain ⟨i, f, ho, hget, hf⟩ := hopen hib
  simp only [writeBody, ho]
  apply wfStep_endOfBody
  · simp only []; split <;> omega
  · exact hib
  · exact ⟨i, _, rfl, appendAt_get?_same _ _ _ _ hget, hf⟩

/-- Every pass from a well-formed state that goes on leaves a well-formed state. -/
theorem wfStep_body (env : Env) (dir : List Nat) (s : State) (r : Read) (hw : WellFormed s) :
    WfStep (body env dir s r) := by
  simp only [body]
  split
  · trivial
  · split
    · trivial
    · split
      · rename_i hb
        have hib : s.in_block = false := by simpa using hb
        have hsz : s.size = 0 := by
          obtain ⟨h0, hiff, _⟩ := hw
          by_contra hne
          have : s.in_block = true := hiff.2 (by omega)
          rw [hib] at this; cases this
        simp only [header]
        cases s.outfile with
        | none => exact wfStep_headerChecks env dir s r.block hsz
        | some i =>
          simp only []
          split
          · exact wfStep_headerChecks env dir _ r.block (by rw [closePrev_size]; exact hsz)
          · trivial
      · rename_i hb
        have hib : s.in_block = true := by simpa using hb
        exact wfStep_writeBody env s r.block hw hib

theorem wellFormed_init : WellFormed init :=
  ⟨by simp [init], by simp [init], fun h => by simp [init] at h⟩

theorem reachable_wellFormed (env : Env) (dir : List Nat) (s : State)
    (h : Reachable env dir s) : WellFormed s := by
  induction h with
  | entry => exact wellFormed_init
  | pass s t r _ hb ih =>
    have := wfStep_body env dir s r ih
    rw [hb] at this
    exact this

/-- C26: at the start of every pass through the loop of `cli_untar` (in the state at
entry and in every state a pass falls through to) the extraction state is well-formed:
`size >= 0`, `in_block` is set if and only if `size > 0`, and whenever `in_block` is set
`outfile` refers to an open file, so the branch that writes file contents never runs
without an open file. -/
theorem C26_state_well_formed (env : Env) (dir : List Nat) (s : State)
    (h : Reachable env dir s) :
    0 ≤ s.size ∧ (s.in_block = true ↔ 0 < s.size) ∧
      (s.in_block = true →
        ∃ i f, s.outfile = some i ∧ s.files.get? i = some f ∧ f.isOpen = true) :=
  reachable_wellFormed env dir s h

set_option maxRecDepth 100000 in
theorem C26_witness :
    0 ≤ midBody.size ∧ (midBody.in_block = true ↔ 0 < midBody.size) ∧
      (midBody.in_block = true →
        ∃ i f, midBody.outfile = some i ∧ midBody.files.get? i = some f ∧ f.isOpen = true) :=
  C26_state_well_formed envOk tmpDir midBody
    (Reachable.pass _ midBody (fullRead (mkData helloData))
      (Reachable.pass init _ (fullRead bigHeader) Reachable.entry rfl) (by decide))

theorem writeBody_size (env : Env) (s : State) (b : Block) :
    (writeBody env s b).state.size = s.size - (if s.size > 512 then 512 else s.size) := by
  simp only [writeBody, endOfBody_size]
  cases s.outfile <;> rfl

/-- C28: `cli_untar` terminates on every finite input stream, streams that end inside a
body included: the loop returns within the passes allotted to it, and more passes change
nothing.  A pass either takes a block off the input or, at end of stream, where it can only
go on inside a body, leaves a remaining size that is not negative and strictly smaller. -/
theorem C28_cli_untar_terminates (env : Env) (dir : List Nat) :
    (∀ rs, ∃ o, cli_untar env dir rs = some o)
    ∧ (∀ rs fuel stale, fuelFor rs ≤ fuel →
        loop env dir fuel init stale rs = cli_untar env dir rs)
    ∧ (∀ s stale t, Reachable env dir s → body env dir s (Read.mk 0 stale) = Step.next t →
        s.in_block = true ∧ 0 ≤ t.size ∧ t.size < s.size) := by
  refine ⟨fun rs => ?_, fun rs fuel stale hfuel => ?_, fun s stale t hs hb => ?_⟩
  · obtain ⟨o, ho, _⟩ := cli_untar_total env dir rs
    exact ⟨o, ho⟩
  · obtain ⟨o, ho, _⟩ := cli_untar_total env dir rs
    obtain ⟨k, rfl⟩ : ∃ k, fuel = fuelFor rs + k := ⟨fuel - fuelFor rs, by omega⟩
    rw [ho, loop_stale_irrelevant env dir _ init stale (fun _ => 0) rs rfl]
    exact loop_fuel_mono env dir _ _ _ _ o ho k
  · cases hib : s.in_block with
    | false =>
      rw [body_eof_header env dir s stale hib] at hb
      cases hb
    | true =>
      obtain ⟨_, hiff, _⟩ := reachable_wellFormed env dir s hs
      have hpos : 0 < s.size := hiff.1 hib
      rw [body_copying env dir s (Read.mk 0 stale) hib (le_refl _)] at hb
      have ht : t.size = s.size - (if s.size > 512 then 512 else s.size) := by
        have h1 := writeBody_size env s stale
        have h2 : writeBody env s stale = Step.next t := hb
        rw [h2] at h1
        exact h1
      refine ⟨rfl, ?_, ?_⟩ <;> (rw [ht]; split <;> omega)

theorem C28_witness :
    (cli_untar envOk tmpDir truncatedArchive).map Outcome.ret = some Ret.OK
    ∧ ∃ o, cli_untar envOk tmpDir truncatedArchive = some o :=
  ⟨by decide, (C28_cli_untar_terminates envOk tmpDir).1 truncatedArchive⟩

theorem cstr_append_of_nonzero (l1 l2 : List Nat) (h : ∀ c ∈ l1, c ≠ 0) :
    cstr (l1 ++ l2) = l1 ++ cstr l2 := by
  induction l1 with
  | nil => rfl
  | cons a l1 ih =>
    have ha : a ≠ 0 := h a (List.mem_cons_self _ _)
    have ih2 := ih (fun c hc => h c (List.mem_cons_of_mem _ hc))
    simp only [cstr] at ih2 ⊢
    simp [List.takeWhile_cons, ha, ih2]

theorem cstr_padding (pad : List Nat) (h : ∀ c ∈ pad, c = 0 ∨ c = 32) :
    ∀ c ∈ cstr pad, c = 32 := by
  induction pad with
  | nil => intro c hc; simp [cstr] at hc
  | cons a pad ih =>
    intro c hc
    simp only [cstr, List.takeWhile_cons] at hc
    split at hc
    · rename_i ha
      rcases List.mem_cons.1 hc with rfl | hc2
      · rcases h c (List.mem_cons_self _ _) with h0 | h32
        · simp [h0] at ha
        · exact h32
      · exact ih (fun c hc => h c (List.mem_cons_of_mem _ hc)) c hc2
    · simp at hc

theorem dropWhile_spaces (spaces rest : List Nat) (d : Nat) (hsp : ∀ c ∈ spaces, c = 32)
    (hd : isspace d = false) :
    (spaces ++ d :: rest).dropWhile isspace = d :: rest := by
  induction spaces with
  | nil => simp [List.dropWhile_cons, hd]
  | cons a spaces ih =>
    have ha : a = 32 := hsp a (List.mem_cons_self _ _)
    subst ha
    have := ih (fun c hc => hsp c (List.mem_cons_of_mem _ hc))
    simpa [List.dropWhile_cons, isspace] using this

theorem takeWhile_digits (digits rest : List Nat) (hdig : ∀ c ∈ digits, isOctDigit c = true)
    (hrest : ∀ c ∈ rest, c = 32) :
    (digits ++ rest).takeWhile isOctDigit = digits := by
  induction digits with
  | nil =>
    cases rest with
    | nil => rfl
    | cons a rest =>
      have ha : a = 32 := hrest a (List.mem_cons_self _ _)
      subst ha
      simp [List.takeWhile_cons, isOctDigit]
  | cons a digits ih =>
    have ha := hdig a (List.mem_cons_self _ _)
    have := ih (fun c hc => hdig c (List.mem_cons_of_mem _ hc))
    simp [List.takeWhile_cons, ha, this]

theorem isOctDigit_bounds (d : Nat) (h : isOctDigit d = true) : 48 ≤ d ∧ d ≤ 55 := by
  simpa [isOctDigit] using h

/-- The string passed to `octal` for a size field of spaces, digits and padding. -/
theorem octal_of_field (spaces digits pad : List Nat)
    (hsp : ∀ c ∈ spaces, c = 32) (hdig : ∀ c ∈ digits, isOctDigit c = true)
    (hne : digits ≠ []) (hpad : ∀ c ∈ pad, c = 0 ∨ c = 32)
    (hv : octValue digits < 2147483648) :
    octal (cstr (spaces ++ digits ++ pad)) = octValue digits := by
  cases digits with
  | nil => exact absurd rfl hne
  | cons d ds =>
    obtain ⟨hd1, hd2⟩ := isOctDigit_bounds d (hdig d (List.mem_cons_self _ _))
    have hnz : ∀ c ∈ spaces ++ d :: ds, c ≠ 0 := by
      intro c hc
      rcases List.mem_append.1 hc with h1 | h2
      · rw [hsp c h1]; decide
      · have := (isOctDigit_bounds c (hdig c h2)).1; omega
    have hstr : cstr (spaces ++ (d :: ds) ++ pad) = spaces ++ d :: (ds ++ cstr pad) := by
      rw [cstr_append_of_nonzero _ _ hnz]; simp
    have hsd : isspace d = false := by
      simp only [isspace, Bool.or_eq_false_iff, beq_eq_false_iff_ne, Bool.and_eq_false_iff,
        decide_eq_false_iff_not]
      exact ⟨by omega, by right; omega⟩
    have hdrop := dropWhile_spaces spaces (ds ++ cstr pad) d hsp hsd
    have htake : (d :: (ds ++ cstr pad)).takeWhile isOctDigit = d :: ds :=
      takeWhile_digits (d :: ds) (cstr pad) hdig (cstr_padding pad hpad)
    have h45 : (d == 45) = false := by simp; omega
    have h43 : (d == 43) = false := by simp; omega
    have hds : octalDigits (spaces ++ d :: (ds ++ cstr pad)) = d :: ds := by
      simp only [octalDigits, hdrop, List.head?_cons]
      have : (some d == some 45 || some d == some 43) = false := by
        simp only [Bool.or_eq_false_iff]
        exact ⟨by simpa using h45, by simpa using h43⟩
      rw [this]
      exact htake
    rw [hstr]
    simp only [octal, hds, hdrop, List.head?_cons]
    have hneg : (some d == some 45) = false := by simpa using h45
    rw [hneg]
    simp only [List.isEmpty_cons, Bool.false_eq_true, if_false]
    exact toInt32_of_small _ (by omega) (by exact_mod_cast hv)

theorem octalDigits_of_no_digit (str : List Nat)
    (h : ∀ c ∈ str.dropWhile isspace, isOctDigit c = false) : octalDigits str = [] := by
  simp only [octalDigits]
  split
  · cases hs : (List.dropWhile isspace str).tail with
    | nil => rfl
    | cons a l =>
      have ha : a ∈ List.dropWhile isspace str :=
        List.mem_of_mem_tail (by rw [hs]; exact List.mem_cons_self _ _)
      simp [List.takeWhile_cons, h a ha]
  · cases hs : List.dropWhile isspace str with
    | nil => rfl
    | cons a l =>
      have ha : a ∈ List.dropWhile isspace str := by rw [hs]; exact List.mem_cons_self _ _
      rw [hs] at h
      simp [List.takeWhile_cons, h a (List.mem_cons_self _ _)]

/-- C27: `octal` reads the size field (bytes 124 to 135 of the header, copied by
`strncpy` and NUL-terminated) as octal text.  When the twelve bytes are leading spaces,
then one or more octal digits whose value `v` is below 2^31, then padding of NULs and
spaces, it returns exactly `v`.  When no octal digit occurs after the leading white space
of the string it returns -1; more generally it returns -1 whenever the `%o` conversion
finds no digit to consume.  (A sign is accepted by `%o` before the digits, so a field such
as `-5` does hold a digit after the white space and is not covered by the second part.) -/
theorem C27_octal_reads_size_field (b : Block) :
    (∀ spaces digits pad : List Nat,
      (List.range 12).map (fun i => b (124 + i)) = spaces ++ digits ++ pad →
      (∀ c ∈ spaces, c = 32) → (∀ c ∈ digits, isOctDigit c = true) → digits ≠ [] →
      (∀ c ∈ pad, c = 0 ∨ c = 32) → octValue digits < 2 ^ 31 →
      1 ≤ digits.length ∧ digits.length ≤ 12 ∧
        octal (strncpy b 124 12) = (octValue digits : Int))
    ∧ ((∀ c ∈ (strncpy b 124 12).dropWhile isspace, isOctDigit c = false) →
        octal (strncpy b 124 12) = -1)
    ∧ (octalDigits (strncpy b 124 12) = [] → octal (strncpy b 124 12) = -1) := by
  refine ⟨fun spaces digits pad hfield hsp hdig hne hpad hv => ?_, fun h => ?_, fun h => ?_⟩
  · have hlen : spaces.length + digits.length + pad.length = 12 := by
      have := congrArg List.length hfield
      simp only [List.length_map, List.length_range, List.length_append] at this
      omega
    have hpos : 0 < digits.length := List.length_pos.2 hne
    refine ⟨hpos, by omega, ?_⟩
    rw [strncpy, hfield]
    exact octal_of_field spaces digits pad hsp hdig hne hpad (by simpa using hv)
  · exact octal_of_no_digits _ (octalDigits_of_no_digit _ h)
  · exact octal_of_no_digits _ h

theorem C27_witness :
    octal (strncpy helloHeader 124 12) = 6 ∧ octal (strncpy noSizeHeader 124 12) = -1 :=
  ⟨((C27_octal_reads_size_field helloHeader).1 [] size6 [0] (by decide) (by decide)
      (by decide) (by decide) (by decide) (by decide)).2.2,
    (C27_octal_reads_size_field noSizeHeader).2.1 (by decide)⟩

end Untar

namespace Text

/-! ## Facts about the heap -/

theorem node_lt (h : Heap) (a : Nat) (n : Node) (hn : h.node a = some n) :
    a < h.nodes.length := by
  by_contra hge
  have hle : h.nodes.length ≤ a := Nat.le_of_not_lt hge
  simp [Heap.node, List.getElem?_eq_none hle] at hn

theorem node_setNode_same (h : Heap) (a : Nat) (n : Node) (ha : a < h.nodes.length) :
    (h.setNode a n).node a = some n := by
  simp [Heap.node, Heap.setNode, List.getD_eq_getElem?_getD, List.getElem?_set, ha]

theorem node_setNode_other (h : Heap) (a b : Nat) (n : Node) (hne : b ≠ a) :
    (h.setNode a n).node b = h.node b := by
  simp [Heap.node, Heap.setNode, List.getD_eq_getElem?_getD, List.getElem?_set, Ne.symm hne]

theorem node_free_same (h : Heap) (a : Nat) : (h.free a).node a = none := by
  by_cases ha : a < h.nodes.length
  · simp [Heap.node, Heap.free, List.getD_eq_getElem?_getD, List.getElem?_set, ha]
  · have hle : (h.nodes.set a none).length ≤ a := by simp; omega
    simp [Heap.node, Heap.free, List.getElem?_eq_none hle]

theorem node_free_other (h : Heap) (a b : Nat) (hne : b ≠ a) :
    (h.free a).node b = h.node b := by
  simp [Heap.node, Heap.free, List.getD_eq_getElem?_getD, List.getElem?_set, Ne.symm hne]

theorem cli_malloc_ok (al : Alloc) (h : Heap) (hok : al.ok h.nodes.length = true) :
    cli_malloc al h =
      ({ h with nodes := h.nodes ++ [some (al.junk h.nodes.length)] }, some h.nodes.length) := by
  simp [cli_malloc, hok]

theorem node_grow_old (h : Heap) (x : Option Node) (a : Nat) (ha : a < h.nodes.length) :
    ({ h with nodes := h.nodes ++ [x] } : Heap).node a = h.node a := by
  simp [Heap.node, List.getD_eq_getElem?_getD, List.getElem?_append_left ha]

theorem node_grow_new (h : Heap) (x : Option Node) :
    ({ h with nodes := h.nodes ++ [x] } : Heap).node h.nodes.length = x := by
  simp [Heap.node, List.getD_eq_getElem?_getD]

/-! ## Facts about chains -/

theorem isSeg_nil (h : Heap) (p q : Option Nat) : isSeg h p [] q = true ↔ p = q := by
  cases p <;> simp [isSeg]

theorem isSeg_cons (h : Heap) (p : Option Nat) (c : Nat × Option Nat)
    (cs : List (Nat × Option Nat)) (q : Option Nat) :
    isSeg h p (c :: cs) q = true ↔
      p = some c.1 ∧ ∃ n, h.node c.1 = some n ∧ n.t_line = c.2 ∧ isSeg h n.t_next cs q = true := by
  cases p with
  | none => simp [isSeg]
  | some a =>
    simp only [isSeg, Bool.and_eq_true, beq_iff_eq, Option.some.injEq]
    constructor
    · rintro ⟨ha, h2⟩
      cases hn : h.node a with
      | none => rw [hn] at h2; cases h2
      | some n =>
        rw [hn] at h2
        simp only [Bool.and_eq_true, beq_iff_eq] at h2
        exact ⟨ha, n, by rw [← ha, hn], h2.1, h2.2⟩
    · rintro ⟨ha, n, hn, h1, h2⟩
      refine ⟨ha, ?_⟩
      rw [ha, hn]
      simp [h1, h2]

theorem isSeg_frame (h k : Heap) :
    ∀ (cs : List (Nat × Option Nat)) (p q : Option Nat),
      (∀ a ∈ cs.map Prod.fst, k.node a = h.node a) → isSeg h p cs q = true →
      isSeg k p cs q = true := by
  intro cs
  induction cs with
  | nil => intro p q _ hs; rw [isSeg_nil] at hs ⊢; exact hs
  | cons c cs ih =>
    intro p q hfr hs
    rw [isSeg_cons] at hs ⊢
    obtain ⟨hp, n, hn, hl, hrest⟩ := hs
    refine ⟨hp, n, ?_, hl, ih _ _ (fun a ha => hfr a (by simp at ha ⊢; exact Or.inr ha)) hrest⟩
    rw [hfr c.1 (by simp), hn]

theorem isSeg_append (h : Heap) :
    ∀ (cs1 cs2 : List (Nat × Option Nat)) (p q r : Option Nat),
      isSeg h p cs1 q = true → isSeg h q cs2 r = true → isSeg h p (cs1 ++ cs2) r = true := by
  intro cs1
  induction cs1 with
  | nil => intro cs2 p q r h1 h2; rw [isSeg_nil] at h1; subst h1; simpa using h2
  | cons c cs ih =>
    intro cs2 p q r h1 h2
    rw [List.cons_append, isSeg_cons]
    rw [isSeg_cons] at h1
    obtain ⟨hp, n, hn, hl, hrest⟩ := h1
    exact ⟨hp, n, hn, hl, ih cs2 _ q r hrest h2⟩

theorem isSeg_split (h : Heap) :
    ∀ (cs1 cs2 : List (Nat × Option Nat)) (p r : Option Nat),
      isSeg h p (cs1 ++ cs2) r = true →
      ∃ q, isSeg h p cs1 q = true ∧ isSeg h q cs2 r = true := by
  intro cs1
  induction cs1 with
  | nil => intro cs2 p r hs; exact ⟨p, (isSeg_nil h p p).2 rfl, by simpa using hs⟩
  | cons c cs ih =>
    intro cs2 p r hs
    rw [List.cons_append, isSeg_cons] at hs
    obtain ⟨hp, n, hn, hl, hrest⟩ := hs
    obtain ⟨q, h1, h2⟩ := ih cs2 _ r hrest
    exact ⟨q, (isSeg_cons h p c cs q).2 ⟨hp, n, hn, hl, h1⟩, h2⟩

theorem isSeg_lt (h : Heap) :
    ∀ (cs : List (Nat × Option Nat)) (p q : Option Nat), isSeg h p cs q = true →
      ∀ a ∈ cs.map Prod.fst, a < h.nodes.length := by
  intro cs
  induction cs with
  | nil => intro p q _ a ha; simp at ha
  | cons c cs ih =>
    intro p q hs a ha
    rw [isSeg_cons] at hs
    obtain ⟨_, n, hn, _, hrest⟩ := hs
    simp only [List.map_cons, List.mem_cons] at ha
    rcases ha with ha | ha
    · rw [ha]; exact node_lt h _ n hn
    · exact ih _ _ hrest a ha

theorem isChain_unique (h : Heap) :
    ∀ (cs1 cs2 : List (Nat × Option Nat)) (p : Option Nat),
      isChain h p cs1 = true → isChain h p cs2 = true → cs1 = cs2 := by
  unfold isChain
  intro cs1
  induction cs1 with
  | nil =>
    intro cs2 p h1 h2
    rw [isSeg_nil] at h1
    subst h1
    cases cs2 with
    | nil => rfl
    | cons c cs => rw [isSeg_cons] at h2; cases h2.1
  | cons c cs ih =>
    intro cs2 p h1 h2
    rw [isSeg_cons] at h1
    obtain ⟨hp, n, hn, hl, hrest⟩ := h1
    cases cs2 with
    | nil => rw [isSeg_nil] at h2; rw [h2] at hp; cases hp
    | cons d ds =>
      rw [isSeg_cons] at h2
      obtain ⟨hp2, n2, hn2, hl2, hrest2⟩ := h2
      have hcd : c.1 = d.1 := by rw [hp] at hp2; exact Option.some.inj hp2
      rw [← hcd, hn] at hn2
      have hnn : n = n2 := Option.some.inj hn2
      subst hnn
      have : cs = ds := ih ds _ hrest hrest2
      subst this
      have : c = d := Prod.ext hcd (by rw [← hl, ← hl2])
      rw [this]

theorem isChain_nodup (h : Heap) :
    ∀ (cs : List (Nat × Option Nat)) (p : Option Nat), isChain h p cs = true →
      (cs.map Prod.fst).Nodup := by
  intro cs
  induction cs with
  | nil => intro p _; simp
  | cons c cs ih =>
    intro p hs
    have hs' := hs
    unfold isChain at hs
    rw [isSeg_cons] at hs
    obtain ⟨hp, n, hn, hl, hrest⟩ := hs
    simp only [List.map_cons, List.nodup_cons]
    refine ⟨?_, ih _ hrest⟩
    intro hmem
    obtain ⟨d, hd, hdc⟩ := List.mem_map.1 hmem
    obtain ⟨l1, l2, hsplit⟩ := List.append_of_mem hd
    rw [hsplit] at hrest
    obtain ⟨q, _, h2⟩ := isSeg_split h l1 (d :: l2) _ none hrest
    rw [isSeg_cons] at h2
    obtain ⟨_, n2, hn2, _, hrest2⟩ := h2
    rw [hdc, hn] at hn2
    have hnn : n = n2 := Option.some.inj hn2
    subst hnn
    rw [← hsplit] at hrest
    have := isChain_unique h cs l2 _ hrest hrest2
    have hlen := congrArg List.length hsplit
    rw [this] at hlen
    simp at hlen
    omega

theorem nodup_length_le (l : List Nat) (n : Nat) (hnd : l.Nodup) (hlt : ∀ a ∈ l, a < n) :
    l.length ≤ n := by
  have h1 : l.toFinset ⊆ Finset.range n := by
    intro a ha
    simp only [List.mem_toFinset] at ha
    simp [hlt a ha]
  have h2 := Finset.card_le_card h1
  rw [List.toFinset_card_of_nodup hnd, Finset.card_range] at h2
  exact h2

theorem isChain_length_le (h : Heap) (cs : List (Nat × Option Nat)) (p : Option Nat)
    (hc : isChain h p cs = true) : cs.length ≤ h.nodes.length := by
  have := nodup_length_le (cs.map Prod.fst) h.nodes.length (isChain_nodup h cs p hc)
    (isSeg_lt h cs p none hc)
  simpa using this


theorem linkIf_nodes (h : Heap) (l : Option Nat) : (linkIf h l).nodes = h.nodes := by
  cases l <;> rfl

theorem linkIf_node (h : Heap) (l : Option Nat) (a : Nat) : (linkIf h l).node a = h.node a := by
  cases l <;> rfl

theorem linkIf_links (h : Heap) (l : Option Nat) (x : Nat) :
    (linkIf h l).links x = h.links x + (if l = some x then 1 else 0) := by
  cases l with
  | none => simp [linkIf]
  | some y =>
    simp only [linkIf, lineLink, Option.some.injEq]
    by_cases hxy : x = y
    · subst hxy; simp
    · have : ¬ (y = x) := fun e => hxy e.symm
      simp [hxy, this]

theorem unlinkIf_node (h : Heap) (l : Option Nat) (a : Nat) :
    (unlinkIf h l).node a = h.node a := by
  cases l <;> rfl

theorem unlinkIf_nodes (h : Heap) (l : Option Nat) : (unlinkIf h l).nodes = h.nodes := by
  cases l <;> rfl

theorem unlinkIf_links (h : Heap) (l : Option Nat) (x : Nat) :
    (unlinkIf h l).links x = h.links x - (if l = some x then 1 else 0) := by
  cases l with
  | none => simp [unlinkIf]
  | some y =>
    simp only [unlinkIf, lineUnlink, Option.some.injEq]
    by_cases hxy : x = y
    · subst hxy; simp
    · have : ¬ (y = x) := fun e => hxy e.symm
      simp [hxy, this]

theorem setNode_length (h : Heap) (a : Nat) (n : Node) :
    (h.setNode a n).nodes.length = h.nodes.length := by
  simp [Heap.setNode]

theorem refs_cons (c : Nat × Option Nat) (cs : List (Nat × Option Nat)) (x : Nat) :
    refs (c :: cs) x = refs cs x + (if c.2 = some x then 1 else 0) := by
  simp only [refs, List.map_cons, List.count_cons]
  by_cases hc : c.2 = some x <;> simp [hc]

theorem textAddLoop_none (al : Alloc) (fuel : Nat) (h : Heap) (l : Nat) :
    textAddLoop al fuel h l none = .ok (h, l) := by
  cases fuel <;> rfl

/-- One pass of the loop of `textAdd` when the allocation succeeds. -/
theorem textAddLoop_step (al : Alloc) (fuel : Nat) (h : Heap)
    (hal : al.ok h.nodes.length = true) (l ta : Nat) (nl nt : Node) (hl : h.node l = some nl) (hta : h.node ta = some nt)
    (hne : ta ≠ l) :
    ∃ h2 d, textAddLoop al (fuel + 1) h l (some ta) =
        textAddLoop al fuel h2 h.nodes.length nt.t_next
      ∧ h2.nodes.length = h.nodes.length + 1
      ∧ h2.node h.nodes.length = some (Node.mk nt.t_line d)
      ∧ h2.node l = some { nl with t_next := some h.nodes.length }
      ∧ (∀ a, a < h.nodes.length → a ≠ l → h2.node a = h.node a)
      ∧ (∀ x, h2.links x = h.links x + (if nt.t_line = some x then 1 else 0)) := by
  have hll : l < h.nodes.length := node_lt h l nl hl
  have htl : ta < h.nodes.length := node_lt h ta nt hta
  have hm := cli_malloc_ok al h hal
  -- the heap after the allocation and the store into `t_head->t_next`
  have e1 : (cli_malloc al h).1.node l = some nl := by
    rw [hm]; simp only []; rw [node_grow_old h _ l hll, hl]
  have e2 : (cli_malloc al h).2 = some h.nodes.length := by rw [hm]
  have e3 : ((cli_malloc al h).1.setNode l { nl with t_next := some h.nodes.length }).node ta =
      some nt := by
    rw [node_setNode_other _ _ _ _ hne, hm]; simp only []
    rw [node_grow_old h _ ta htl, hta]
  have e4 : (linkIf ((cli_malloc al h).1.setNode l { nl with t_next := some h.nodes.length })
      nt.t_line).node h.nodes.length = some (al.junk h.nodes.length) := by
    rw [linkIf_node, node_setNode_other _ _ _ _ (by omega), hm]; simp only []
    rw [node_grow_new]
  refine ⟨(linkIf ((cli_malloc al h).1.setNode l { nl with t_next := some h.nodes.length })
      nt.t_line).setNode h.nodes.length { al.junk h.nodes.length with t_line := nt.t_line },
    (al.junk h.nodes.length).t_next, ?_, ?_, ?_, ?_, ?_, ?_⟩
  · simp only [textAddLoop, e1, e2, copyLine, e3, e4]
  · rw [setNode_length, linkIf_nodes, setNode_length, hm]; simp
  · rw [node_setNode_same]
    rw [linkIf_nodes, setNode_length, hm]; simp
  · rw [node_setNode_other _ _ _ _ (by omega), linkIf_node, node_setNode_same]
    rw [hm]; simp; omega
  · intro a ha hal2
    rw [node_setNode_other _ _ _ _ (by omega), linkIf_node, node_setNode_other _ _ _ _ hal2, hm]
    simp only []
    rw [node_grow_old h _ a ha]
  · intro x
    show (linkIf _ nt.t_line).links x = _
    rw [linkIf_links, hm]
    rfl

theorem isChain_cons (h : Heap) (p : Option Nat) (c : Nat × Option Nat)
    (cs : List (Nat × Option Nat)) :
    isChain h p (c :: cs) = true ↔
      p = some c.1 ∧ ∃ n, h.node c.1 = some n ∧ n.t_line = c.2 ∧ isChain h n.t_next cs = true :=
  isSeg_cons h p c cs none

theorem isChain_nil (h : Heap) (p : Option Nat) : isChain h p [] = true ↔ p = none :=
  isSeg_nil h p none

/-- The loop of `textAdd` followed by `t_head->t_next = NULL`: from the last cell `l` of
a buffer, with the chain `ys` to copy not containing `l`, the cells appended copy the
lines of `ys` in order, are all fresh, and nothing else changes but the share counts. -/
theorem textAddLoop_spec (al : Alloc) (hal : ∀ k, al.ok k = true) :
    ∀ (ys : List (Nat × Option Nat)) (fuel : Nat) (h : Heap) (l : Nat) (nl : Node)
      (t : Option Nat),
      isChain h t ys = true → ys.length ≤ fuel → h.node l = some nl →
      (∀ a ∈ ys.map Prod.fst, a ≠ l) →
      ∃ h1 l1 h2 zs, textAddLoop al fuel h l t = .ok (h1, l1) ∧ endChain h1 l1 = .ok h2
        ∧ isChain h2 (some l) ((l, nl.t_line) :: zs) = true
        ∧ zs.map Prod.snd = ys.map Prod.snd
        ∧ (∀ a ∈ zs.map Prod.fst, h.nodes.length ≤ a)
        ∧ (∀ a, a < h.nodes.length → a ≠ l → h2.node a = h.node a)
        ∧ h.nodes.length ≤ h2.nodes.length
        ∧ (∀ x, h2.links x = h.links x + refs ys x) := by
  intro ys
  induction ys with
  | nil =>
    intro fuel h l nl t hc _ hl _
    rw [isChain_nil] at hc
    subst hc
    have hll : l < h.nodes.length := node_lt h l nl hl
    refine ⟨h, l, h.setNode l { nl with t_next := none }, [], textAddLoop_none al fuel h l,
      by simp [endChain, hl], ?_, rfl, by simp, ?_, by simp [setNode_length], ?_⟩
    · rw [isChain_cons]
      exact ⟨rfl, _, node_setNode_same h l _ hll, rfl, (isChain_nil _ _).2 rfl⟩
    · intro a _ hne
      exact node_setNode_other h l a _ hne
    · intro x; simp [refs, Heap.setNode]
  | cons c ys ih =>
    intro fuel h l nl t hc hfuel hl hne
    rw [isChain_cons] at hc
    obtain ⟨ht, nt, hnt, hline, hrest⟩ := hc
    subst ht
    obtain ⟨fuel, rfl⟩ : ∃ k, fuel = k + 1 := ⟨fuel - 1, by simp at hfuel; omega⟩
    have hc1 : c.1 ≠ l := hne c.1 (by simp)
    obtain ⟨h2, d, hstep, hlen, hq, hl2, hold, hlinks⟩ :=
      textAddLoop_step al fuel h (hal _) l c.1 nl nt hl hnt hc1
    have hys_lt : ∀ a ∈ ys.map Prod.fst, a < h.nodes.length := isSeg_lt h ys _ none hrest
    have hrest2 : isChain h2 nt.t_next ys = true := by
      apply isSeg_frame h h2 ys _ _ _ hrest
      intro a ha
      exact hold a (hys_lt a ha) (hne a (by simp at ha ⊢; exact Or.inr ha))
    obtain ⟨h3, l3, h4, zs, hrun, hend, hchain, hzs, hfresh, hold4, hlen4, hlinks4⟩ :=
      ih fuel h2 h.nodes.length (Node.mk nt.t_line d) nt.t_next hrest2
        (by simp at hfuel; omega) hq
        (fun a ha => by have := hys_lt a ha; omega)
    have hll : l < h.nodes.length := node_lt h l nl hl
    refine ⟨h3, l3, h4, (h.nodes.length, nt.t_line) :: zs, by rw [hstep, hrun], hend, ?_, ?_,
      ?_, ?_, by omega, ?_⟩
    · rw [isChain_cons]
      refine ⟨rfl, { nl with t_next := some h.nodes.length }, ?_, rfl, hchain⟩
      rw [hold4 l (by omega) (by omega), hl2]
    · simp [hzs, hline]
    · intro a ha
      simp only [List.map_cons, List.mem_cons] at ha
      rcases ha with ha | ha
      · omega
      · have := hfresh a ha; omega
    · intro a ha hal2
      rw [hold4 a (by omega) (by omega), hold a ha hal2]
    · intro x
      rw [hlinks4, hlinks, refs_cons, hline]
      omega

theorem textCopyLoop_none (al : Alloc) (fuel : Nat) (h : Heap) (first last : Option Nat) :
    textCopyLoop al fuel h none first last = .ok (h, first, last) := by
  cases fuel <;> rfl

/-- Once `first` is set, the loop of `textCopy` is the loop of `textAdd`. -/
theorem textCopyLoop_some (al : Alloc) :
    ∀ (fuel : Nat) (h : Heap) (t : Option Nat) (f l : Nat),
      textCopyLoop al fuel h t (some f) (some l) =
        match textAddLoop al fuel h l t with
        | .ok (h1, l1) => .ok (h1, some f, some l1)
        | .fault e => .fault e := by
  intro fuel
  induction fuel with
  | zero => intro h t f l; cases t <;> rfl
  | succ fuel ih =>
    intro h t f l
    cases t with
    | none => rfl
    | some ta =>
      simp only [textCopyLoop, textAddLoop]
      cases (cli_malloc al h).1.node l with
      | none => rfl
      | some n =>
        simp only []
        cases (cli_malloc al h).2 with
        | none => rfl
        | some q =>
          simp only []
          cases copyLine ((cli_malloc al h).1.setNode l { n with t_next := some q }) q ta with
          | fault e => rfl
          | ok r => exact ih r.1 r.2 f q

/-- The first pass of the loop of `textCopy`, when the allocation succeeds. -/
theorem textCopyLoop_first (al : Alloc) (fuel : Nat) (h : Heap)
    (hal : al.ok h.nodes.length = true) (ta : Nat) (nt : Node) (hta : h.node ta = some nt) :
    ∃ h2 d, textCopyLoop al (fuel + 1) h (some ta) none none =
        textCopyLoop al fuel h2 nt.t_next (some h.nodes.length) (some h.nodes.length)
      ∧ h2.nodes.length = h.nodes.length + 1
      ∧ h2.node h.nodes.length = some (Node.mk nt.t_line d)
      ∧ (∀ a, a < h.nodes.length → h2.node a = h.node a)
      ∧ (∀ x, h2.links x = h.links x + (if nt.t_line = some x then 1 else 0)) := by
  have htl : ta < h.nodes.length := node_lt h ta nt hta
  have hm := cli_malloc_ok al h hal
  have e2 : (cli_malloc al h).2 = some h.nodes.length := by rw [hm]
  have e3 : (cli_malloc al h).1.node ta = some nt := by
    rw [hm]; simp only []; rw [node_grow_old h _ ta htl, hta]
  have e4 : (linkIf (cli_malloc al h).1 nt.t_line).node h.nodes.length =
      some (al.junk h.nodes.length) := by
    rw [linkIf_node, hm]; simp only []
    rw [node_grow_new]
  refine ⟨(linkIf (cli_malloc al h).1 nt.t_line).setNode h.nodes.length
      { al.junk h.nodes.length with t_line := nt.t_line },
    (al.junk h.nodes.length).t_next, ?_, ?_, ?_, ?_, ?_⟩
  · simp only [textCopyLoop, e2, copyLine, e3, e4]
  · rw [setNode_length, linkIf_nodes, hm]; simp
  · rw [node_setNode_same]
    rw [linkIf_nodes, hm]; simp
  · intro a ha
    rw [node_setNode_other _ _ _ _ (by omega), linkIf_node, hm]
    simp only []
    rw [node_grow_old h _ a ha]
  · intro x
    show (linkIf _ nt.t_line).links x = _
    rw [linkIf_links, hm]


/-- What `textCopy` does to a well-formed buffer when every allocation succeeds. -/
theorem textCopy_spec (al : Alloc) (hal : ∀ k, al.ok k = true) (h : Heap) (t : Option Nat)
    (cs : List (Nat × Option Nat)) (hc : isChain h t cs = true) :
    ∃ h2 p zs, textCopy al h t = .ok (h2, p) ∧ isChain h2 p zs = true
      ∧ zs.map Prod.snd = cs.map Prod.snd
      ∧ (∀ a ∈ zs.map Prod.fst, h.nodes.length ≤ a)
      ∧ (∀ a, a < h.nodes.length → h2.node a = h.node a)
      ∧ h.nodes.length ≤ h2.nodes.length
      ∧ (∀ x, h2.links x = h.links x + refs cs x) := by
  cases cs with
  | nil =>
    rw [isChain_nil] at hc
    subst hc
    refine ⟨h, none, [], ?_, (isChain_nil _ _).2 rfl, rfl, by simp, fun _ _ => rfl, le_refl _,
      fun x => by simp [refs]⟩
    simp [textCopy, textCopyLoop_none]
  | cons c cs =>
    have hlen := isChain_length_le h (c :: cs) t hc
    rw [isChain_cons] at hc
    obtain ⟨ht, nt, hnt, hline, hrest⟩ := hc
    subst ht
    obtain ⟨h2, d, hstep, hlen2, hq, hold, hlinks⟩ :=
      textCopyLoop_first al h.nodes.length h (hal _) c.1 nt hnt
    have hcs_lt : ∀ a ∈ cs.map Prod.fst, a < h.nodes.length := isSeg_lt h cs _ none hrest
    have hrest2 : isChain h2 nt.t_next cs = true :=
      isSeg_frame h h2 cs _ _ (fun a ha => hold a (hcs_lt a ha)) hrest
    obtain ⟨h3, l3, h4, zs, hrun, hend, hchain, hzs, hfresh, hold4, hlen4, hlinks4⟩ :=
      textAddLoop_spec al hal cs h.nodes.length h2 h.nodes.length (Node.mk nt.t_line d)
        nt.t_next hrest2 (by simp at hlen; omega) hq
        (fun a ha => by have := hcs_lt a ha; omega)
    refine ⟨h4, some h.nodes.length, (h.nodes.length, nt.t_line) :: zs, ?_, hchain, ?_, ?_, ?_,
      by omega, ?_⟩
    · simp only [textCopy, hstep, textCopyLoop_some, hrun, hend]
    · simp [hzs, hline]
    · intro a ha
      simp only [List.map_cons, List.mem_cons] at ha
      rcases ha with ha | ha
      · omega
      · have := hfresh a ha; omega
    · intro a ha
      rw [hold4 a (by omega) (by omega), hold a ha]
    · intro x
      rw [hlinks4, hlinks, refs_cons, hline]
      omega

/-- The walk to the last cell of a non-empty buffer. -/
theorem walkToLast_spec (h : Heap) :
    ∀ (xs : List (Nat × Option Nat)) (fuel a : Nat), isChain h (some a) xs = true →
      xs.length ≤ fuel →
      ∃ pre lb nlb, xs = pre ++ [(lb, nlb.t_line)] ∧ walkToLast fuel h a = .ok lb
        ∧ h.node lb = some nlb ∧ isSeg h (some a) pre (some lb) = true := by
  intro xs
  induction xs with
  | nil => intro fuel a hc _; rw [isChain_nil] at hc; cases hc
  | cons c cs ih =>
    intro fuel a hc hfuel
    rw [isChain_cons] at hc
    obtain ⟨ha, n, hn, hline, hrest⟩ := hc
    have hac : a = c.1 := Option.some.inj ha
    subst hac
    obtain ⟨fuel, rfl⟩ : ∃ k, fuel = k + 1 := ⟨fuel - 1, by simp at hfuel; omega⟩
    cases cs with
    | nil =>
      rw [isChain_nil] at hrest
      refine ⟨[], c.1, n, ?_, ?_, hn, (isSeg_nil _ _ _).2 rfl⟩
      · rw [hline]; rfl
      · simp [walkToLast, hn, hrest]
    | cons c2 cs2 =>
      have hnext : n.t_next = some c2.1 := ((isChain_cons h _ c2 cs2).1 hrest).1
      rw [hnext] at hrest
      obtain ⟨pre, lb, nlb, hsplit, hwalk, hlb, hseg⟩ := ih fuel c2.1 hrest
        (by simp at hfuel ⊢; omega)
      refine ⟨c :: pre, lb, nlb, by rw [hsplit]; rfl, ?_, hlb, ?_⟩
      · simp [walkToLast, hn, hnext, hwalk]
      · rw [isSeg_cons]
        exact ⟨rfl, n, hn, hline, by rw [hnext]; exact hseg⟩

/-- What `textAdd` does to two well-formed buffers without a common cell, the first not
empty, when every allocation succeeds. -/
theorem textAdd_spec (al : Alloc) (hal : ∀ k, al.ok k = true) (h : Heap) (a : Nat)
    (o : Option Nat) (xs ys : List (Nat × Option Nat))
    (hb : isChain h (some a) xs = true) (ho : isChain h o ys = true)
    (hdisj : ∀ x ∈ ys.map Prod.fst, x ∉ xs.map Prod.fst) :
    ∃ h2 zs, textAdd al h (some a) o = .ok (h2, some a)
      ∧ isChain h2 (some a) (xs ++ zs) = true
      ∧ zs.map Prod.snd = ys.map Prod.snd
      ∧ (∀ x ∈ zs.map Prod.fst, h.nodes.length ≤ x)
      ∧ isChain h2 o ys = true
      ∧ (∀ x, h2.links x = h.links x + refs ys x) := by
  cases ys with
  | nil =>
    rw [isChain_nil] at ho
    subst ho
    exact ⟨h, [], rfl, by simpa using hb, rfl, by simp, (isChain_nil _ _).2 rfl,
      fun x => by simp [refs]⟩
  | cons c ys =>
    have ho' := ho
    rw [isChain_cons] at ho'
    obtain ⟨hoc, _⟩ := ho'
    subst hoc
    obtain ⟨pre, lb, nlb, hsplit, hwalk, hlb, hseg⟩ :=
      walkToLast_spec h xs (h.nodes.length + 1) a hb
        (by have := isChain_length_le h xs _ hb; omega)
    have hlb_mem : lb ∈ xs.map Prod.fst := by rw [hsplit]; simp
    have hys_ne : ∀ x ∈ (c :: ys).map Prod.fst, x ≠ lb := by
      intro x hx hxl
      exact hdisj x hx (by rw [hxl]; exact hlb_mem)
    obtain ⟨h1, l1, h2, zs, hrun, hend, hchain, hzs, hfresh, hold, hlen, hlinks⟩ :=
      textAddLoop_spec al hal (c :: ys) (h.nodes.length + 1) h lb nlb (some c.1) ho
        (by have := isChain_length_le h (c :: ys) _ ho; omega) hlb hys_ne
    have hnd : (xs.map Prod.fst).Nodup := isChain_nodup h xs _ hb
    have hpre_ne : ∀ x ∈ pre.map Prod.fst, x ≠ lb := by
      intro x hx hxl
      rw [hsplit, List.map_append, List.nodup_append] at hnd
      exact hnd.2.2 hx (by simp [hxl])
    have hpre_lt : ∀ x ∈ pre.map Prod.fst, x < h.nodes.length := isSeg_lt h pre _ _ hseg
    have hseg2 : isSeg h2 (some a) pre (some lb) = true :=
      isSeg_frame h h2 pre _ _ (fun x hx => hold x (hpre_lt x hx) (hpre_ne x hx)) hseg
    have hys_lt : ∀ x ∈ (c :: ys).map Prod.fst, x < h.nodes.length := isSeg_lt h _ _ none ho
    refine ⟨h2, zs, ?_, ?_, hzs, hfresh, ?_, hlinks⟩
    · simp only [textAdd, hwalk, hrun, hend]
    · rw [hsplit, List.append_assoc]
      exact isSeg_append h2 pre _ _ _ none hseg2 hchain
    · exact isSeg_frame h h2 _ _ _ (fun x hx => hold x (hys_lt x hx) (hys_ne x hx)) ho

/-- What `textDestroy` does to a well-formed buffer. -/
theorem textDestroyLoop_spec :
    ∀ (cs : List (Nat × Option Nat)) (fuel : Nat) (h : Heap) (p : Option Nat),
      isChain h p cs = true → cs.length ≤ fuel →
      ∃ h2, textDestroyLoop fuel h p = .ok h2
        ∧ (∀ a ∈ cs.map Prod.fst, h2.node a = none)
        ∧ (∀ a, a ∉ cs.map Prod.fst → h2.node a = h.node a)
        ∧ (∀ x, h2.links x = h.links x - refs cs x) := by
  intro cs
  induction cs with
  | nil =>
    intro fuel h p hc _
    rw [isChain_nil] at hc
    subst hc
    refine ⟨h, by cases fuel <;> rfl, by simp, fun _ _ => rfl, fun x => by simp [refs]⟩
  | cons c cs ih =>
    intro fuel h p hc hfuel
    have hnd := isChain_nodup h (c :: cs) p hc
    rw [isChain_cons] at hc
    obtain ⟨hp, n, hn, hline, hrest⟩ := hc
    subst hp
    obtain ⟨fuel, rfl⟩ : ∃ k, fuel = k + 1 := ⟨fuel - 1, by simp at hfuel; omega⟩
    simp only [List.map_cons, List.nodup_cons] at hnd
    have hrest2 : isChain ((unlinkIf h n.t_line).free c.1) n.t_next cs = true := by
      apply isSeg_frame h _ cs _ _ _ hrest
      intro a ha
      have : a ≠ c.1 := fun e => hnd.1 (e ▸ ha)
      rw [node_free_other _ _ _ this, unlinkIf_node]
    obtain ⟨h2, hrun, hfreed, hother, hlinks⟩ := ih fuel _ _ hrest2 (by simp at hfuel; omega)
    refine ⟨h2, by simp only [textDestroyLoop, hn, hrun], ?_, ?_, ?_⟩
    · intro a ha
      simp only [List.map_cons, List.mem_cons] at ha
      rcases ha with ha | ha
      · rw [ha, hother c.1 hnd.1, node_free_same]
      · exact hfreed a ha
    · intro a ha
      simp only [List.map_cons, List.mem_cons, not_or] at ha
      rw [hother a ha.2, node_free_other _ _ _ ha.1, unlinkIf_node]
    · intro x
      rw [hlinks]
      show (unlinkIf h n.t_line).links x - refs cs x = _
      rw [unlinkIf_links, refs_cons, hline]
      omega

theorem textDestroy_spec (h : Heap) (p : Option Nat) (cs : List (Nat × Option Nat))
    (hc : isChain h p cs = true) :
    ∃ h2, textDestroy h p = .ok h2
      ∧ (∀ a ∈ cs.map Prod.fst, h2.node a = none)
      ∧ (∀ a, a ∉ cs.map Prod.fst → h2.node a = h.node a)
      ∧ (∀ x, h2.links x = h.links x - refs cs x) :=
  textDestroyLoop_spec cs (h.nodes.length + 1) h p hc
    (by have := isChain_length_le h cs p hc; omega)


/-! ## Claims -/

theorem refs_congr (cs zs : List (Nat × Option Nat)) (h : zs.map Prod.snd = cs.map Prod.snd)
    (x : Nat) : refs zs x = refs cs x := by
  simp only [refs, h]

/-- C15: for a non-empty buffer `b` (cells `xs`) and a buffer `o` (cells `ys`) with no
cell in common, when the allocations succeed, `textAdd(b, o)` returns the head of `b`; the
buffer it heads is then the cells of `b` followed by fresh cells holding the lines of `o`
in order (NULL lines staying NULL), so its line sequence is that of `b` followed by that
of `o`; `o` still has the same cells and lines; and the share count of each line has
risen by the number of cells of `o` that hold it. -/
theorem C15_textAdd_appends (al : Alloc) (hal : ∀ k, al.ok k = true) (h : Heap) (a : Nat)
    (o : Option Nat) (xs ys : List (Nat × Option Nat))
    (hb : isChain h (some a) xs = true) (ho : isChain h o ys = true)
    (hdisj : ∀ x ∈ ys.map Prod.fst, x ∉ xs.map Prod.fst) :
    ∃ h2 zs, textAdd al h (some a) o = .ok (h2, some a)
      ∧ isChain h2 (some a) (xs ++ zs) = true
      ∧ (xs ++ zs).map Prod.snd = xs.map Prod.snd ++ ys.map Prod.snd
      ∧ (∀ x ∈ zs.map Prod.fst, h.nodes.length ≤ x)
      ∧ isChain h2 o ys = true
      ∧ (∀ l, h2.links l = h.links l + refs ys l) := by
  obtain ⟨h2, zs, hrun, hchain, hzs, hfresh, hsrc, hlinks⟩ :=
    textAdd_spec al hal h a o xs ys hb ho hdisj
  exact ⟨h2, zs, hrun, hchain, by rw [List.map_append, hzs], hfresh, hsrc, hlinks⟩

theorem C15_witness :
    (∃ h2 zs, textAdd allocOk heap0 (some 0) (some 3) = .ok (h2, some 0)
      ∧ isChain h2 (some 0) (cellsB ++ zs) = true
      ∧ (cellsB ++ zs).map Prod.snd = cellsB.map Prod.snd ++ cellsO.map Prod.snd
      ∧ (∀ x ∈ zs.map Prod.fst, heap0.nodes.length ≤ x)
      ∧ isChain h2 (some 3) cellsO = true
      ∧ (∀ l, h2.links l = heap0.links l + refs cellsO l))
    ∧ (match textAdd allocOk heap0 (some 0) (some 3) with
        | .ok (h2, p) => (p, isChain h2 p (cellsB ++ [(5, some 1), (6, some 2)]),
            (List.range 3).map h2.links)
        | .fault _ => (none, false, [])) = (some 0, true, [2, 4, 3]) :=
  ⟨C15_textAdd_appends allocOk (fun _ => rfl) heap0 0 (some 3) cellsB cellsO (by decide)
    (by decide) (by decide), by decide⟩

/-- C16: `textAdd(NULL, o)` is `textCopy(o)`: for every buffer `o`, the empty one
included, and whatever the allocator does, both calls end alike, with the same heap (so
the same share counts) and the same pointer returned (so the same line sequence).  For a
well-formed `o` and allocations that succeed, both return the same fresh chain holding
the lines of `o` in order, each share count having risen by the number of cells of `o`
holding the line. -/
theorem C16_textAdd_empty_is_textCopy (al : Alloc) (h : Heap) (o : Option Nat) :
    textAdd al h none o = textCopy al h o
    ∧ textAdd al h none none = .ok (h, none)
    ∧ ∀ ys, isChain h o ys = true → (∀ k, al.ok k = true) →
        ∃ h2 p zs, textAdd al h none o = .ok (h2, p) ∧ textCopy al h o = .ok (h2, p)
          ∧ isChain h2 p zs = true ∧ zs.map Prod.snd = ys.map Prod.snd
          ∧ ∀ l, h2.links l = h.links l + refs ys l := by
  refine ⟨rfl, ?_, fun ys hc hal => ?_⟩
  · show textCopy al h none = _
    simp [textCopy, textCopyLoop_none]
  · obtain ⟨h2, p, zs, hrun, hchain, hzs, _, _, _, hlinks⟩ := textCopy_spec al hal h o ys hc
    exact ⟨h2, p, zs, hrun, hrun, hchain, hzs, hlinks⟩

theorem C16_witness :
    ∃ h2 p zs, textAdd allocOk heap0 none (some 3) = .ok (h2, p)
      ∧ textCopy allocOk heap0 (some 3) = .ok (h2, p)
      ∧ isChain h2 p zs = true ∧ zs.map Prod.snd = cellsO.map Prod.snd
      ∧ ∀ l, h2.links l = heap0.links l + refs cellsO l :=
  (C16_textAdd_empty_is_textCopy allocOk heap0 (some 3)).2.2 cellsO (by decide) (fun _ => rfl)

/-- C17: for a non-empty buffer `b`, `textAdd(b, NULL)` returns `b` itself and changes
nothing in memory: the cells, hence the line sequence of `b`, and every share count are
as before. -/
theorem C17_textAdd_nothing (al : Alloc) (h : Heap) (a : Nat) :
    ∃ h2, textAdd al h (some a) none = .ok (h2, some a)
      ∧ h2.nodes = h.nodes
      ∧ (∀ l, h2.links l = h.links l)
      ∧ ∀ xs, isChain h (some a) xs = true → isChain h2 (some a) xs = true :=
  ⟨h, rfl, rfl, fun _ => rfl, fun _ hx => hx⟩

theorem C17_witness :
    ∃ h2, textAdd allocOk heap0 (some 0) none = .ok (h2, some 0)
      ∧ h2.nodes = heap0.nodes
      ∧ (∀ l, h2.links l = heap0.links l)
      ∧ ∀ xs, isChain heap0 (some 0) xs = true → isChain h2 (some 0) xs = true :=
  C17_textAdd_nothing allocOk heap0 0

/-- C18: for every buffer `b` (cells `cs`, none for the empty buffer), when the
allocations succeed, `textCopy(b)` returns a chain of fresh cells of the same length
holding the same lines in the same order (NULL lines copied as NULL, the empty buffer
copied to NULL); `b` and every cell that existed before are unchanged; and the share
count of each line has risen by the number of cells of `b` that hold it. -/
theorem C18_textCopy_copies (al : Alloc) (hal : ∀ k, al.ok k = true) (h : Heap)
    (t : Option Nat) (cs : List (Nat × Option Nat)) (hc : isChain h t cs = true) :
    ∃ h2 p zs, textCopy al h t = .ok (h2, p) ∧ isChain h2 p zs = true
      ∧ zs.length = cs.length
      ∧ zs.map Prod.snd = cs.map Prod.snd
      ∧ (∀ a ∈ zs.map Prod.fst, h.nodes.length ≤ a)
      ∧ isChain h2 t cs = true
      ∧ (∀ a, a < h.nodes.length → h2.node a = h.node a)
      ∧ (∀ l, h2.links l = h.links l + refs cs l) := by
  obtain ⟨h2, p, zs, hrun, hchain, hzs, hfresh, hold, _, hlinks⟩ :=
    textCopy_spec al hal h t cs hc
  refine ⟨h2, p, zs, hrun, hchain, ?_, hzs, hfresh, ?_, hold, hlinks⟩
  · simpa using congrArg List.length hzs
  · exact isSeg_frame h h2 cs _ _ (fun a ha => hold a (isSeg_lt h cs _ _ hc a ha)) hc

theorem C18_witness :
    (∃ h2 p zs, textCopy allocOk heap0 (some 0) = .ok (h2, p) ∧ isChain h2 p zs = true
      ∧ zs.length = cellsB.length
      ∧ zs.map Prod.snd = cellsB.map Prod.snd
      ∧ (∀ a ∈ zs.map Prod.fst, heap0.nodes.length ≤ a)
      ∧ isChain h2 (some 0) cellsB = true
      ∧ (∀ a, a < heap0.nodes.length → h2.node a = heap0.node a)
      ∧ (∀ l, h2.links l = heap0.links l + refs cellsB l))
    ∧ (match textCopy allocOk heap0 (some 0) with
        | .ok (h2, p) => (p, isChain h2 p [(5, some 0), (6, none), (7, some 1)],
            (List.range 3).map h2.links)
        | .fault _ => (none, false, [])) = (some 5, true, [3, 4, 2]) :=
  ⟨C18_textCopy_copies allocOk (fun _ => rfl) heap0 (some 0) cellsB (by decide), by decide⟩

/-- C19: for a non-empty buffer `b` whose lines are live (share count at least 1), when
the allocations succeed, `textDestroy(textCopy(b))` leaves every share count as it was
before the copy, so none of the lines of `b` is freed, and `b` still has the same cells
and lines. -/
theorem C19_destroy_copy_restores (al : Alloc) (hal : ∀ k, al.ok k = true) (h : Heap)
    (a : Nat) (cs : List (Nat × Option Nat)) (hc : isChain h (some a) cs = true)
    (hlive : ∀ l, some l ∈ cs.map Prod.snd → 0 < h.links l) :
    ∃ h1 p h2, textCopy al h (some a) = .ok (h1, p) ∧ textDestroy h1 p = .ok h2
      ∧ (∀ l, h2.links l = h.links l)
      ∧ (∀ l, some l ∈ cs.map Prod.snd → 0 < h2.links l)
      ∧ isChain h2 (some a) cs = true := by
  obtain ⟨h1, p, zs, hrun, hchain, hzs, hfresh, hold, _, hlinks⟩ :=
    textCopy_spec al hal h (some a) cs hc
  obtain ⟨h2, hrun2, _, hother, hlinks2⟩ := textDestroy_spec h1 p zs hchain
  have hl : ∀ l, h2.links l = h.links l := by
    intro l
    rw [hlinks2, hlinks, refs_congr cs zs hzs]
    omega
  refine ⟨h1, p, h2, hrun, hrun2, hl, fun l hmem => by rw [hl]; exact hlive l hmem, ?_⟩
  apply isSeg_frame h h2 cs _ _ _ hc
  intro x hx
  have hlt := isSeg_lt h cs _ _ hc x hx
  rw [hother x (fun hmem => by have := hfresh x hmem; omega), hold x hlt]

theorem C19_witness :
    ∃ h1 p h2, textCopy allocOk heap0 (some 0) = .ok (h1, p) ∧ textDestroy h1 p = .ok h2
      ∧ (∀ l, h2.links l = heap0.links l)
      ∧ (∀ l, some l ∈ cellsB.map Prod.snd → 0 < h2.links l)
      ∧ isChain h2 (some 0) cellsB = true :=
  C19_destroy_copy_restores allocOk (fun _ => rfl) heap0 0 cellsB (by decide)
    (by
      intro l hl
      simp only [cellsB, List.map_cons, List.map_nil, List.mem_cons, Option.some.injEq,
        List.mem_singleton, reduceCtorEq, List.not_mem_nil, or_false, false_or] at hl
      rcases hl with rfl | rfl <;> decide)

/-- C20: for every buffer `b` (cells `cs`), `textDestroy(b)` returns after freeing every
cell of `b` and no other cell, and unlinking each line once per cell that holds it: the
share count of a line falls by the number of cells of `b` holding it (exactly so when the
count covers those references; a line held by no cell, and NULL lines, cause no unlink).
On the empty buffer it does nothing. -/
theorem C20_textDestroy_releases (h : Heap) (p : Option Nat) (cs : List (Nat × Option Nat))
    (hc : isChain h p cs = true) :
    (∃ h2, textDestroy h p = .ok h2
      ∧ (∀ a ∈ cs.map Prod.fst, h2.node a = none)
      ∧ (∀ a, a ∉ cs.map Prod.fst → h2.node a = h.node a)
      ∧ (∀ l, h2.links l = h.links l - refs cs l)
      ∧ (∀ l, refs cs l ≤ h.links l → h2.links l + refs cs l = h.links l))
    ∧ textDestroy h none = .ok h := by
  obtain ⟨h2, hrun, hfreed, hother, hlinks⟩ := textDestroy_spec h p cs hc
  exact ⟨⟨h2, hrun, hfreed, hother, hlinks, fun l hle => by rw [hlinks]; omega⟩, rfl⟩

theorem C20_witness :
    ((∃ h2, textDestroy heap0 (some 0) = .ok h2
      ∧ (∀ a ∈ cellsB.map Prod.fst, h2.node a = none)
      ∧ (∀ a, a ∉ cellsB.map Prod.fst → h2.node a = heap0.node a)
      ∧ (∀ l, h2.links l = heap0.links l - refs cellsB l)
      ∧ (∀ l, refs cellsB l ≤ heap0.links l → h2.links l + refs cellsB l = heap0.links l))
      ∧ textDestroy heap0 none = .ok heap0)
    ∧ (match textDestroy heap0 (some 0) with
        | .ok h2 => (h2.nodes, (List.range 3).map h2.links)
        | .fault _ => ([], [])) =
      ([none, none, none, some (Node.mk (some 1) (some 4)), some (Node.mk (some 2) none)],
        [1, 2, 2]) :=
  ⟨C20_textDestroy_releases heap0 (some 0) cellsB (by decide), by decide⟩

/-! ## Flattening -/

theorem textToBlobSize_total (lineGetData : Nat → List Nat) (h : Heap) :
    ∀ (cs : List (Nat × Option Nat)) (fuel : Nat) (p : Option Nat) (s : Nat),
      isChain h p cs = true → cs.length ≤ fuel →
      ∃ s1, textToBlobSize lineGetData fuel h p s = .ok s1 := by
  intro cs
  induction cs with
  | nil =>
    intro fuel p s hc _
    rw [isChain_nil] at hc
    subst hc
    exact ⟨s, by cases fuel <;> rfl⟩
  | cons c cs ih =>
    intro fuel p s hc hfuel
    rw [isChain_cons] at hc
    obtain ⟨hp, n, hn, _, hrest⟩ := hc
    subst hp
    obtain ⟨fuel, rfl⟩ : ∃ k, fuel = k + 1 := ⟨fuel - 1, by simp at hfuel; omega⟩
    have hf : cs.length ≤ fuel := by simp at hfuel; omega
    simp only [textToBlobSize, hn]
    cases n.t_line with
    | none => exact ih fuel _ _ hrest hf
    | some l => exact ih fuel _ _ hrest hf

theorem isChain_none (h : Heap) (cs : List (Nat × Option Nat))
    (hc : isChain h none cs = true) : cs = [] := by
  cases cs with
  | nil => rfl
  | cons c cs => simp [isChain, isSeg] at hc

theorem cellBytes_of_node (lineGetData : Nat → List Nat) (c : Nat × Option Nat) (n : Node)
    (hline : n.t_line = c.2) (d : List Nat) :
    (match n.t_line with
      | some l => d ++ lineGetData l
      | none => d) ++ [10] = d ++ cellBytes lineGetData c := by
  rw [hline]
  cases hl : c.2 <;> simp [cellBytes, hl]

/-- The second loop of `textToBlob` adds the flat form of the buffer to the sink. -/
theorem textToBlobLoop_spec (lineGetData : Nat → List Nat) (h : Heap) :
    ∀ (cs : List (Nat × Option Nat)) (fuel a : Nat) (b : Blob),
      isChain h (some a) cs = true → cs.length ≤ fuel →
      ∃ b1, textToBlobLoop lineGetData fuel h a b = .ok b1
        ∧ b1.data = b.data ++ flatten lineGetData cs := by
  intro cs
  induction cs with
  | nil => intro fuel a b hc _; rw [isChain_nil] at hc; cases hc
  | cons c cs ih =>
    intro fuel a b hc hfuel
    rw [isChain_cons] at hc
    obtain ⟨ha, n, hn, hline, hrest⟩ := hc
    have hac : a = c.1 := Option.some.inj ha
    subst hac
    obtain ⟨fuel, rfl⟩ : ∃ k, fuel = k + 1 := ⟨fuel - 1, by simp at hfuel; omega⟩
    have hf : cs.length ≤ fuel := by simp at hfuel; omega
    have hdata : (blobAddData (match n.t_line with
        | some l => blobAddData b (lineGetData l)
        | none => b) [10]).data = b.data ++ cellBytes lineGetData c := by
      rw [← cellBytes_of_node lineGetData c n hline b.data]
      cases n.t_line <;> rfl
    simp only [textToBlobLoop, hn]
    cases hnext : n.t_next with
    | none =>
      rw [hnext] at hrest
      have hnil := isChain_none h cs hrest
      subst hnil
      exact ⟨_, rfl, by rw [hdata]; simp [flatten]⟩
    | some a2 =>
      rw [hnext] at hrest
      obtain ⟨b1, hrun, hb1⟩ := ih fuel a2 _ hrest hf
      exact ⟨b1, hrun, by rw [hb1, hdata]; simp [flatten]⟩

/-- The loop of `textToFileblob` writes the flat form of the buffer to the sink. -/
theorem textToFileblobLoop_spec (lineGetData : Nat → List Nat) (h : Heap) :
    ∀ (cs : List (Nat × Option Nat)) (fuel a : Nat) (fb : FileBlob),
      isChain h (some a) cs = true → cs.length ≤ fuel →
      ∃ f1, textToFileblobLoop lineGetData fuel h a fb = .ok f1
        ∧ f1.written = fb.written ++ flatten lineGetData cs ∧ f1.fd = fb.fd := by
  intro cs
  induction cs with
  | nil => intro fuel a fb hc _; rw [isChain_nil] at hc; cases hc
  | cons c cs ih =>
    intro fuel a fb hc hfuel
    rw [isChain_cons] at hc
    obtain ⟨ha, n, hn, hline, hrest⟩ := hc
    have hac : a = c.1 := Option.some.inj ha
    subst hac
    obtain ⟨fuel, rfl⟩ : ∃ k, fuel = k + 1 := ⟨fuel - 1, by simp at hfuel; omega⟩
    have hf : cs.length ≤ fuel := by simp at hfuel; omega
    have hdata : (fileblobAddData (match n.t_line with
        | some l => fileblobAddData fb (lineGetData l)
        | none => fb) [10]).written = fb.written ++ cellBytes lineGetData c := by
      rw [← cellBytes_of_node lineGetData c n hline fb.written]
      cases n.t_line <;> rfl
    have hfd : (fileblobAddData (match n.t_line with
        | some l => fileblobAddData fb (lineGetData l)
        | none => fb) [10]).fd = fb.fd := by
      cases n.t_line <;> rfl
    simp only [textToFileblobLoop, hn]
    cases hnext : n.t_next with
    | none =>
      rw [hnext] at hrest
      have hnil := isChain_none h cs hrest
      subst hnil
      exact ⟨_, rfl, by rw [hdata]; simp [flatten], hfd⟩
    | some a2 =>
      rw [hnext] at hrest
      obtain ⟨f1, hrun, hf1, hfd1⟩ := ih fuel a2 _ hrest hf
      exact ⟨f1, hrun, by rw [hf1, hdata]; simp [flatten], by rw [hfd1, hfd]⟩

/-- What `textToBlob` does to a well-formed non-empty buffer and a sink. -/
theorem textToBlob_spec (lineGetData : Nat → List Nat) (createOk : Bool) (h : Heap) (a : Nat)
    (cs : List (Nat × Option Nat)) (b : Blob) (hc : isChain h (some a) cs = true) :
    ∃ b1, textToBlob lineGetData createOk h (some a) (some b) = .ok (h, some b1)
      ∧ b1.data = b.data ++ flatten lineGetData cs := by
  have hlen := isChain_length_le h cs _ hc
  obtain ⟨s, hs⟩ := textToBlobSize_total lineGetData h cs (h.nodes.length + 1) (some a) 0 hc
    (by omega)
  obtain ⟨b1, hrun, hb1⟩ := textToBlobLoop_spec lineGetData h cs (h.nodes.length + 1) a
    (blobGrow b s) hc (by omega)
  exact ⟨blobClose b1, by simp only [textToBlob, hs, hrun], hb1⟩

theorem textToBlob_create (lineGetData : Nat → List Nat) (h : Heap) (a : Nat) :
    textToBlob lineGetData true h (some a) none =
      textToBlob lineGetData true h (some a) (some (Blob.mk [] 0)) := rfl

/-- What `textToFileblob` does to a well-formed non-empty buffer and a sink. -/
theorem textToFileblob_spec (lineGetData : Nat → List Nat) (h : Heap) (a : Nat)
    (cs : List (Nat × Option Nat)) (fb : FileBlob) (hc : isChain h (some a) cs = true) :
    ∃ f1, textToFileblob lineGetData h (some a) (some fb) = .ok (h, some f1)
      ∧ f1.written = fb.written ++ flatten lineGetData cs ∧ f1.fd = fb.fd := by
  have hlen := isChain_length_le h cs _ hc
  obtain ⟨f1, hrun, hf1, hfd⟩ := textToFileblobLoop_spec lineGetData h cs
    (h.nodes.length + 1) a fb hc (by omega)
  exact ⟨f1, by simp only [textToFileblob, hrun], hf1, hfd⟩

theorem flatten_length (lineGetData : Nat → List Nat) (cs : List (Nat × Option Nat))
    (hlines : ∀ c ∈ cs, c.2 ≠ none) :
    (flatten lineGetData cs).length =
      ((cs.filterMap Prod.snd).map (fun l => (lineGetData l).length + 1)).sum := by
  induction cs with
  | nil => rfl
  | cons c cs ih =>
    have hc := hlines c (List.mem_cons_self _ _)
    have ih2 := ih (fun d hd => hlines d (List.mem_cons_of_mem _ hd))
    cases hl : c.2 with
    | none => exact absurd hl hc
    | some l =>
      simp only [flatten, cellBytes, hl, List.length_append, ih2, List.filterMap_cons,
        List.map_cons, List.sum_cons, List.length_cons, List.length_nil]

/-! ## Allocation failure -/

/-- When the allocation of the cell number `j` fails, the loop of `textAdd` ends in the
failed assertion `t_head != NULL`. -/
theorem textAddLoop_fails (al : Alloc) :
    ∀ (j : Nat) (ys : List (Nat × Option Nat)) (fuel : Nat) (h : Heap) (l : Nat) (nl : Node)
      (t : Option Nat),
      isChain h t ys = true → ys.length ≤ fuel → h.node l = some nl →
      (∀ a ∈ ys.map Prod.fst, a ≠ l) → j < ys.length →
      (∀ i, i < j → al.ok (h.nodes.length + i) = true) →
      al.ok (h.nodes.length + j) = false →
      textAddLoop al fuel h l t = .fault .assertion := by
  intro j
  induction j with
  | zero =>
    intro ys fuel h l nl t hc hfuel hl _ hj _ hfail
    cases ys with
    | nil => simp at hj
    | cons c ys =>
      rw [isChain_cons] at hc
      obtain ⟨ht, _⟩ := hc
      subst ht
      obtain ⟨fuel, rfl⟩ : ∃ k, fuel = k + 1 := ⟨fuel - 1, by simp at hfuel; omega⟩
      have hm : cli_malloc al h = (h, none) := by
        simp only [Nat.add_zero] at hfail
        simp [cli_malloc, hfail]
      simp only [textAddLoop, hm, hl]
  | succ j ih =>
    intro ys fuel h l nl t hc hfuel hl hne hj hok hfail
    cases ys with
    | nil => simp at hj
    | cons c ys =>
      rw [isChain_cons] at hc
      obtain ⟨ht, nt, hnt, _, hrest⟩ := hc
      subst ht
      obtain ⟨fuel, rfl⟩ : ∃ k, fuel = k + 1 := ⟨fuel - 1, by simp at hfuel; omega⟩
      have hc1 : c.1 ≠ l := hne c.1 (by simp)
      obtain ⟨h2, d, hstep, hlen, hq, _, hold, _⟩ :=
        textAddLoop_step al fuel h (by simpa using hok 0 (by omega)) l c.1 nl nt hl hnt hc1
      have hys_lt : ∀ a ∈ ys.map Prod.fst, a < h.nodes.length := isSeg_lt h ys _ none hrest
      have hrest2 : isChain h2 nt.t_next ys = true := by
        apply isSeg_frame h h2 ys _ _ _ hrest
        intro a ha
        exact hold a (hys_lt a ha) (hne a (by simp at ha ⊢; exact Or.inr ha))
      rw [hstep]
      apply ih ys fuel h2 h.nodes.length (Node.mk nt.t_line d) nt.t_next hrest2
        (by simp at hfuel; omega) hq (fun a ha => by have := hys_lt a ha; omega)
        (by simp at hj; omega)
      · intro i hi
        rw [hlen]
        have := hok (i + 1) (by omega)
        rw [show h.nodes.length + 1 + i = h.nodes.length + (i + 1) by omega]
        exact this
      · rw [hlen, show h.nodes.length + 1 + j = h.nodes.length + (j + 1) by omega]
        exact hfail

/-- When the allocation of the cell number `j` fails, `textCopy` ends in the failed
assertion `last != NULL`. -/
theorem textCopy_fails (al : Alloc) (h : Heap) (t : Option Nat)
    (cs : List (Nat × Option Nat)) (j : Nat) (hc : isChain h t cs = true) (hj : j < cs.length)
    (hok : ∀ i, i < j → al.ok (h.nodes.length + i) = true)
    (hfail : al.ok (h.nodes.length + j) = false) :
    textCopy al h t = .fault .assertion := by
  cases cs with
  | nil => simp at hj
  | cons c cs =>
    have hlen := isChain_length_le h (c :: cs) t hc
    rw [isChain_cons] at hc
    obtain ⟨ht, nt, hnt, _, hrest⟩ := hc
    subst ht
    cases j with
    | zero =>
      have hm : cli_malloc al h = (h, none) := by
        simp only [Nat.add_zero] at hfail
        simp [cli_malloc, hfail]
      simp only [textCopy, textCopyLoop, hm]
    | succ j =>
      obtain ⟨h2, d, hstep, hlen2, hq, hold, _⟩ :=
        textCopyLoop_first al h.nodes.length h (by simpa using hok 0 (by omega)) c.1 nt hnt
      have hcs_lt : ∀ a ∈ cs.map Prod.fst, a < h.nodes.length := isSeg_lt h cs _ none hrest
      have hrest2 : isChain h2 nt.t_next cs = true :=
        isSeg_frame h h2 cs _ _ (fun a ha => hold a (hcs_lt a ha)) hrest
      have hrun := textAddLoop_fails al j cs h.nodes.length h2 h.nodes.length
        (Node.mk nt.t_line d) nt.t_next hrest2 (by simp at hlen; omega) hq
        (fun a ha => by have := hcs_lt a ha; omega) (by simp at hj; omega)
        (fun i hi => by
          rw [hlen2, show h.nodes.length + 1 + i = h.nodes.length + (i + 1) by omega]
          exact hok (i + 1) (by omega))
        (by
          rw [hlen2, show h.nodes.length + 1 + j = h.nodes.length + (j + 1) by omega]
          exact hfail)
      simp only [textCopy, hstep, textCopyLoop_some, hrun]

/-- When the allocation of the cell number `j` fails, `textAdd` to a non-empty buffer ends
in the failed assertion `t_head != NULL`. -/
theorem textAdd_fails (al : Alloc) (h : Heap) (a : Nat) (o : Option Nat)
    (xs ys : List (Nat × Option Nat)) (j : Nat)
    (hb : isChain h (some a) xs = true) (ho : isChain h o ys = true)
    (hdisj : ∀ x ∈ ys.map Prod.fst, x ∉ xs.map Prod.fst) (hj : j < ys.length)
    (hok : ∀ i, i < j → al.ok (h.nodes.length + i) = true)
    (hfail : al.ok (h.nodes.length + j) = false) :
    textAdd al h (some a) o = .fault .assertion := by
  cases ys with
  | nil => simp at hj
  | cons c ys =>
    have ho' := ho
    rw [isChain_cons] at ho'
    obtain ⟨hoc, _⟩ := ho'
    subst hoc
    obtain ⟨pre, lb, nlb, hsplit, hwalk, hlb, _⟩ :=
      walkToLast_spec h xs (h.nodes.length + 1) a hb
        (by have := isChain_length_le h xs _ hb; omega)
    have hlb_mem : lb ∈ xs.map Prod.fst := by rw [hsplit]; simp
    have hys_ne : ∀ x ∈ (c :: ys).map Prod.fst, x ≠ lb := by
      intro x hx hxl
      exact hdisj x hx (by rw [hxl]; exact hlb_mem)
    have hrun := textAddLoop_fails al j (c :: ys) (h.nodes.length + 1) h lb nlb (some c.1) ho
      (by have := isChain_length_le h (c :: ys) _ ho; omega) hlb hys_ne hj hok hfail
    simp only [textAdd, hwalk, hrun]

/-- What `textAddMessage` does for an encoded message and a non-empty buffer: the lines
rendered are appended and the rendered buffer is destroyed, which leaves every share count
as the rendering left it. -/
theorem textAddMessage_encoded (al : Alloc) (hal : ∀ k, al.ok k = true) (h : Heap)
    (m : Message) (a : Nat) (xs ys : List (Nat × Option Nat))
    (henc : m.noEncoding = false)
    (hb : isChain (m.toText h).1 (some a) xs = true)
    (hr : isChain (m.toText h).1 (m.toText h).2 ys = true)
    (hdisj : ∀ x ∈ ys.map Prod.fst, x ∉ xs.map Prod.fst) :
    ∃ h3 zs, textAddMessage al h (some a) (some m) = .ok (h3, some a)
      ∧ isChain h3 (some a) (xs ++ zs) = true
      ∧ zs.map Prod.snd = ys.map Prod.snd
      ∧ (∀ x ∈ ys.map Prod.fst, h3.node x = none)
      ∧ (∀ l, h3.links l = (m.toText h).1.links l) := by
  obtain ⟨h2, zs, hrun, hchain, hzs, hfresh, hsrc, hlinks⟩ :=
    textAdd_spec al hal (m.toText h).1 a (m.toText h).2 xs ys hb hr hdisj
  obtain ⟨h3, hdes, hfreed, hother, hlinks3⟩ := textDestroy_spec h2 (m.toText h).2 ys hsrc
  have hys_lt := isSeg_lt (m.toText h).1 ys _ none hr
  refine ⟨h3, zs, ?_, ?_, hzs, hfreed, ?_⟩
  · simp only [textAddMessage, henc, Bool.false_eq_true, if_false, hrun, hdes]
  · apply isSeg_frame h2 h3 (xs ++ zs) _ _ _ hchain
    intro x hx
    apply hother x
    intro hmem
    rw [List.map_append, List.mem_append] at hx
    rcases hx with hx | hx
    · exact hdisj x hmem hx
    · have h1 := hfresh x hx
      have h2 := hys_lt x hmem
      omega
  · intro l
    rw [hlinks3, hlinks]
    omega

/-! ## More claims -/

/-- C21: for every non-empty buffer `t` (cells `cs`) and every sink, `textToBlob` returns
the sink with the flat form of `t` added after the bytes it held: for each cell in order
the bytes of its line followed by one newline, a NULL line giving the newline alone.  For
a sink just created, by the caller or by `textToBlob` itself, these are all its bytes.  The
heap is returned as it was, so `t` has the same cells and lines and every share count is
unchanged. -/
theorem C21_textToBlob_flattens (lineGetData : Nat → List Nat) (createOk : Bool) (h : Heap)
    (a : Nat) (cs : List (Nat × Option Nat)) (hc : isChain h (some a) cs = true) :
    (∀ b : Blob, ∃ h1 b1,
        textToBlob lineGetData createOk h (some a) (some b) = .ok (h1, some b1)
        ∧ b1.data = b.data ++ flatten lineGetData cs
        ∧ (b.data = [] → b1.data = flatten lineGetData cs)
        ∧ isChain h1 (some a) cs = true ∧ h1.nodes = h.nodes ∧ (∀ l, h1.links l = h.links l))
    ∧ (∃ h1 b1, textToBlob lineGetData true h (some a) none = .ok (h1, some b1)
        ∧ b1.data = flatten lineGetData cs
        ∧ isChain h1 (some a) cs = true ∧ h1.nodes = h.nodes ∧ (∀ l, h1.links l = h.links l))
    ∧ (∀ (c : Nat × Option Nat) (rest : List (Nat × Option Nat)),
        flatten lineGetData (c :: rest) =
          (match c.2 with
            | some l => lineGetData l
            | none => []) ++ [10] ++ flatten lineGetData rest)
    ∧ flatten lineGetData [] = [] := by
  refine ⟨fun b => ?_, ?_, fun c rest => rfl, rfl⟩
  · obtain ⟨b1, hrun, hb1⟩ := textToBlob_spec lineGetData createOk h a cs b hc
    exact ⟨h, b1, hrun, hb1, fun hb => by rw [hb1, hb]; rfl, hc, rfl, fun _ => rfl⟩
  · obtain ⟨b1, hrun, hb1⟩ := textToBlob_spec lineGetData true h a cs (Blob.mk [] 0) hc
    exact ⟨h, b1, by rw [textToBlob_create]; exact hrun, by rw [hb1]; rfl, hc, rfl,
      fun _ => rfl⟩

theorem C21_witness :
    (∃ h1 b1, textToBlob lineData0 true heap0 (some 0) none = .ok (h1, some b1)
      ∧ b1.data = flatten lineData0 cellsB
      ∧ isChain h1 (some 0) cellsB = true ∧ h1.nodes = heap0.nodes
      ∧ (∀ l, h1.links l = heap0.links l))
    ∧ flatten lineData0 cellsB = [97, 10, 10, 98, 99, 10] :=
  ⟨(C21_textToBlob_flattens lineData0 true heap0 0 cellsB (by decide)).2.1, by decide⟩

/-- C22, as stated, fails: on the empty buffer (NULL, which has no NULL line),
`textToBlob` into a sink just created does not return: `assert(t != NULL)` fails. -/
theorem C22_counterexample :
    isChain heap0 none [] = true
    ∧ (textToBlob lineData0 true heap0 none (blobCreate true)).failure = some Fault.assertion
    ∧ (textToBlob lineData0 true heap0 none none).failure = some Fault.assertion
    ∧ (match textToBlob lineData0 true heap0 none (blobCreate true) with
        | .ok _ => true
        | .fault _ => false) = false := by
  decide

/-- C22, amended: for every non-empty buffer without NULL lines, `textToBlob` into a sink
just created (by the caller, or by `textToBlob` itself) returns the sink, and the number
of bytes in it is the sum over the lines of the buffer of the byte length plus 1.  On the
empty buffer `textToBlob` does not return: `assert(t != NULL)` fails. -/
theorem C22_textToBlob_size (lineGetData : Nat → List Nat) (createOk : Bool) (h : Heap)
    (a : Nat) (cs : List (Nat × Option Nat)) (hc : isChain h (some a) cs = true)
    (hlines : ∀ c ∈ cs, c.2 ≠ none) :
    (∀ b : Blob, b.data = [] →
      ∃ b1, textToBlob lineGetData createOk h (some a) (some b) = .ok (h, some b1)
        ∧ b1.data.length =
            ((cs.filterMap Prod.snd).map (fun l => (lineGetData l).length + 1)).sum)
    ∧ (∃ b1, textToBlob lineGetData true h (some a) none = .ok (h, some b1)
        ∧ b1.data.length =
            ((cs.filterMap Prod.snd).map (fun l => (lineGetData l).length + 1)).sum)
    ∧ (cs.filterMap Prod.snd).length = cs.length
    ∧ (∀ b, textToBlob lineGetData createOk h none b = .fault .assertion) := by
  refine ⟨fun b hb => ?_, ?_, ?_, fun b => rfl⟩
  · obtain ⟨b1, hrun, hb1⟩ := textToBlob_spec lineGetData createOk h a cs b hc
    exact ⟨b1, hrun, by rw [hb1, hb, List.nil_append, flatten_length lineGetData cs hlines]⟩
  · obtain ⟨b1, hrun, hb1⟩ := textToBlob_spec lineGetData true h a cs (Blob.mk [] 0) hc
    exact ⟨b1, by rw [textToBlob_create]; exact hrun,
      by rw [hb1, List.nil_append, flatten_length lineGetData cs hlines]⟩
  · clear hc
    induction cs with
    | nil => rfl
    | cons c cs ih =>
      have hc := hlines c (List.mem_cons_self _ _)
      have ih2 := ih (fun d hd => hlines d (List.mem_cons_of_mem _ hd))
      cases hl : c.2 with
      | none => exact absurd hl hc
      | some l => simp [List.filterMap_cons, hl, ih2]

theorem C22_witness :
    (∃ b1, textToBlob lineData0 true heap0 (some 3) none = .ok (heap0, some b1)
      ∧ b1.data.length =
          ((cellsO.filterMap Prod.snd).map (fun l => (lineData0 l).length + 1)).sum)
    ∧ ((cellsO.filterMap Prod.snd).map (fun l => (lineData0 l).length + 1)).sum = 4 :=
  ⟨(C22_textToBlob_size lineData0 true heap0 3 cellsO (by decide) (by decide)).2.1,
    by decide⟩

/-- C23: for every non-empty buffer `t` (cells `cs`), `textToFileblob` writes to its sink
the very bytes `textToBlob` adds to a memory sink for the same `t`, the flat form of `t`,
with one newline for each NULL line; it returns the sink it was given, with these bytes
after those already written. -/
theorem C23_textToFileblob_same_bytes (lineGetData : Nat → List Nat) (createOk : Bool)
    (h : Heap) (a : Nat) (cs : List (Nat × Option Nat)) (fb : FileBlob) (b : Blob)
    (hc : isChain h (some a) cs = true) :
    ∃ f1 b1 bytes, textToFileblob lineGetData h (some a) (some fb) = .ok (h, some f1)
      ∧ textToBlob lineGetData createOk h (some a) (some b) = .ok (h, some b1)
      ∧ f1.written = fb.written ++ bytes ∧ b1.data = b.data ++ bytes
      ∧ bytes = flatten lineGetData cs
      ∧ f1 = { fb with written := fb.written ++ bytes } := by
  obtain ⟨b1, hrun, hb1⟩ := textToBlob_spec lineGetData createOk h a cs b hc
  obtain ⟨f1, hfrun, hf1, hfd⟩ := textToFileblob_spec lineGetData h a cs fb hc
  refine ⟨f1, b1, flatten lineGetData cs, hfrun, hrun, hf1, hb1, rfl, ?_⟩
  cases f1 with
  | mk fd w =>
    simp only at hf1 hfd
    rw [hf1, hfd]

theorem C23_witness :
    ∃ f1 b1 bytes,
      textToFileblob lineData0 heap0 (some 0) (some (FileBlob.mk 3 [120])) = .ok (heap0, some f1)
      ∧ textToBlob lineData0 true heap0 (some 0) (some (Blob.mk [] 0)) = .ok (heap0, some b1)
      ∧ f1.written = [120] ++ bytes ∧ b1.data = [] ++ bytes
      ∧ bytes = flatten lineData0 cellsB
      ∧ f1 = { FileBlob.mk 3 [120] with written := [120] ++ bytes } :=
  C23_textToFileblob_same_bytes lineData0 true heap0 0 cellsB (FileBlob.mk 3 [120])
    (Blob.mk [] 0) (by decide)

/-- C24, as stated, fails: when the second allocation of `textCopy` fails (one cell has
been allocated), or the first of the loop of `textAdd`, the call does not return a failure
indicator: it does not return at all, an assertion having failed. -/
theorem C24_counterexample :
    (allocFailAt 6).ok 5 = true ∧ (allocFailAt 6).ok 6 = false
    ∧ (textCopy (allocFailAt 6) heap0 (some 0)).failure = some Fault.assertion
    ∧ (textAdd (allocFailAt 5) heap0 (some 0) (some 3)).failure = some Fault.assertion
    ∧ (match textCopy (allocFailAt 6) heap0 (some 0) with
        | .ok _ => true
        | .fault _ => false) = false := by
  decide

/-- C24, amended: if a cell allocation fails during `textCopy`, or during the loop of
`textAdd`, after `j >= 0` cells have been allocated, the call does not return to its
caller: the assertion on the pointer just obtained (`last != NULL`, `t_head != NULL`)
fails. -/
theorem C24_allocation_failure_asserts (al : Alloc) (h : Heap) (j : Nat)
    (hok : ∀ i, i < j → al.ok (h.nodes.length + i) = true)
    (hfail : al.ok (h.nodes.length + j) = false) :
    (∀ t cs, isChain h t cs = true → j < cs.length → textCopy al h t = .fault .assertion)
    ∧ (∀ a o xs ys, isChain h (some a) xs = true → isChain h o ys = true →
        (∀ x ∈ ys.map Prod.fst, x ∉ xs.map Prod.fst) → j < ys.length →
        textAdd al h (some a) o = .fault .assertion)
    ∧ (∀ o ys, isChain h o ys = true → j < ys.length →
        textAdd al h none o = .fault .assertion) := by
  refine ⟨fun t cs hc hj => textCopy_fails al h t cs j hc hj hok hfail,
    fun a o xs ys hb ho hdisj hj => textAdd_fails al h a o xs ys j hb ho hdisj hj hok hfail,
    fun o ys ho hj => ?_⟩
  show textCopy al h o = _
  exact textCopy_fails al h o ys j ho hj hok hfail

theorem C24_witness :
    textCopy (allocFailAt 6) heap0 (some 0) = .fault .assertion
    ∧ textAdd (allocFailAt 6) heap0 (some 0) (some 3) = .fault .assertion :=
  ⟨(C24_allocation_failure_asserts (allocFailAt 6) heap0 1
      (by intro i hi; have hi0 : i = 0 := by omega
          subst hi0; rfl) rfl).1 (some 0) cellsB (by decide) (by decide),
    (C24_allocation_failure_asserts (allocFailAt 6) heap0 1
      (by intro i hi; have hi0 : i = 0 := by omega
          subst hi0; rfl) rfl).2.1 0 (some 3) cellsB cellsO (by decide) (by decide)
      (by decide) (by decide)⟩

/-- C25: for every buffer `a` and message `m`: when `m` has no transfer encoding,
`textAddMessage(a, m)` is `textAdd(a, body(m))`.  Otherwise, with `r` the buffer rendered
by `messageToText(m)`: when `a` is empty the call returns `r` itself and the heap as the
rendering left it; when `a` is not empty (and the allocations succeed) it returns `a` with
cells appended that hold the lines of `r` in order, the cells of `r` are freed, and every
share count is the one the rendering left, so each rendered line has the share count it
had when `r` was created. -/
theorem C25_textAddMessage (al : Alloc) (h : Heap) (m : Message) :
    (m.noEncoding = true → ∀ a, textAddMessage al h a (some m) = textAdd al h a m.body)
    ∧ (m.noEncoding = false → textAddMessage al h none (some m) = .ok (m.toText h))
    ∧ (m.noEncoding = false → (∀ k, al.ok k = true) →
        ∀ a xs ys, isChain (m.toText h).1 (some a) xs = true →
          isChain (m.toText h).1 (m.toText h).2 ys = true →
          (∀ x ∈ ys.map Prod.fst, x ∉ xs.map Prod.fst) →
          ∃ h3 zs, textAddMessage al h (some a) (some m) = .ok (h3, some a)
            ∧ isChain h3 (some a) (xs ++ zs) = true
            ∧ (xs ++ zs).map Prod.snd = xs.map Prod.snd ++ ys.map Prod.snd
            ∧ (∀ x ∈ ys.map Prod.fst, h3.node x = none)
            ∧ (∀ l, h3.links l = (m.toText h).1.links l)) := by
  refine ⟨fun hno a => ?_, fun henc => ?_, fun henc hal a xs ys hb hr hdisj => ?_⟩
  · simp [textAddMessage, hno]
  · simp [textAddMessage, henc]
  · obtain ⟨h3, zs, hrun, hchain, hzs, hfreed, hlinks⟩ :=
      textAddMessage_encoded al hal h m a xs ys henc hb hr hdisj
    exact ⟨h3, zs, hrun, hchain, by rw [List.map_append, hzs], hfreed, hlinks⟩

theorem C25_witness :
    (∀ a, textAddMessage allocOk heap0 a (some msgPlain) = textAdd allocOk heap0 a (some 3))
    ∧ (∃ h3 zs, textAddMessage allocOk heap0 (some 0) (some msgEncoded) = .ok (h3, some 0)
        ∧ isChain h3 (some 0) (cellsB ++ zs) = true
        ∧ (cellsB ++ zs).map Prod.snd = cellsB.map Prod.snd ++ [some 7]
        ∧ (∀ x ∈ [5], h3.node x = none)
        ∧ (∀ l, h3.links l = (msgEncoded.toText heap0).1.links l))
    ∧ (match textAddMessage allocOk heap0 (some 0) (some msgEncoded) with
        | .ok (h2, p) => (p, isChain h2 p (cellsB ++ [(6, some 7)]), h2.links 7, h2.node 5)
        | .fault _ => (none, false, 0, none)) = (some 0, true, 1, none) :=
  ⟨(C25_textAddMessage allocOk heap0 msgPlain).1 rfl,
    (C25_textAddMessage allocOk heap0 msgEncoded).2.2 rfl (fun _ => rfl) 0 cellsB
      [(5, some 7)] (by decide) (by decide) (by decide),
    by decide⟩

end Text
